/-
Verification of the jobsched scheduling core against its specification.

The development shallowly embeds the relevant parts of the source:
  * `PyDict`       — the dict/hash model behind `ParameterValues`
                     (src/jobsched/parameters.py, lines 31-36);
  * `DU.Value` and `DU.deepupdate` — the generic tree-of-values merge
                     (src/jobsched/helpers.py, lines 21-39) and the
                     inheritance step (src/jobsched/jobs.py, lines 183-195);
  * `Sched.recombine` — `ParameterCombinations.recombine`
                     (src/jobsched/parameters.py, lines 97-105);
  * `Sched.getRunState` — `get_run_state` (src/jobsched/jobs.py, 89-121);
  * `Sched.run`    — `Job.schedule_tree` / `Job.schedule_run`
                     (src/jobsched/jobs.py, lines 325-609).

Machine integers do not occur; all Python values involved are strings,
booleans and dictionaries.  Fallible Python code (KeyError on unguarded
dictionary lookups, RuntimeError) is modelled with `Except`.
-/
import Mathlib

/-! ### Generic association-list helpers

Python dictionaries with string keys are modelled as association lists.
`alGet` is `d[k]` / `d.get(k)`, `alSet` is `d[k] = v` (updating the first
binding in place, appending a fresh key at the end, exactly like the
insertion-ordered Python dict). -/

def alGet {β : Type} (m : List (String × β)) (k : String) : Option β :=
  match m with
  | [] => none
  | (k₁, v₁) :: rest => if k₁ = k then some v₁ else alGet rest k

def alSet {β : Type} (m : List (String × β)) (k : String) (v : β) :
    List (String × β) :=
  match m with
  | [] => [(k, v)]
  | (k₁, v₁) :: rest =>
      if k₁ = k then (k₁, v) :: rest else (k₁, v₁) :: alSet rest k v

def alHas {β : Type} (m : List (String × β)) (k : String) : Bool :=
  (alGet m k).isSome

theorem alGet_alSet_self {β : Type} (m : List (String × β)) (k : String)
    (v : β) : alGet (alSet m k v) k = some v := by
  induction m with
  | nil => simp [alSet, alGet]
  | cons hd tl ih =>
      obtain ⟨k₁, v₁⟩ := hd
      by_cases h : k₁ = k <;> simp [alSet, alGet, h, ih]

theorem alGet_alSet_other {β : Type} (m : List (String × β)) (k k' : String)
    (v : β) (hne : k ≠ k') : alGet (alSet m k v) k' = alGet m k' := by
  induction m with
  | nil => simp [alSet, alGet, hne]
  | cons hd tl ih =>
      obtain ⟨k₁, v₁⟩ := hd
      by_cases h : k₁ = k
      · subst h
        simp [alSet, alGet, hne]
      · simp [alSet, alGet, h, ih]

/-! ### PyDict: the dict model behind `ParameterValues`

`ParameterValues` subclasses `dict` and overrides only `__hash__` (as
`hash(frozenset(self.items()))`) and `__str__`.  A Python dict is an
insertion-ordered sequence of bindings with unique keys; two dicts compare
equal iff they bind the same keys to the same values, regardless of the
insertion order.  We model a `ParameterValues` object as the list of its
bindings in insertion order, built by `mkDict` from the sequence of
insertions that created it. -/

namespace PyDict

/-- One insertion `d[k] = v` into a Python dict: an existing binding is
updated in place, a fresh key is appended. -/
def insertPair (d : List (String × String)) (kv : String × String) :
    List (String × String) :=
  alSet d kv.1 kv.2

/-- A dict built from a sequence of insertions (insertion-ordered,
duplicate keys collapse onto the first position, last value wins). -/
def mkDict (l : List (String × String)) : List (String × String) :=
  l.foldl insertPair []

/-- Python dict equality `d1 == d2`: the same keys bound to the same
values, insertion order ignored. -/
def dictEq (d₁ d₂ : List (String × String)) : Bool :=
  d₁.all (fun kv => alGet d₂ kv.1 == some kv.2) &&
  d₂.all (fun kv => alGet d₁ kv.1 == some kv.2)

/-- Hash of a `ParameterValues` object: the source computes
`hash(frozenset(self.items()))`.  A frozenset hash is a commutative,
associative combination of the hashes of its distinct elements and hence
depends only on the set of items; we model it as the sum of an arbitrary
per-item hash `h` over the distinct items. -/
def pyHash (h : String × String → Nat) (d : List (String × String)) : Nat :=
  ((d.dedup).map h).sum

theorem insertPair_fresh (acc : List (String × String)) (k : String)
    (v : String) (h : alGet acc k = none) :
    insertPair acc (k, v) = acc ++ [(k, v)] := by
  induction acc with
  | nil => simp [insertPair, alSet]
  | cons a rest ih =>
      obtain ⟨k₁, v₁⟩ := a
      by_cases he : k₁ = k
      · simp [alGet, he] at h
      · simp only [alGet, he, if_false] at h
        simp only [insertPair, alSet, he, if_false, List.cons_append,
          List.cons.injEq, true_and]
        exact ih h

theorem alGet_append_single (acc : List (String × String))
    (k k' : String) (v : String) (hne : k' ≠ k) :
    alGet (acc ++ [(k, v)]) k' = alGet acc k' := by
  induction acc with
  | nil => simp [alGet, Ne.symm hne]
  | cons a rest ih =>
      obtain ⟨k₁, v₁⟩ := a
      by_cases h : k₁ = k' <;> simp [alGet, h, ih]

theorem mkDict_of_nodupkeys (l : List (String × String))
    (hnd : (l.map Prod.fst).Nodup) : mkDict l = l := by
  suffices h : ∀ acc : List (String × String),
      (l.map Prod.fst).Nodup → (∀ kv ∈ l, alGet acc kv.1 = none) →
      l.foldl insertPair acc = acc ++ l by
    simpa [mkDict] using h [] hnd (by intro kv _; simp [alGet])
  clear hnd
  induction l with
  | nil => intro acc _ _; simp
  | cons hd tl ih =>
      intro acc hnd hacc
      obtain ⟨k, v⟩ := hd
      have hfresh : alGet acc k = none := hacc (k, v) (by simp)
      have hset : insertPair acc (k, v) = acc ++ [(k, v)] :=
        insertPair_fresh acc k v hfresh
      have hnd₁ : (tl.map Prod.fst).Nodup := (List.nodup_cons.mp hnd).2
      have hhd : k ∉ tl.map Prod.fst := (List.nodup_cons.mp hnd).1
      have hacc₁ : ∀ kv ∈ tl, alGet (acc ++ [(k, v)]) kv.1 = none := by
        intro kv hkv
        have hne : kv.1 ≠ k := by
          intro he
          exact hhd (he ▸ List.mem_map_of_mem Prod.fst hkv)
        rw [alGet_append_single acc k kv.1 v hne]
        exact hacc kv (by simp [hkv])
      have := ih (acc ++ [(k, v)]) hnd₁ hacc₁
      simp only [List.foldl_cons, hset, this, List.append_assoc,
        List.singleton_append]

theorem alGet_eq_of_mem {l : List (String × String)}
    (hnd : (l.map Prod.fst).Nodup) {kv : String × String} (h : kv ∈ l) :
    alGet l kv.1 = some kv.2 := by
  induction l with
  | nil => simp at h
  | cons hd tl ih =>
      obtain ⟨k₁, v₁⟩ := hd
      rcases List.mem_cons.mp h with h₁ | h₁
      · subst h₁; simp [alGet]
      · have hne : k₁ ≠ kv.1 := by
          intro he
          have hni := (List.nodup_cons.mp hnd).1
          exact absurd (List.mem_map_of_mem Prod.fst h₁) (he ▸ hni)
        simpa [alGet, hne] using ih (List.nodup_cons.mp hnd).2 h₁

end PyDict

/-! ### Claim C6 — combination identity -/

/-- C6 (Combination identity): two `ParameterValues` built by inserting the
same key-value pairs in different orders are equal as Python dicts and have
equal hashes, so they deduplicate to one element in sets and collide to one
key in maps. -/
theorem C6_combination_identity (h : String × String → Nat)
    (l₁ l₂ : List (String × String)) (hperm : l₁.Perm l₂)
    (hnd : (l₁.map Prod.fst).Nodup) :
    PyDict.dictEq (PyDict.mkDict l₁) (PyDict.mkDict l₂) = true ∧
    PyDict.pyHash h (PyDict.mkDict l₁) = PyDict.pyHash h (PyDict.mkDict l₂) := by
  have hnd₂ : (l₂.map Prod.fst).Nodup := ((hperm.map Prod.fst).nodup_iff).mp hnd
  rw [PyDict.mkDict_of_nodupkeys l₁ hnd, PyDict.mkDict_of_nodupkeys l₂ hnd₂]
  constructor
  · simp only [PyDict.dictEq, Bool.and_eq_true, List.all_eq_true, beq_iff_eq]
    constructor
    · intro kv hkv
      exact PyDict.alGet_eq_of_mem hnd₂ (hperm.subset hkv)
    · intro kv hkv
      exact PyDict.alGet_eq_of_mem hnd (hperm.symm.subset hkv)
  · have hn₁ : l₁.Nodup := hnd.of_map
    have hn₂ : l₂.Nodup := hnd₂.of_map
    simp only [PyDict.pyHash, List.dedup_eq_self.mpr hn₁,
      List.dedup_eq_self.mpr hn₂]
    exact (hperm.map h).sum_eq

/-- Concrete witness for C6: the pairs a↦1, b↦2 inserted in the two orders. -/
theorem C6_combination_identity_witness :
    PyDict.dictEq (PyDict.mkDict [("a", "1"), ("b", "2")])
        (PyDict.mkDict [("b", "2"), ("a", "1")]) = true ∧
    PyDict.pyHash (fun kv => kv.1.length + 2 * kv.2.length)
        (PyDict.mkDict [("a", "1"), ("b", "2")]) =
      PyDict.pyHash (fun kv => kv.1.length + 2 * kv.2.length)
        (PyDict.mkDict [("b", "2"), ("a", "1")]) :=
  C6_combination_identity _ _ _ (by decide) (by decide)

/-! ### DU: the generic tree-of-values merge behind inheritance

`deepupdate(base, new)` (src/jobsched/helpers.py, lines 21-39) merges `new`
into `base`, dispatching on the runtime type of `base`: dicts merge by key
(keys of `base` keep their place, keys only in `new` are appended), lists
merge positionally (extra elements of `new` appended, a longer tail of
`base` kept), anything else is replaced by `new`.  A `base` that is a dict
or a list while `new` is of a different kind raises in Python (string
indexing / missing `.items()`); those cases are `Except.error`.  Scalars
(strings, numbers, booleans) are modelled as atomic values.

Python recursion depth is modelled with explicit fuel (the source has no
recursion guard); all theorems quantify over the fuel. -/

namespace DU

inductive Value where
  | scalar : String → Value
  | dict : List (String × Value) → Value
  | vlist : List Value → Value

/-- Monadic map over `Except`, evaluated left to right (the loop order of
the Python source). -/
def mapME {α β : Type} (g : α → Except Unit β) : List α → Except Unit (List β)
  | [] => .ok []
  | a :: as => do
      let b ← g a
      let bs ← mapME g as
      .ok (b :: bs)

/-- Monadic fold over `Except`, evaluated left to right. -/
def foldME {α β : Type} (g : β → α → Except Unit β) :
    β → List α → Except Unit β
  | acc, [] => .ok acc
  | acc, a :: as => do
      let acc₂ ← g acc a
      foldME g acc₂ as

/-- One entry of the dict phase of `deepupdate` (for a merge function
`du`): `base[k]` is merged under `new[k]` when `k in new`, kept
otherwise. -/
def dictStepG (du : Value → Value → Except Unit Value)
    (n : List (String × Value)) (kv : String × Value) :
    Except Unit (String × Value) :=
  match alGet n kv.1 with
  | some nv => (du kv.2 nv).map (fun v₂ => (kv.1, v₂))
  | none => .ok kv

/-- The merge `deepupdate(base, new)` of src/jobsched/helpers.py. -/
def deepupdate : Nat → Value → Value → Except Unit Value
  | 0, _, _ => .error ()
  | _ + 1, .scalar _, new => .ok new
  | f + 1, .dict b, new =>
      match new with
      | .dict n => do
          let upd ← mapME (fun kv => dictStepG (fun x y => deepupdate f x y) n kv) b
          .ok (.dict (upd ++ n.filter (fun kv => !(alHas b kv.1))))
      | _ => .error ()
  | f + 1, .vlist b, new =>
      match new with
      | .vlist n => do
          let upd ← mapME (fun p => deepupdate f p.1 p.2) (b.zip n)
          .ok (.vlist (upd ++ b.drop n.length ++ n.drop b.length))
      | _ => .error ()

/-- One field of the inheritance merge: the parent's binding `kv` is
deep-merged under the child's value when the child declares the field and
copied otherwise (src/jobsched/jobs.py, lines 187-191). -/
def inhStepG (du : Value → Value → Except Unit Value)
    (jd : List (String × Value)) (kv : String × Value) :
    Except Unit (List (String × Value)) :=
  match alGet jd kv.1 with
  | some cv => (du kv.2 cv).map (fun v₂ => alSet jd kv.1 v₂)
  | none => .ok (alSet jd kv.1 kv.2)

/-- The body of the `inherits` branch of `JobList._add_inheritance`
(src/jobsched/jobs.py, lines 185-192): every field of the (already
resolved) parent is deep-merged under the child's value when the child
declares the field, copied otherwise, and the `inherits` reference is
deleted afterwards. -/
def addInheritance (f : Nat) (parent child : List (String × Value)) :
    Except Unit (List (String × Value)) := do
  let jd ← foldME (inhStepG (deepupdate f)) child parent
  .ok (jd.filter (fun kv => !(kv.1 == "inherits")))

end DU

/-! ### Helper lemmas for the merge theorems -/

theorem ebind_ok {α β : Type} (a : α) (g : α → Except Unit β) :
    ((Except.ok a : Except Unit α) >>= g) = g a := rfl

theorem ebind_error {α β : Type} (g : α → Except Unit β) :
    ((Except.error () : Except Unit α) >>= g) = .error () := rfl

theorem emap_ok {α β : Type} (a : α) (g : α → β) :
    ((Except.ok a : Except Unit α).map g) = .ok (g a) := rfl

theorem emap_error {α β : Type} (g : α → β) :
    ((Except.error () : Except Unit α).map g) = .error () := rfl

theorem alGet_append {β : Type} (xs ys : List (String × β)) (k : String) :
    alGet (xs ++ ys) k =
      match alGet xs k with
      | some v => some v
      | none => alGet ys k := by
  induction xs with
  | nil => simp [alGet]
  | cons a rest ih =>
      obtain ⟨k₁, v₁⟩ := a
      by_cases h : k₁ = k <;> simp [alGet, h, ih]

namespace DU


theorem alGet_filter_not_has (b : List (String × Value))
    (n : List (String × Value)) (k : String) :
    alGet (n.filter (fun kv => !(alHas b kv.1))) k =
      if alHas b k then none else alGet n k := by
  induction n with
  | nil => simp [alGet]
  | cons a rest ih =>
      obtain ⟨k₁, v₁⟩ := a
      by_cases hb : alHas b k₁ <;> by_cases hk : k₁ = k
      · subst hk
        simp [List.filter_cons, hb, ih]
      · simp [List.filter_cons, hb, alGet, hk, ih]
      · subst hk
        simp [List.filter_cons, hb, alGet]
      · simp [List.filter_cons, hb, alGet, hk, ih]

theorem alGet_filter_ne (l : List (String × Value)) (k₀ k : String) :
    alGet (l.filter (fun kv => !(kv.1 == k₀))) k =
      if k = k₀ then none else alGet l k := by
  induction l with
  | nil => simp [alGet]
  | cons a rest ih =>
      obtain ⟨k₁, v₁⟩ := a
      by_cases hb : k₁ = k₀
      · subst hb
        have hdrop : List.filter (fun kv => !(kv.1 == k₁)) ((k₁, v₁) :: rest) =
            List.filter (fun kv => !(kv.1 == k₁)) rest := by
          simp [List.filter_cons]
        rw [hdrop, ih]
        by_cases hk : k = k₁
        · simp [hk]
        · have hk2 : ¬ k₁ = k := fun h => hk h.symm
          rw [if_neg hk, if_neg hk]
          simp [alGet, hk2]
      · have hkeep : List.filter (fun kv => !(kv.1 == k₀)) ((k₁, v₁) :: rest) =
            (k₁, v₁) :: List.filter (fun kv => !(kv.1 == k₀)) rest := by
          simp [List.filter_cons, hb]
        rw [hkeep]
        by_cases hk : k₁ = k
        · subst hk
          simp [alGet, hb]
        · simp only [alGet, if_neg hk]
          rw [ih]

/-- Index-wise characterization of a successful `mapME`. -/
theorem mapME_get {α β : Type} (g : α → Except Unit β) :
    ∀ (l : List α) (u : List β), mapME g l = .ok u →
      u.length = l.length ∧
      ∀ (i : Nat) (x : α), l[i]? = some x →
        ∃ y, g x = .ok y ∧ u[i]? = some y := by
  intro l
  induction l with
  | nil =>
      intro u h
      simp only [mapME] at h
      cases h
      simp
  | cons a as ih =>
      intro u h
      simp only [mapME] at h
      cases hg : g a with
      | error e =>
          obtain ⟨⟩ := e
          rw [hg, ebind_error] at h
          cases h
      | ok b =>
          rw [hg, ebind_ok] at h
          cases hm : mapME g as with
          | error e =>
              obtain ⟨⟩ := e
              rw [hm, ebind_error] at h
              cases h
          | ok bs =>
              rw [hm, ebind_ok] at h
              cases h
              obtain ⟨hlen, hidx⟩ := ih bs hm
              refine ⟨by simp [hlen], ?_⟩
              intro i x hx
              cases i with
              | zero =>
                  simp only [List.getElem?_cons_zero, Option.some.injEq] at hx
                  subst hx
                  exact ⟨b, hg, by simp⟩
              | succ j =>
                  simp only [List.getElem?_cons_succ] at hx ⊢
                  exact hidx j x hx

/-- Key-wise characterization of the dict phase of `deepupdate`: keys of
the base dict keep their (first) binding, updated under the matching key
of the new dict when there is one. -/
theorem mapME_dictStepG (du : Value → Value → Except Unit Value)
    (n : List (String × Value)) :
    ∀ (b u : List (String × Value)),
      mapME (fun kv => dictStepG du n kv) b = .ok u →
      ∀ k : String,
        (alGet b k = none → alGet u k = none) ∧
        (∀ bv, alGet b k = some bv →
          (∀ nv, alGet n k = some nv →
            ∃ v₂, du bv nv = .ok v₂ ∧ alGet u k = some v₂) ∧
          (alGet n k = none → alGet u k = some bv)) := by
  intro b
  induction b with
  | nil =>
      intro u h
      simp only [mapME] at h
      cases h
      intro k
      exact ⟨fun _ => rfl, fun bv hbv => by cases hbv⟩
  | cons a rest ih =>
      intro u h
      obtain ⟨k₁, v₁⟩ := a
      simp only [mapME] at h
      cases hga : alGet n k₁ with
      | some nv₁ =>
          have hstep : dictStepG du n (k₁, v₁) =
              (du v₁ nv₁).map (fun v₂ => (k₁, v₂)) := by
            simp [dictStepG, hga]
          rw [hstep] at h
          cases hdu : du v₁ nv₁ with
          | error e =>
              obtain ⟨⟩ := e
              rw [hdu, emap_error, ebind_error] at h
              cases h
          | ok v₂ =>
              rw [hdu, emap_ok, ebind_ok] at h
              cases hm : mapME (fun kv => dictStepG du n kv) rest with
              | error e =>
                  obtain ⟨⟩ := e
                  rw [hm, ebind_error] at h
                  cases h
              | ok u₁ =>
                  rw [hm, ebind_ok] at h
                  cases h
                  intro k
                  by_cases hk : k₁ = k
                  · subst hk
                    refine ⟨by intro hc; simp [alGet] at hc, ?_⟩
                    intro bv hbv
                    rw [show alGet ((k₁, v₁) :: rest) k₁ = some v₁ by
                      simp [alGet]] at hbv
                    cases hbv
                    constructor
                    · intro nv hnv
                      rw [hga] at hnv
                      cases hnv
                      exact ⟨v₂, hdu, by simp [alGet]⟩
                    · intro hnone
                      rw [hga] at hnone
                      cases hnone
                  · have hrest := ih u₁ hm k
                    simpa [alGet, hk] using hrest
      | none =>
          have hstep : dictStepG du n (k₁, v₁) = .ok (k₁, v₁) := by
            simp [dictStepG, hga]
          rw [hstep, ebind_ok] at h
          cases hm : mapME (fun kv => dictStepG du n kv) rest with
          | error e =>
              obtain ⟨⟩ := e
              rw [hm, ebind_error] at h
              cases h
          | ok u₁ =>
              rw [hm, ebind_ok] at h
              cases h
              intro k
              by_cases hk : k₁ = k
              · subst hk
                refine ⟨by intro hc; simp [alGet] at hc, ?_⟩
                intro bv hbv
                rw [show alGet ((k₁, v₁) :: rest) k₁ = some v₁ by
                  simp [alGet]] at hbv
                cases hbv
                constructor
                · intro nv hnv
                  rw [hga] at hnv
                  cases hnv
                · intro _
                  simp [alGet]
              · have hrest := ih u₁ hm k
                simpa [alGet, hk] using hrest

end DU

theorem alGet_eq_none {β : Type} (l : List (String × β)) (k : String)
    (h : k ∉ l.map Prod.fst) : alGet l k = none := by
  induction l with
  | nil => rfl
  | cons a rest ih =>
      obtain ⟨k₁, v₁⟩ := a
      simp only [List.map_cons, List.mem_cons, not_or] at h
      have hne : ¬ k₁ = k := fun he => h.1 he.symm
      simp only [alGet, if_neg hne, ih h.2]

namespace DU

/-- Keys the parent does not declare pass through the inheritance fold
untouched. -/
theorem foldME_inh_preserve (du : Value → Value → Except Unit Value) :
    ∀ (parent jd jd₂ : List (String × Value)),
      foldME (inhStepG du) jd parent = .ok jd₂ →
      ∀ k, alGet parent k = none → alGet jd₂ k = alGet jd k := by
  intro parent
  induction parent with
  | nil =>
      intro jd jd₂ h k _
      simp only [foldME] at h
      cases h
      rfl
  | cons a rest ih =>
      intro jd jd₂ h k hget
      obtain ⟨k₁, v₁⟩ := a
      have hne : ¬ k₁ = k := by
        intro he
        simp [alGet, he] at hget
      have hrest : alGet rest k = none := by
        simpa [alGet, hne] using hget
      simp only [foldME] at h
      cases hjd : alGet jd k₁ with
      | some cv =>
          have hstep : inhStepG du jd (k₁, v₁) =
              (du v₁ cv).map (fun v₂ => alSet jd k₁ v₂) := by
            simp [inhStepG, hjd]
          rw [hstep] at h
          cases hdu : du v₁ cv with
          | error e =>
              obtain ⟨⟩ := e
              rw [hdu, emap_error, ebind_error] at h
              cases h
          | ok v₂ =>
              rw [hdu, emap_ok, ebind_ok] at h
              have := ih (alSet jd k₁ v₂) jd₂ h k hrest
              rw [this, alGet_alSet_other jd k₁ k v₂ hne]
      | none =>
          have hstep : inhStepG du jd (k₁, v₁) = .ok (alSet jd k₁ v₁) := by
            simp [inhStepG, hjd]
          rw [hstep, ebind_ok] at h
          have := ih (alSet jd k₁ v₁) jd₂ h k hrest
          rw [this, alGet_alSet_other jd k₁ k v₁ hne]

/-- A field declared by the parent but not by the child survives the
inheritance fold with the parent's value. -/
theorem foldME_inh_parent_only (du : Value → Value → Except Unit Value) :
    ∀ (parent jd jd₂ : List (String × Value)),
      (parent.map Prod.fst).Nodup →
      foldME (inhStepG du) jd parent = .ok jd₂ →
      ∀ k pv, alGet parent k = some pv → alGet jd k = none →
        alGet jd₂ k = some pv := by
  intro parent
  induction parent with
  | nil =>
      intro jd jd₂ _ h k pv hpv
      cases hpv
  | cons a rest ih =>
      intro jd jd₂ hnd h k pv hpv hjdk
      obtain ⟨k₁, v₁⟩ := a
      simp only [foldME] at h
      by_cases hk : k₁ = k
      · subst hk
        simp [alGet] at hpv
        subst hpv
        have hstep : inhStepG du jd (k₁, v₁) = .ok (alSet jd k₁ v₁) := by
          simp [inhStepG, hjdk]
        rw [hstep, ebind_ok] at h
        have hrest : alGet rest k₁ = none := by
          apply alGet_eq_none
          exact (List.nodup_cons.mp hnd).1
        have hpres := foldME_inh_preserve du rest (alSet jd k₁ v₁) jd₂ h k₁ hrest
        rw [hpres, alGet_alSet_self]
      · have hpv₁ : alGet rest k = some pv := by
          simpa [alGet, hk] using hpv
        cases hjd : alGet jd k₁ with
        | some cv =>
            have hstep : inhStepG du jd (k₁, v₁) =
                (du v₁ cv).map (fun v₂ => alSet jd k₁ v₂) := by
              simp [inhStepG, hjd]
            rw [hstep] at h
            cases hdu : du v₁ cv with
            | error e =>
                obtain ⟨⟩ := e
                rw [hdu, emap_error, ebind_error] at h
                cases h
            | ok v₂ =>
                rw [hdu, emap_ok, ebind_ok] at h
                refine ih (alSet jd k₁ v₂) jd₂ (List.nodup_cons.mp hnd).2 h k pv hpv₁ ?_
                rw [alGet_alSet_other jd k₁ k v₂ hk]
                exact hjdk
        | none =>
            have hstep : inhStepG du jd (k₁, v₁) = .ok (alSet jd k₁ v₁) := by
              simp [inhStepG, hjd]
            rw [hstep, ebind_ok] at h
            refine ih (alSet jd k₁ v₁) jd₂ (List.nodup_cons.mp hnd).2 h k pv hpv₁ ?_
            rw [alGet_alSet_other jd k₁ k v₁ hk]
            exact hjdk

end DU

/-! ### Claim C7 — inheritance deep-merge -/

/-- C7 (Inheritance deep-merge): `deepupdate` merges a child definition
over its parent exactly as specified — a scalar parent field is simply
overwritten by the child's value, dict fields are merged recursively key
by key (parent-only keys kept, child-only keys appended), list fields are
merged element-wise by position with any extra child elements appended and
a longer parent tail kept, and after the `_add_inheritance` step every
field present only in the parent is kept unchanged while no residual
`inherits` reference remains. -/
theorem C7_inheritance_deep_merge :
    (∀ (f : Nat) (s : String) (v : DU.Value),
        DU.deepupdate (f + 1) (.scalar s) v = .ok v)
    ∧ (∀ (f : Nat) (b n r : List (String × DU.Value)),
        DU.deepupdate (f + 1) (.dict b) (.dict n) = .ok (.dict r) →
        ∀ k : String,
          (∀ bv nv, alGet b k = some bv → alGet n k = some nv →
            ∃ v₂, DU.deepupdate f bv nv = .ok v₂ ∧ alGet r k = some v₂)
          ∧ (∀ bv, alGet b k = some bv → alGet n k = none →
              alGet r k = some bv)
          ∧ (∀ nv, alGet b k = none → alGet n k = some nv →
              alGet r k = some nv)
          ∧ (alGet b k = none → alGet n k = none → alGet r k = none))
    ∧ (∀ (f : Nat) (b n r : List DU.Value),
        DU.deepupdate (f + 1) (.vlist b) (.vlist n) = .ok (.vlist r) →
          r.length = max b.length n.length
          ∧ (∀ i, i < min b.length n.length →
              ∃ x y z, b[i]? = some x ∧ n[i]? = some y ∧
                DU.deepupdate f x y = .ok z ∧ r[i]? = some z)
          ∧ (∀ i, n.length ≤ i → r[i]? = b[i]?)
          ∧ (∀ i, b.length ≤ i → i < n.length → r[i]? = n[i]?))
    ∧ (∀ (f : Nat) (parent child res : List (String × DU.Value)),
        (parent.map Prod.fst).Nodup →
        DU.addInheritance f parent child = .ok res →
          alGet res "inherits" = none
          ∧ (∀ k pv, k ≠ "inherits" → alGet parent k = some pv →
              alGet child k = none → alGet res k = some pv)) := by
  refine ⟨?_, ?_, ?_, ?_⟩
  · intro f s v
    rfl
  · intro f b n r h k
    simp only [DU.deepupdate] at h
    cases hm : DU.mapME
        (fun kv => DU.dictStepG (fun x y => DU.deepupdate f x y) n kv) b with
    | error e =>
        obtain ⟨⟩ := e
        rw [hm, ebind_error] at h
        cases h
    | ok upd =>
        rw [hm, ebind_ok] at h
        have hr : upd ++ n.filter (fun kv => !(alHas b kv.1)) = r := by
          cases h
          rfl
        have hchar := DU.mapME_dictStepG
          (fun x y => DU.deepupdate f x y) n b upd hm k
        subst hr
        refine ⟨?_, ?_, ?_, ?_⟩
        · intro bv nv hbv hnv
          obtain ⟨v₂, hdu, hupd⟩ := (hchar.2 bv hbv).1 nv hnv
          exact ⟨v₂, hdu, by rw [alGet_append, hupd]⟩
        · intro bv hbv hnone
          have hupd := (hchar.2 bv hbv).2 hnone
          rw [alGet_append, hupd]
        · intro nv hbnone hnv
          have hupd := hchar.1 hbnone
          rw [alGet_append, hupd]
          have hhas : alHas b k = false := by
            simp [alHas, hbnone]
          simp only [DU.alGet_filter_not_has, hhas, Bool.false_eq_true,
            if_false, hnv]
        · intro hbnone hnnone
          have hupd := hchar.1 hbnone
          rw [alGet_append, hupd]
          have hhas : alHas b k = false := by
            simp [alHas, hbnone]
          simp only [DU.alGet_filter_not_has, hhas, Bool.false_eq_true,
            if_false, hnnone]
  · intro f b n r h
    simp only [DU.deepupdate] at h
    cases hm : DU.mapME (fun p => DU.deepupdate f p.1 p.2) (b.zip n) with
    | error e =>
        obtain ⟨⟩ := e
        rw [hm, ebind_error] at h
        cases h
    | ok upd =>
        rw [hm, ebind_ok] at h
        have hr : upd ++ b.drop n.length ++ n.drop b.length = r := by
          cases h
          rfl
        obtain ⟨hlen, hidx⟩ := DU.mapME_get
          (fun p => DU.deepupdate f p.1 p.2) (b.zip n) upd hm
        rw [List.length_zip] at hlen
        subst hr
        have hrlen : (upd ++ b.drop n.length ++ n.drop b.length).length =
            max b.length n.length := by
          simp only [List.length_append, List.length_drop, hlen]
          omega
        refine ⟨hrlen, ?_, ?_, ?_⟩
        · intro i hi
          have hib : i < b.length := lt_of_lt_of_le hi (min_le_left ..)
          have hin : i < n.length := lt_of_lt_of_le hi (min_le_right ..)
          have hz : (b.zip n)[i]? = some (b[i], n[i]) := by
            rw [List.getElem?_zip_eq_some]
            exact ⟨List.getElem?_eq_getElem hib, List.getElem?_eq_getElem hin⟩
          obtain ⟨z, hdu, hu⟩ := hidx i (b[i], n[i]) hz
          refine ⟨b[i], n[i], z, List.getElem?_eq_getElem hib,
            List.getElem?_eq_getElem hin, hdu, ?_⟩
          rw [List.getElem?_append, if_pos (by simp [List.length_append]; omega),
            List.getElem?_append, if_pos (by omega)]
          exact hu
        · intro i hni
          by_cases hbi : i < b.length
          · have hnb : n.length ≤ b.length := le_trans hni (le_of_lt hbi)
            have hul : upd.length = n.length := by
              rw [hlen]
              omega
            rw [List.append_assoc, List.getElem?_append, if_neg (by omega),
              List.getElem?_append]
            have hbdl : (b.drop n.length).length = b.length - n.length :=
              List.length_drop ..
            rw [if_pos (by rw [hbdl]; omega), List.getElem?_drop]
            congr 1
            omega
          · push_neg at hbi
            rw [List.getElem?_eq_none (by rw [hrlen]; omega),
              List.getElem?_eq_none (by omega)]
        · intro i hbi hin
          have hbn : b.length ≤ n.length := le_trans hbi (le_of_lt hin)
          have hul : upd.length = b.length := by
            rw [hlen]
            omega
          have hlen2 : (upd ++ b.drop n.length).length = b.length := by
            simp only [List.length_append, List.length_drop, hul]
            omega
          rw [List.getElem?_append, if_neg (by rw [hlen2]; omega), hlen2,
            List.getElem?_drop]
          congr 1
          omega
  · intro f parent child res hnd h
    simp only [DU.addInheritance] at h
    cases hf : DU.foldME (DU.inhStepG (DU.deepupdate f)) child parent with
    | error e =>
        obtain ⟨⟩ := e
        rw [hf, ebind_error] at h
        cases h
    | ok jd₂ =>
        rw [hf, ebind_ok] at h
        have hres : jd₂.filter (fun kv => !(kv.1 == "inherits")) = res := by
          cases h
          rfl
        subst hres
        constructor
        · rw [DU.alGet_filter_ne]
          simp
        · intro k pv hkne hpk hck
          rw [DU.alGet_filter_ne, if_neg hkne]
          exact DU.foldME_inh_parent_only (DU.deepupdate f) parent child jd₂
            hnd hf k pv hpk hck

/-- Concrete witness for C7: a scalar overwrite, a two-key dict merge, a
positional list merge with a kept tail, and an inheritance step that drops
the `inherits` field and keeps a parent-only field. -/
theorem C7_inheritance_deep_merge_witness :
    DU.deepupdate 6 (.scalar "a") (.dict []) = .ok (.dict [])
    ∧ (∃ v₂, DU.deepupdate 1 (.scalar "1") (.scalar "9") = .ok v₂ ∧
        alGet [("x", DU.Value.scalar "9"), ("p", DU.Value.scalar "2"),
          ("q", DU.Value.scalar "3")] "x" = some v₂)
    ∧ alGet [("x", DU.Value.scalar "9"), ("p", DU.Value.scalar "2"),
        ("q", DU.Value.scalar "3")] "p" = some (.scalar "2")
    ∧ alGet [("x", DU.Value.scalar "9"), ("p", DU.Value.scalar "2"),
        ("q", DU.Value.scalar "3")] "q" = some (.scalar "3")
    ∧ ([DU.Value.scalar "c", DU.Value.scalar "b"] : List DU.Value)[1]? =
        ([DU.Value.scalar "a", DU.Value.scalar "b"] : List DU.Value)[1]?
    ∧ alGet [("time", DU.Value.scalar "7"),
        ("workdir", DU.Value.scalar "w")] "inherits" = none
    ∧ alGet [("time", DU.Value.scalar "7"),
        ("workdir", DU.Value.scalar "w")] "workdir" = some (.scalar "w") := by
  have part2 := C7_inheritance_deep_merge.2.1 1
    [("x", .scalar "1"), ("p", .scalar "2")]
    [("x", .scalar "9"), ("q", .scalar "3")]
    [("x", .scalar "9"), ("p", .scalar "2"), ("q", .scalar "3")] rfl
  have part3 := C7_inheritance_deep_merge.2.2.1 1
    [.scalar "a", .scalar "b"] [.scalar "c"] [.scalar "c", .scalar "b"] rfl
  have part4 := C7_inheritance_deep_merge.2.2.2 2
    [("time", .scalar "5"), ("workdir", .scalar "w")]
    [("inherits", .scalar "base"), ("time", .scalar "7")]
    [("time", .scalar "7"), ("workdir", .scalar "w")] (by decide) rfl
  exact ⟨C7_inheritance_deep_merge.1 5 "a" (.dict []),
    (part2 "x").1 (.scalar "1") (.scalar "9") rfl rfl,
    (part2 "p").2.1 (.scalar "2") rfl rfl,
    (part2 "q").2.2.1 (.scalar "3") rfl rfl,
    part3.2.2.1 1 (by decide),
    part4.1,
    part4.2 "workdir" (.scalar "w") (by decide) rfl rfl⟩

/-! ### Sched: run states and the run-state resolver

`get_run_state` (src/jobsched/jobs.py, lines 89-121).  The identifier
`"local"` (after stripping) resolves to DONE without consulting the
external scheduler.  Otherwise the first line of the accounting query's
output, stripped, is the status code; the modelled branch is the `sacct`
one (the module-level `USE_PYSLURM` fallback), whose mapping the spec
describes.  An unrecognized status code raises `RuntimeError`. -/

namespace Sched

/-! Structural re-implementations of the Python string primitives used by
the scheduler (`str.strip`, `str.split`, lexicographic comparison).  The
Lean library versions are iterator-based and are avoided so that every
definition evaluates inside the kernel; these operate on the character
list of the string. -/

/-- Python `str.strip()`: drop leading and trailing whitespace. -/
def pyStrip (s : String) : String :=
  ⟨((s.data.dropWhile Char.isWhitespace).reverse.dropWhile
      Char.isWhitespace).reverse⟩

/-- Python `str.split(sep)` for a one-character separator; always returns
at least one (possibly empty) piece. -/
def splitOnChar (sep : Char) : List Char → List (List Char)
  | [] => [[]]
  | c :: rest =>
      match splitOnChar sep rest with
      | [] => [[]]
      | h :: t => if c = sep then [] :: h :: t else (c :: h) :: t

/-- Python `s.split(sep)[0]`. -/
def firstPiece (sep : Char) (s : String) : String :=
  ⟨(splitOnChar sep s.data).headD []⟩

/-- Lexicographic comparison of character lists by code point, the order
Python uses to compare and sort strings. -/
def listLe : List Char → List Char → Bool
  | [], _ => true
  | _ :: _, [] => false
  | a :: as, b :: bs =>
      if a.toNat < b.toNat then true
      else if b.toNat < a.toNat then false
      else listLe as bs

/-- Python string comparison `s <= t`. -/
def strLe (s t : String) : Bool :=
  listLe s.data t.data

inductive JobState where
  | DONE
  | WAITING
  | FAILED
  | RUNNING
deriving DecidableEq, Repr

/-- The status code extracted from the accounting query's raw output:
first line, stripped (src/jobsched/jobs.py, line 102). -/
def sacctStatus (out : String) : String :=
  pyStrip (firstPiece '\n' out)

/-- The recognized status codes of the `sacct` mapping, including the
empty response of a still-waiting array job. -/
def knownStatuses : List String :=
  ["", "PENDING", "RUNNING", "FAILED", "CANCELLED", "TIMEOUT",
   "OUT_OF_MEMORY", "COMPLETED"]

/-- `get_run_state(run_id)`, with the external query's raw stdout passed
explicitly as `sacctOut` (the function only reads it on the non-local
path). -/
def getRunState (runId : String) (sacctOut : String) : Except String JobState :=
  let rid := pyStrip runId
  if rid = "local" then .ok .DONE
  else
    let res := sacctStatus sacctOut
    if res = "" then .ok .WAITING
    else if res = "PENDING" then .ok .WAITING
    else if res = "RUNNING" then .ok .RUNNING
    else if res = "FAILED" ∨ res = "CANCELLED" ∨ res = "TIMEOUT" ∨
        res = "OUT_OF_MEMORY" then .ok .FAILED
    else if res = "COMPLETED" then .ok .DONE
    else .error ("Unknown job state " ++ res)

end Sched

/-! ### Claim C8 — run-state resolution -/

/-- C8 (Run-state resolution): `get_run_state` returns DONE for the
literal identifier `local` without looking at the scheduler's answer (the
result is the same whatever the query would have returned); on any other
identifier the status code is mapped onto the four-state enum exactly as
listed, every successful resolution comes from a recognized status code,
and an unrecognized status code is a fatal error. -/
theorem C8_run_state_resolution :
    (∀ runId s₁ s₂, Sched.pyStrip runId = "local" →
        Sched.getRunState runId s₁ = .ok .DONE ∧
        Sched.getRunState runId s₁ = Sched.getRunState runId s₂)
    ∧ (∀ runId s st, Sched.pyStrip runId ≠ "local" →
        Sched.getRunState runId s = .ok st →
        Sched.sacctStatus s ∈ Sched.knownStatuses)
    ∧ (∀ runId s, Sched.pyStrip runId ≠ "local" →
        Sched.sacctStatus s ∉ Sched.knownStatuses →
        ∃ msg, Sched.getRunState runId s = .error msg)
    ∧ (∀ runId s, Sched.pyStrip runId ≠ "local" →
        ((Sched.sacctStatus s = "" ∨ Sched.sacctStatus s = "PENDING") →
          Sched.getRunState runId s = .ok .WAITING)
        ∧ (Sched.sacctStatus s = "RUNNING" →
            Sched.getRunState runId s = .ok .RUNNING)
        ∧ ((Sched.sacctStatus s = "FAILED" ∨ Sched.sacctStatus s = "CANCELLED"
            ∨ Sched.sacctStatus s = "TIMEOUT"
            ∨ Sched.sacctStatus s = "OUT_OF_MEMORY") →
            Sched.getRunState runId s = .ok .FAILED)
        ∧ (Sched.sacctStatus s = "COMPLETED" →
            Sched.getRunState runId s = .ok .DONE)) := by
  refine ⟨?_, ?_, ?_, ?_⟩
  · intro runId s₁ s₂ hl
    constructor
    · simp [Sched.getRunState, hl]
    · simp [Sched.getRunState, hl]
  · intro runId s st hl hok
    by_contra hns
    simp only [Sched.getRunState, if_neg hl] at hok
    simp only [Sched.knownStatuses, List.mem_cons, List.mem_singleton,
      not_or] at hns
    obtain ⟨h₁, h₂, h₃, h₄, h₅, h₆, h₇, h₈, -⟩ := hns
    rw [if_neg h₁, if_neg h₂, if_neg h₃,
      if_neg (by simp [h₄, h₅, h₆, h₇]), if_neg h₈] at hok
    cases hok
  · intro runId s hl hns
    simp only [Sched.knownStatuses, List.mem_cons, List.mem_singleton,
      not_or] at hns
    obtain ⟨h₁, h₂, h₃, h₄, h₅, h₆, h₇, h₈, -⟩ := hns
    refine ⟨"Unknown job state " ++ Sched.sacctStatus s, ?_⟩
    simp only [Sched.getRunState, if_neg hl]
    rw [if_neg h₁, if_neg h₂, if_neg h₃,
      if_neg (by simp [h₄, h₅, h₆, h₇]), if_neg h₈]
  · intro runId s hl
    refine ⟨?_, ?_, ?_, ?_⟩
    · rintro (h | h)
      · simp only [Sched.getRunState, if_neg hl]
        rw [if_pos h]
      · simp only [Sched.getRunState, if_neg hl]
        rw [if_neg (by rw [h]; decide), if_pos h]
    · intro h
      simp only [Sched.getRunState, if_neg hl]
      rw [if_neg (by rw [h]; decide), if_neg (by rw [h]; decide), if_pos h]
    · intro h
      simp only [Sched.getRunState, if_neg hl]
      rcases h with h | h | h | h <;>
        rw [if_neg (by rw [h]; decide), if_neg (by rw [h]; decide),
          if_neg (by rw [h]; decide), if_pos (by rw [h]; simp)]
    · intro h
      simp only [Sched.getRunState, if_neg hl]
      rw [if_neg (by rw [h]; decide), if_neg (by rw [h]; decide),
        if_neg (by rw [h]; decide), if_neg (by rw [h]; decide), if_pos h]

/-- Concrete witness for C8: a padded `local` identifier resolves DONE
regardless of the query output, a COMPLETED status code maps to DONE, and
an unrecognized status code is an error. -/
theorem C8_run_state_resolution_witness :
    Sched.getRunState " local " "IGNORED" = .ok .DONE
    ∧ Sched.getRunState "123" "COMPLETED\nROW2" = .ok .DONE
    ∧ (∃ msg, Sched.getRunState "123" "WEIRD" = .error msg) :=
  ⟨(C8_run_state_resolution.1 " local " "IGNORED" "OTHER" (by decide)).1,
   (C8_run_state_resolution.2.2.2 "123" "COMPLETED\nROW2" (by decide)).2.2.2
     (by decide),
   C8_run_state_resolution.2.2.1 "123" "WEIRD" (by decide) (by decide)⟩

/-! ### Parameter combinations and `recombine`

A `ParameterCombination` is a Python dict of string parameters compared by
value (order-independent equality and hashing, claim C6).  The embedding
keeps every combination in a canonical form — bindings sorted by key with
unique keys — so that Lean's structural equality coincides with the
source's value equality; `canon` maps any binding list produced by a dict
comprehension to that form. -/

namespace Sched

/-- A parameter combination in canonical (key-sorted) form. -/
abbrev Comb := List (String × String)

/-- Deduplication keeping first occurrences (the Python `set` /
`frozenset` collapse, made order-deterministic). -/
def dedupAux {α : Type} [DecidableEq α] : List α → List α → List α
  | [], _ => []
  | a :: rest, seen =>
      if a ∈ seen then dedupAux rest seen
      else a :: dedupAux rest (a :: seen)

def dedupF {α : Type} [DecidableEq α] (l : List α) : List α :=
  dedupAux l []

/-- Insertion into a key-sorted binding list. -/
def insPair (kv : String × String) : List (String × String) →
    List (String × String)
  | [] => [kv]
  | a :: rest =>
      if strLe kv.1 a.1 then kv :: a :: rest else a :: insPair kv rest

/-- Insertion sort of a binding list by key. -/
def sortPairs : List (String × String) → List (String × String)
  | [] => []
  | a :: rest => insPair a (sortPairs rest)

/-- Keep only the first binding of every key (a dict comprehension with a
repeated key keeps one binding; values agree whenever this arises here). -/
def dedupKeysAux : List (String × String) → List String →
    List (String × String)
  | [], _ => []
  | a :: rest, seen =>
      if a.1 ∈ seen then dedupKeysAux rest seen
      else a :: dedupKeysAux rest (a.1 :: seen)

/-- Canonical form of a dict built from a binding list. -/
def canon (l : List (String × String)) : Comb :=
  sortPairs (dedupKeysAux l [])

/-- The membership filter of `recombine`
(`not any(i for i in values.items() if i[1] != v2[i[0]])`,
src/jobsched/parameters.py, line 103): the fixed bindings are checked in
order; a missing key raises KeyError before later bindings are looked at,
and the first mismatch excludes the combination without touching later
keys. -/
def matchFixed (values : List (String × String)) (v₂ : Comb) :
    Except Unit Bool :=
  match values with
  | [] => .ok true
  | (k, val) :: rest =>
      match alGet v₂ k with
      | none => .error ()
      | some w => if w = val then matchFixed rest v₂ else .ok false

/-- The projection of `recombine`
(`{key: v1[key] for key in list(values.keys()) + freekeys}`,
src/jobsched/parameters.py, line 99): an unguarded lookup per requested
key. -/
def projKeys (keys : List String) (v₁ : Comb) :
    Except Unit (List (String × String)) :=
  DU.mapME (fun k =>
    match alGet v₁ k with
    | some v => .ok (k, v)
    | none => .error ()) keys

def recombineAux (values : List (String × String)) (keys : List String) :
    List Comb → Except Unit (List Comb)
  | [] => .ok []
  | v₂ :: rest => do
      let keep ← matchFixed values v₂
      if keep then do
        let p ← projKeys keys v₂
        let r ← recombineAux values keys rest
        .ok (canon p :: r)
      else
        recombineAux values keys rest

/-- `ParameterCombinations.recombine(values, freekeys)`
(src/jobsched/parameters.py, lines 97-105), over the stored combination
list; the result models the returned frozenset as a deduplicated list of
canonical combinations. -/
def recombine (combs : List Comb) (values : List (String × String))
    (freekeys : List String) : Except Unit (List Comb) := do
  let l ← recombineAux values (values.map Prod.fst ++ freekeys) combs
  .ok (dedupF l)

/-- Modelled from the spec's description of `recombine` (spec section
4.1): filter to the stored combinations agreeing with the fixed subset on
all of its keys, restrict each to the fixed keys plus the free keys, and
deduplicate by value identity.  Used only to compare the code's
`recombine` against the spec's words. -/
def specRecombine (combs : List Comb) (values : List (String × String))
    (freekeys : List String) : List Comb :=
  dedupF ((combs.filter (fun v₂ =>
      values.all (fun kv => alGet v₂ kv.1 == some kv.2))).map
    (fun v₂ => canon ((values.map Prod.fst ++ freekeys).filterMap
      (fun k => (alGet v₂ k).map (fun v => (k, v))))))

end Sched

namespace Sched

theorem mem_dedupAux {α : Type} [DecidableEq α] :
    ∀ (l seen : List α) (x : α),
      x ∈ dedupAux l seen ↔ (x ∈ l ∧ x ∉ seen) := by
  intro l
  induction l with
  | nil => intro seen x; simp [dedupAux]
  | cons a rest ih =>
      intro seen x
      by_cases ha : a ∈ seen
      · simp only [dedupAux, if_pos ha, ih, List.mem_cons]
        constructor
        · rintro ⟨h₁, h₂⟩
          exact ⟨Or.inr h₁, h₂⟩
        · rintro ⟨h₁ | h₁, h₂⟩
          · subst h₁; exact absurd ha h₂
          · exact ⟨h₁, h₂⟩
      · simp only [dedupAux, if_neg ha, List.mem_cons, ih]
        constructor
        · rintro (h | ⟨h₁, h₂⟩)
          · subst h; exact ⟨Or.inl rfl, ha⟩
          · simp only [List.mem_cons, not_or] at h₂
            exact ⟨Or.inr h₁, h₂.2⟩
        · rintro ⟨h₁ | h₁, h₂⟩
          · subst h₁; exact Or.inl rfl
          · by_cases hx : x = a
            · subst hx; exact Or.inl rfl
            · exact Or.inr ⟨h₁, by simp [hx, h₂]⟩

theorem dedupAux_nodup {α : Type} [DecidableEq α] :
    ∀ (l seen : List α), (dedupAux l seen).Nodup := by
  intro l
  induction l with
  | nil => intro seen; simp [dedupAux]
  | cons a rest ih =>
      intro seen
      by_cases ha : a ∈ seen
      · simpa [dedupAux, if_pos ha] using ih seen
      · simp only [dedupAux, if_neg ha, List.nodup_cons]
        refine ⟨?_, ih (a :: seen)⟩
        rw [mem_dedupAux]
        simp

theorem dedupF_nodup {α : Type} [DecidableEq α] (l : List α) :
    (dedupF l).Nodup :=
  dedupAux_nodup l []

theorem matchFixed_of_has (v₂ : Comb) :
    ∀ values : List (String × String),
      (∀ kv ∈ values, alHas v₂ kv.1 = true) →
      matchFixed values v₂ =
        .ok (values.all (fun kv => alGet v₂ kv.1 == some kv.2)) := by
  intro values
  induction values with
  | nil => intro _; rfl
  | cons a rest ih =>
      intro hhas
      obtain ⟨k, val⟩ := a
      have hk : alHas v₂ k = true := hhas (k, val) (by simp)
      simp only [alHas, Option.isSome_iff_exists] at hk
      obtain ⟨w, hw⟩ := hk
      simp only [matchFixed, hw]
      by_cases hwv : w = val
      · subst hwv
        rw [ih (fun kv hkv => hhas kv (by simp [hkv]))]
        simp [hw]
      · simp [hwv, hw, List.all_cons]

theorem projKeys_of_has (v₂ : Comb) :
    ∀ keys : List String,
      (∀ k ∈ keys, alHas v₂ k = true) →
      projKeys keys v₂ =
        .ok (keys.filterMap (fun k => (alGet v₂ k).map (fun v => (k, v)))) := by
  intro keys
  induction keys with
  | nil => intro _; rfl
  | cons k rest ih =>
      intro hhas
      have hk : alHas v₂ k = true := hhas k (by simp)
      simp only [alHas, Option.isSome_iff_exists] at hk
      obtain ⟨w, hw⟩ := hk
      have hrest := ih (fun k₁ hk₁ => hhas k₁ (by simp [hk₁]))
      simp only [projKeys, DU.mapME, hw] at hrest ⊢
      rw [ebind_ok, hrest, ebind_ok]
      simp [hw]

theorem recombineAux_of_has (values : List (String × String))
    (keys : List String) :
    ∀ combs : List Comb,
      (∀ v₂ ∈ combs, ∀ kv ∈ values, alHas v₂ kv.1 = true) →
      (∀ v₂ ∈ combs, ∀ k ∈ keys, alHas v₂ k = true) →
      recombineAux values keys combs =
        .ok ((combs.filter (fun v₂ =>
            values.all (fun kv => alGet v₂ kv.1 == some kv.2))).map
          (fun v₂ => canon (keys.filterMap
            (fun k => (alGet v₂ k).map (fun v => (k, v)))))) := by
  intro combs
  induction combs with
  | nil => intro _ _; rfl
  | cons v₂ rest ih =>
      intro hhasf hhask
      have hfix : ∀ kv ∈ values, alHas v₂ kv.1 = true := hhasf v₂ (by simp)
      have hkeys : ∀ k ∈ keys, alHas v₂ k = true := hhask v₂ (by simp)
      have hrest := ih (fun c hc => hhasf c (by simp [hc]))
        (fun c hc => hhask c (by simp [hc]))
      simp only [recombineAux]
      rw [matchFixed_of_has v₂ values hfix, ebind_ok]
      by_cases hpred : values.all (fun kv => alGet v₂ kv.1 == some kv.2)
      · rw [if_pos hpred, projKeys_of_has v₂ keys hkeys, ebind_ok, hrest,
          ebind_ok]
        simp [List.filter_cons, hpred]
      · rw [if_neg hpred, hrest]
        have hp : (values.all fun kv => alGet v₂ kv.1 == some kv.2) = false := by
          simpa using hpred
        simp [List.filter_cons, hp]

/-- Totality of `recombine` when every stored combination carries every
fixed and free key: the call returns the spec-described projection. -/
theorem recombine_of_has (combs : List Comb)
    (values : List (String × String)) (freekeys : List String)
    (hhas : ∀ v₂ ∈ combs, ∀ k ∈ values.map Prod.fst ++ freekeys,
      alHas v₂ k = true) :
    recombine combs values freekeys =
      .ok (specRecombine combs values freekeys) := by
  simp only [recombine, specRecombine]
  rw [recombineAux_of_has values (values.map Prod.fst ++ freekeys) combs
      (fun c hc kv hkv => hhas c hc kv.1
        (List.mem_append_left _ (List.mem_map_of_mem Prod.fst hkv)))
      (fun c hc k hk => hhas c hc k hk),
    ebind_ok]

end Sched

/-! ### Claim C5 — recombine projection -/

/-- C5 (Recombine projection): over the stored combinations
`{a:1,b:1}, {a:1,b:2}, {a:2,b:1}` the call `recombine({a:1}, [b])` returns
exactly `{{a:1,b:1},{a:1,b:2}}`; and in general, whenever every stored
combination carries the fixed and free keys, `recombine` returns exactly
the spec-described projection — the stored combinations agreeing with the
fixed subset on all of its keys, restricted to the fixed plus free keys
and deduplicated by value identity — and its result list holds no
duplicates. -/
theorem C5_recombine_projection :
    Sched.recombine
        [[("a", "1"), ("b", "1")], [("a", "1"), ("b", "2")],
         [("a", "2"), ("b", "1")]] [("a", "1")] ["b"] =
      .ok [[("a", "1"), ("b", "1")], [("a", "1"), ("b", "2")]]
    ∧ (∀ (combs : List Sched.Comb) (values : List (String × String))
        (freekeys : List String),
        (∀ v₂ ∈ combs, ∀ k ∈ values.map Prod.fst ++ freekeys,
          alHas v₂ k = true) →
        Sched.recombine combs values freekeys =
          .ok (Sched.specRecombine combs values freekeys))
    ∧ (∀ (combs : List Sched.Comb) (values : List (String × String))
        (freekeys : List String) (res : List Sched.Comb),
        Sched.recombine combs values freekeys = .ok res → res.Nodup) := by
  refine ⟨rfl, Sched.recombine_of_has, ?_⟩
  intro combs values freekeys res h
  simp only [Sched.recombine] at h
  cases hr : Sched.recombineAux values (values.map Prod.fst ++ freekeys)
      combs with
  | error e =>
      obtain ⟨⟩ := e
      rw [hr, ebind_error] at h
      cases h
  | ok l =>
      rw [hr, ebind_ok] at h
      cases h
      exact Sched.dedupF_nodup l

/-- Concrete witness for C5: the spec's example instantiates the general
projection equation. -/
theorem C5_recombine_projection_witness :
    Sched.recombine
        [[("a", "1"), ("b", "1")], [("a", "1"), ("b", "2")],
         [("a", "2"), ("b", "1")]] [("a", "1")] ["b"] =
      .ok (Sched.specRecombine
        [[("a", "1"), ("b", "1")], [("a", "1"), ("b", "2")],
         [("a", "2"), ("b", "1")]] [("a", "1")] ["b"])
    ∧ ([[("a", "1"), ("b", "1")], [("a", "1"), ("b", "2")]] :
        List Sched.Comb).Nodup :=
  ⟨C5_recombine_projection.2.1
      [[("a", "1"), ("b", "1")], [("a", "1"), ("b", "2")],
       [("a", "2"), ("b", "1")]] [("a", "1")] ["b"] (by decide),
   C5_recombine_projection.2.2
      [[("a", "1"), ("b", "1")], [("a", "1"), ("b", "2")],
       [("a", "2"), ("b", "1")]] [("a", "1")] ["b"]
      [[("a", "1"), ("b", "1")], [("a", "1"), ("b", "2")]] rfl⟩

/-! ### Claim C10 — partiality of recombine -/

/-- C10 (Implicit partiality of recombine): the unguarded key lookups make
`recombine` raise on a stored combination that misses a fixed key — the
combination `{b:1}` under the fixed subset `{a:1}` produces a KeyError
rather than being silently filtered out — while under the precondition
that every stored combination carries every fixed and free key the call is
total. -/
theorem C10_recombine_partiality :
    Sched.recombine [[("b", "1")]] [("a", "1")] [] = .error ()
    ∧ (∀ (combs : List Sched.Comb) (values : List (String × String))
        (freekeys : List String),
        (∀ v₂ ∈ combs, ∀ k ∈ values.map Prod.fst ++ freekeys,
          alHas v₂ k = true) →
        ∃ res, Sched.recombine combs values freekeys = .ok res) :=
  ⟨rfl, fun combs values freekeys hhas =>
    ⟨Sched.specRecombine combs values freekeys,
     Sched.recombine_of_has combs values freekeys hhas⟩⟩

/-- Concrete witness for C10: totality on a one-combination store carrying
both keys. -/
theorem C10_recombine_partiality_witness :
    ∃ res, Sched.recombine [[("a", "1"), ("b", "2")]] [("a", "1")] ["b"] =
      .ok res :=
  C10_recombine_partiality.2 [[("a", "1"), ("b", "2")]] [("a", "1")] ["b"]
    (by decide)

/-! ### The scheduling tree walk

`Job.schedule_tree` / `Job.schedule_run` (src/jobsched/jobs.py, lines
325-609).  The embedding keeps:

  * the persisted ledger `former` — `former_runs`, shared between all Job
    instances of the same job name (`JobList._setup_job` hands every
    instance of a name the same slice), hence keyed by job name;
  * the per-instance in-invocation map `schedm` — `scheduled_runs`; each
    node of the dependency tree is its own Job instance, so the map is
    keyed by the node's path (list of dependency indices from the root);
  * a trace of the executor `schedule` calls and of the `get_run_state`
    consultations, newest first; a `sched` event records the job name, the
    requested run count, the raw collected dependency ids, the rendered
    dependency constraint, the returned identifier and the combinations
    the submission covers;
  * the executor is abstracted by `exec`, giving the identifier returned
    by the n-th `schedule` call of the invocation, and the external
    scheduler by `resolver`, classifying a stored identifier.

Rendering, working directories and `init` calls have no bearing on any
claim and are not modelled.  Python's unbounded recursion is modelled with
explicit fuel (`.error ()` on exhaustion); every theorem quantifies over
the fuel. -/

namespace Sched

structure Entry where
  id : String
  success : Bool
deriving DecidableEq, Repr

inductive Event where
  | query (job : String) (c : Comb) (runId : String)
  | sched (job : String) (runCount : Nat) (depIds : List String)
      (depc : String) (runId : String) (covers : List Comb)
deriving DecidableEq, Repr

/-- Generic association map (keyed by combinations or by instance
paths). -/
def aGet {κ β : Type} [DecidableEq κ] : List (κ × β) → κ → Option β
  | [], _ => none
  | (k₁, v₁) :: rest, k => if k₁ = k then some v₁ else aGet rest k

def aSet {κ β : Type} [DecidableEq κ] : List (κ × β) → κ → β → List (κ × β)
  | [], k, v => [(k, v)]
  | (k₁, v₁) :: rest, k, v =>
      if k₁ = k then (k₁, v) :: rest else (k₁, v₁) :: aSet rest k v

structure St where
  former : List (String × List (Comb × Entry))
  schedm : List (List Nat × List (Comb × String))
  trace : List Event
  counter : Nat
deriving DecidableEq, Repr

def ledgerGet (L : List (String × List (Comb × Entry))) (n : String)
    (c : Comb) : Option Entry :=
  match aGet L n with
  | some slice => aGet slice c
  | none => none

def ledgerSet (L : List (String × List (Comb × Entry))) (n : String)
    (c : Comb) (e : Entry) : List (String × List (Comb × Entry)) :=
  aSet L n (aSet ((aGet L n).getD []) c e)

def smGet (m : List (List Nat × List (Comb × String))) (p : List Nat)
    (c : Comb) : Option String :=
  match aGet m p with
  | some slice => aGet slice c
  | none => none

def smSet (m : List (List Nat × List (Comb × String))) (p : List Nat)
    (c : Comb) (id : String) : List (List Nat × List (Comb × String)) :=
  aSet m p (aSet ((aGet m p).getD []) c id)

/-- The static dependency tree: job name, referenced variables, array
flag, and the dependency list as (shared foreach keys, dependency job)
pairs. -/
inductive JobSpec where
  | mk (name : String) (vars : List String) (arrayFlag : Bool)
      (deps : List (List String × JobSpec))

def JobSpec.name : JobSpec → String
  | .mk n _ _ _ => n

def JobSpec.vars : JobSpec → List String
  | .mk _ v _ _ => v

def JobSpec.arrayFlag : JobSpec → Bool
  | .mk _ _ a _ => a

def JobSpec.deps : JobSpec → List (List String × JobSpec)
  | .mk _ _ _ d => d

/-- Membership in a string list (Python `in` over a set of names). -/
def memStr (k : String) : List String → Bool
  | [] => false
  | a :: rest => if a = k then true else memStr k rest

/-- `run_id.split("_")[0].strip()` (src/jobsched/jobs.py, line 334). -/
def baseId (r : String) : String :=
  pyStrip ⟨(splitOnChar '_' r.data).headD []⟩

def insStr (s : String) : List String → List String
  | [] => [s]
  | a :: rest => if strLe s a then s :: a :: rest else a :: insStr s rest

/-- Insertion sort on strings (Python `sorted` by code points). -/
def sortStrs : List String → List String
  | [] => []
  | a :: rest => insStr a (sortStrs rest)

/-- Python `":".join(pieces)`. -/
def joinColon : List String → String
  | [] => ""
  | [s] => s
  | s :: rest => s ++ ":" ++ joinColon rest

/-- The pieces of the dependency constraint of `schedule_run`
(src/jobsched/jobs.py, lines 330-339): identifiers other than the literal
`local`, reduced to the part before the first underscore (stripped),
deduplicated and sorted. -/
def depParts (ids : List String) : List String :=
  sortStrs (dedupF ((ids.filter (fun r => r ≠ "local")).map baseId))

def depConstraint (ids : List String) : String :=
  joinColon (depParts ids)

/-- The executor side of `schedule_run`: compute the dependency
constraint, call `Executor.schedule` (the identifier it returns is
`exec` applied to the running call count) and record the event. -/
def scheduleRun (exec : Nat → String) (job : String) (runCount : Nat)
    (depIds : List String) (cs : List Comb) (st : St) : String × St :=
  let rid := exec st.counter
  (rid, { st with
      counter := st.counter + 1,
      trace := Event.sched job runCount depIds (depConstraint depIds)
        rid cs :: st.trace })

/-- The per-index ledger writes after an array submission
(src/jobsched/jobs.py, lines 604-607). -/
def writeArray (n : String) (path : List Nat) (rid : String) :
    Nat → List (Comb × List String) → St → St
  | _, [], st => st
  | i, pr :: rest, st =>
      writeArray n path rid (i + 1) rest
        { st with
            former := ledgerSet st.former n pr.1
              { id := rid ++ "_" ++ Nat.repr i, success := false },
            schedm := smSet st.schedm path pr.1
              (rid ++ "_" ++ Nat.repr i) }

/-- `current` filtered to the job's variables
(src/jobsched/jobs.py, line 501). -/
def filterCurrent (vars : List String) (current : Comb) : Comb :=
  current.filter (fun kv => memStr kv.1 vars)

/-- `self.variables - set(current)` (src/jobsched/jobs.py, line 503),
determinized to the declaration order of the variables. -/
def freeKeys (vars : List String) (cur : Comb) : List String :=
  vars.filter (fun k => !(memStr k (cur.map Prod.fst)))

/-- The combination set a `schedule_tree` call iterates over
(src/jobsched/jobs.py, lines 501-503). -/
def rootCombos (possible : List Comb) (vars : List String)
    (current : Comb) : Except Unit (List Comb) :=
  recombine possible (filterCurrent vars current)
    (freeKeys vars (filterCurrent vars current))

/-- The run-state consultation of one combination
(src/jobsched/jobs.py, lines 509-519): a ledger entry that is not in this
instance's `scheduled_runs` and not yet marked successful is resolved; a
DONE answer marks the ledger entry successful; every other combination is
treated as state DONE without consulting the resolver. -/
def classify (resolver : String → JobState) (n : String) (c : Comb)
    (path : List Nat) (st : St) : JobState × St :=
  match ledgerGet st.former n c with
  | some e =>
      if !(smGet st.schedm path c).isSome && !e.success then
        let st₁ : St := { st with trace := Event.query n c e.id :: st.trace }
        if resolver e.id = JobState.DONE then
          let e₂ : Entry := { id := e.id, success := true }
          (JobState.DONE, { st₁ with former := ledgerSet st₁.former n c e₂ })
        else (resolver e.id, st₁)
      else (JobState.DONE, st)
  | none => (JobState.DONE, st)

/-- The continuations of the tree walk: a whole `schedule_tree` call, the
per-combination loop of one call, and the dependency loop of one
combination. -/
inductive Task where
  | tree (j : JobSpec) (path : List Nat) (current : Comb) (force : Bool)
  | combs (j : JobSpec) (path : List Nat) (force : Bool) (cs : List Comb)
      (runAcc : List String) (arrAcc : List (Comb × List String))
  | deps (ds : List (List String × JobSpec)) (path : List Nat) (idx : Nat)
      (c : Comb) (acc : List String)

/-- The submission of one non-array run and its paired ledger writes
(src/jobsched/jobs.py, lines 590-593): `schedule_run` is called, the
returned identifier is stored in `former_runs` with success false and in
`scheduled_runs`. -/
def commitRun (exec : Nat → String) (n : String) (path : List Nat)
    (c : Comb) (depIds : List String) (st : St) : String × St :=
  let rc := scheduleRun exec n 1 depIds [c] st
  (rc.1, { rc.2 with
      former := ledgerSet rc.2.former n c { id := rc.1, success := false },
      schedm := smSet rc.2.schedm path c rc.1 })

/-- The single array submission at the end of a pass and its per-index
ledger writes (src/jobsched/jobs.py, lines 597-608): one `schedule_run`
call over the accumulated combinations, with the union of the collected
dependency id sets, then the suffixed identifiers are stored. -/
def commitArray (exec : Nat → String) (n : String) (path : List Nat)
    (acc : List (Comb × List String)) (st : St) : String × St :=
  let allDeps := dedupF (acc.foldr (fun pr rs => pr.2 ++ rs) [])
  let rc := scheduleRun exec n acc.length allDeps (acc.map Prod.fst) st
  (rc.1, writeArray n path rc.1 0 acc rc.2)

/-- The scheduling tree walk (src/jobsched/jobs.py, lines 499-609), as a
fuel-indexed interpreter over `Task`.  A `tree` task returns the call's
`run_ids`; a `combs` task returns the accumulated `run_ids` and the array
accumulator; a `deps` task returns the collected dependency run ids. -/
def run (exec : Nat → String) (resolver : String → JobState)
    (possible : List Comb) :
    Nat → Task → St →
      Except Unit ((List String × List (Comb × List String)) × St)
  | 0, _, _ => .error ()
  | fuel + 1, .tree j path current force, st =>
      match j with
      | .mk n vars arr deps => do
          let combos ← rootCombos possible vars current
          let r ← run exec resolver possible fuel
            (.combs (.mk n vars arr deps) path force combos [] []) st
          if arr && !r.1.2.isEmpty then
            let rc := commitArray exec n path r.1.2 r.2
            .ok ((r.1.1 ++ [rc.1], []), rc.2)
          else
            .ok ((r.1.1, []), r.2)
  | _ + 1, .combs _ _ _ [] runAcc arrAcc, st => .ok ((runAcc, arrAcc), st)
  | fuel + 1, .combs j path force (c :: rest) runAcc arrAcc, st =>
      match j with
      | .mk n vars arr deps =>
          let p := classify resolver n c path st
          let already := (ledgerGet st.former n c).isSome ||
            (smGet st.schedm path c).isSome
          if decide (p.1 = JobState.FAILED) || force || !already then do
            let rd ← run exec resolver possible fuel
              (.deps deps path 0 c []) p.2
            if arr then
              run exec resolver possible fuel
                (.combs (.mk n vars arr deps) path force rest runAcc
                  (arrAcc ++ [(c, rd.1.1)])) rd.2
            else
              let rc := commitRun exec n path c rd.1.1 rd.2
              run exec resolver possible fuel
                (.combs (.mk n vars arr deps) path force rest
                  (runAcc ++ [rc.1]) arrAcc) rc.2
          else
            match ledgerGet p.2.former n c with
            | some e =>
                run exec resolver possible fuel
                  (.combs (.mk n vars arr deps) path force rest
                    (runAcc ++ [e.id]) arrAcc) p.2
            | none => .error ()
  | _ + 1, .deps [] _ _ _ acc, st => .ok ((acc, []), st)
  | fuel + 1, .deps ((fe, d) :: ds) path idx c acc, st => do
      let rt ← run exec resolver possible fuel
        (.tree d (path ++ [idx]) (c.filter (fun kv => memStr kv.1 fe))
          false) st
      run exec resolver possible fuel
        (.deps ds path (idx + 1) c (acc ++ rt.1.1)) rt.2

/-- One invocation `job.schedule_tree(possible, current, forcestart)` on
the root job. -/
def scheduleTree (exec : Nat → String) (resolver : String → JobState)
    (possible : List Comb) (fuel : Nat) (j : JobSpec) (current : Comb)
    (force : Bool) (st : St) :
    Except Unit ((List String × List (Comb × List String)) × St) :=
  run exec resolver possible fuel (.tree j [] current force) st

end Sched

namespace Sched

theorem aGet_aSet_self {κ β : Type} [DecidableEq κ]
    (m : List (κ × β)) (k : κ) (v : β) : aGet (aSet m k v) k = some v := by
  induction m with
  | nil => simp [aSet, aGet]
  | cons hd tl ih =>
      obtain ⟨k₁, v₁⟩ := hd
      by_cases h : k₁ = k <;> simp [aSet, aGet, h, ih]

theorem aGet_aSet_other {κ β : Type} [DecidableEq κ]
    (m : List (κ × β)) (k k' : κ) (v : β) (hne : k ≠ k') :
    aGet (aSet m k v) k' = aGet m k' := by
  induction m with
  | nil => simp [aSet, aGet, hne]
  | cons hd tl ih =>
      obtain ⟨k₁, v₁⟩ := hd
      by_cases h : k₁ = k
      · subst h
        simp [aSet, aGet, hne]
      · simp [aSet, aGet, h, ih]

theorem aGet_getD_nil {κ β : Type} [DecidableEq κ]
    (o : Option (List (κ × β))) (k : κ) (h : o = none) :
    aGet (o.getD []) k = none := by
  subst h
  rfl

theorem ledgerGet_ledgerSet_self (L : List (String × List (Comb × Entry)))
    (n : String) (c : Comb) (e : Entry) :
    ledgerGet (ledgerSet L n c e) n c = some e := by
  simp only [ledgerGet, ledgerSet, aGet_aSet_self]

theorem ledgerGet_ledgerSet_other_comb
    (L : List (String × List (Comb × Entry))) (n : String) (c c' : Comb)
    (e : Entry) (hne : c ≠ c') :
    ledgerGet (ledgerSet L n c e) n c' = ledgerGet L n c' := by
  simp only [ledgerGet, ledgerSet, aGet_aSet_self]
  rw [aGet_aSet_other _ c c' e hne]
  cases h : aGet L n with
  | none => simp [aGet]
  | some slice => simp

theorem ledgerGet_ledgerSet_other_name
    (L : List (String × List (Comb × Entry))) (n n' : String)
    (c c' : Comb) (e : Entry) (hne : n ≠ n') :
    ledgerGet (ledgerSet L n c e) n' c' = ledgerGet L n' c' := by
  simp only [ledgerGet, ledgerSet]
  rw [aGet_aSet_other _ n n' _ hne]

theorem smGet_smSet_self (m : List (List Nat × List (Comb × String)))
    (p : List Nat) (c : Comb) (id : String) :
    smGet (smSet m p c id) p c = some id := by
  simp only [smGet, smSet, aGet_aSet_self]

theorem smGet_smSet_other_comb (m : List (List Nat × List (Comb × String)))
    (p : List Nat) (c c' : Comb) (id : String) (hne : c ≠ c') :
    smGet (smSet m p c id) p c' = smGet m p c' := by
  simp only [smGet, smSet, aGet_aSet_self]
  rw [aGet_aSet_other _ c c' id hne]
  cases h : aGet m p with
  | none => simp [aGet]
  | some slice => simp

theorem smGet_smSet_other_path (m : List (List Nat × List (Comb × String)))
    (p p' : List Nat) (c c' : Comb) (id : String) (hne : p ≠ p') :
    smGet (smSet m p c id) p' c' = smGet m p' c' := by
  simp only [smGet, smSet]
  rw [aGet_aSet_other _ p p' _ hne]

theorem writeArray_trace (n : String) (path : List Nat) (rid : String) :
    ∀ (i : Nat) (acc : List (Comb × List String)) (st : St),
      (writeArray n path rid i acc st).trace = st.trace := by
  intro i acc
  induction acc generalizing i with
  | nil => intro st; rfl
  | cons pr rest ih => intro st; simp [writeArray, ih]

theorem mem_insStr (s x : String) (l : List String) :
    x ∈ insStr s l ↔ x = s ∨ x ∈ l := by
  induction l with
  | nil => simp [insStr]
  | cons a rest ih =>
      by_cases h : strLe s a
      · simp [insStr, h]
      · simp [insStr, h, ih]
        tauto

theorem mem_sortStrs (x : String) (l : List String) :
    x ∈ sortStrs l ↔ x ∈ l := by
  induction l with
  | nil => simp [sortStrs]
  | cons a rest ih => simp [sortStrs, mem_insStr, ih]

theorem mem_dedupF {α : Type} [DecidableEq α] (x : α) (l : List α) :
    x ∈ dedupF l ↔ x ∈ l := by
  rw [dedupF, mem_dedupAux]
  simp

theorem mem_depParts (ids : List String) (id : String) (h : id ∈ ids)
    (hne : id ≠ "local") : baseId id ∈ depParts ids := by
  rw [depParts, mem_sortStrs, mem_dedupF]
  exact List.mem_map_of_mem baseId (List.mem_filter.mpr ⟨h, by simp [hne]⟩)

/-- Modelled from the spec's words for the dependency constraint: the
deduplicated, sorted set of the collected run identifiers themselves,
excluding the literal `local`, joined with colons.  Used only to compare
the code's constraint against the claim. -/
def specConstraint (ids : List String) : String :=
  joinColon (sortStrs (dedupF (ids.filter (fun r => r ≠ "local"))))

end Sched

theorem ebind_ok_iff {α β : Type} (m : Except Unit α)
    (g : α → Except Unit β) (b : β) :
    (m >>= g) = .ok b ↔ ∃ a, m = .ok a ∧ g a = .ok b := by
  cases m with
  | error e =>
      obtain ⟨⟩ := e
      constructor
      · intro h
        cases h
      · rintro ⟨a, ha, _⟩
        cases ha
  | ok a =>
      constructor
      · intro h
        exact ⟨a, rfl, h⟩
      · rintro ⟨a₂, ha, hg⟩
        cases ha
        exact hg

namespace Sched

/-! Inversion lemmas for the interpreter: each successful step decomposes
into its sub-calls.  All later invariants are proved against these. -/

theorem run_combs_nil_inv {exec : Nat → String} {resolver : String → JobState}
    {possible : List Comb} {fuel : Nat} {j : JobSpec} {path : List Nat}
    {force : Bool} {runAcc : List String}
    {arrAcc : List (Comb × List String)} {st : St}
    {res : List String × List (Comb × List String)} {st' : St}
    (h : run exec resolver possible (fuel + 1)
      (.combs j path force [] runAcc arrAcc) st = .ok (res, st')) :
    res = (runAcc, arrAcc) ∧ st' = st := by
  simp only [run] at h
  cases h
  exact ⟨rfl, rfl⟩

theorem run_deps_nil_inv {exec : Nat → String} {resolver : String → JobState}
    {possible : List Comb} {fuel : Nat} {path : List Nat} {idx : Nat}
    {c : Comb} {acc : List String} {st : St}
    {res : List String × List (Comb × List String)} {st' : St}
    (h : run exec resolver possible (fuel + 1)
      (.deps [] path idx c acc) st = .ok (res, st')) :
    res = (acc, []) ∧ st' = st := by
  simp only [run] at h
  cases h
  exact ⟨rfl, rfl⟩

theorem run_tree_inv {exec : Nat → String} {resolver : String → JobState}
    {possible : List Comb} {fuel : Nat} {n : String} {vars : List String}
    {arr : Bool} {deps : List (List String × JobSpec)} {path : List Nat}
    {current : Comb} {force : Bool} {st : St}
    {res : List String × List (Comb × List String)} {st' : St}
    (h : run exec resolver possible (fuel + 1)
      (.tree (.mk n vars arr deps) path current force) st = .ok (res, st')) :
    ∃ combos r1, rootCombos possible vars current = .ok combos ∧
      run exec resolver possible fuel
        (.combs (.mk n vars arr deps) path force combos [] []) st =
          .ok r1 ∧
      (((arr && !r1.1.2.isEmpty) = true ∧
          res = (r1.1.1 ++ [(commitArray exec n path r1.1.2 r1.2).1], []) ∧
          st' = (commitArray exec n path r1.1.2 r1.2).2)
        ∨ ((arr && !r1.1.2.isEmpty) = false ∧ res = (r1.1.1, []) ∧
            st' = r1.2)) := by
  simp only [run] at h
  rw [ebind_ok_iff] at h
  obtain ⟨combos, hcs, h⟩ := h
  rw [ebind_ok_iff] at h
  obtain ⟨r1, hr1, h⟩ := h
  refine ⟨combos, r1, hcs, hr1, ?_⟩
  split at h
  · rename_i harr
    cases h
    exact Or.inl ⟨harr, rfl, rfl⟩
  · rename_i harr
    cases h
    exact Or.inr ⟨Bool.eq_false_iff.mpr harr, rfl, rfl⟩

theorem run_combs_cons_inv {exec : Nat → String}
    {resolver : String → JobState} {possible : List Comb} {fuel : Nat}
    {n : String} {vars : List String} {arr : Bool}
    {deps : List (List String × JobSpec)} {path : List Nat} {force : Bool}
    {c : Comb} {rest : List Comb} {runAcc : List String}
    {arrAcc : List (Comb × List String)} {st : St}
    {res : List String × List (Comb × List String)} {st' : St}
    (h : run exec resolver possible (fuel + 1)
      (.combs (.mk n vars arr deps) path force (c :: rest) runAcc arrAcc)
      st = .ok (res, st')) :
    ((decide ((classify resolver n c path st).1 = JobState.FAILED) || force
        || !((ledgerGet st.former n c).isSome ||
          (smGet st.schedm path c).isSome)) = true ∧
      ∃ rd, run exec resolver possible fuel (.deps deps path 0 c [])
          (classify resolver n c path st).2 = .ok rd ∧
        ((arr = true ∧
            run exec resolver possible fuel
              (.combs (.mk n vars arr deps) path force rest runAcc
                (arrAcc ++ [(c, rd.1.1)])) rd.2 = .ok (res, st'))
          ∨ (arr = false ∧
              run exec resolver possible fuel
                (.combs (.mk n vars arr deps) path force rest
                  (runAcc ++ [(commitRun exec n path c rd.1.1 rd.2).1])
                  arrAcc)
                (commitRun exec n path c rd.1.1 rd.2).2 = .ok (res, st'))))
    ∨ ((decide ((classify resolver n c path st).1 = JobState.FAILED) || force
        || !((ledgerGet st.former n c).isSome ||
          (smGet st.schedm path c).isSome)) = false ∧
      ∃ e, ledgerGet (classify resolver n c path st).2.former n c = some e ∧
        run exec resolver possible fuel
          (.combs (.mk n vars arr deps) path force rest
            (runAcc ++ [e.id]) arrAcc)
          (classify resolver n c path st).2 = .ok (res, st')) := by
  simp only [run] at h
  split at h
  · rename_i helig
    rw [ebind_ok_iff] at h
    obtain ⟨rd, hrd, h⟩ := h
    refine Or.inl ⟨helig, rd, hrd, ?_⟩
    split at h
    · rename_i harr
      exact Or.inl ⟨harr, h⟩
    · rename_i harr
      exact Or.inr ⟨Bool.eq_false_iff.mpr harr, h⟩
  · rename_i helig
    refine Or.inr ⟨Bool.eq_false_iff.mpr helig, ?_⟩
    split at h
    · rename_i e hglg
      exact ⟨e, hglg, h⟩
    · rename_i hglg
      cases h

theorem run_deps_cons_inv {exec : Nat → String}
    {resolver : String → JobState} {possible : List Comb} {fuel : Nat}
    {fe : List String} {d : JobSpec} {ds : List (List String × JobSpec)}
    {path : List Nat} {idx : Nat} {c : Comb} {acc : List String} {st : St}
    {res : List String × List (Comb × List String)} {st' : St}
    (h : run exec resolver possible (fuel + 1)
      (.deps ((fe, d) :: ds) path idx c acc) st = .ok (res, st')) :
    ∃ rt, run exec resolver possible fuel
        (.tree d (path ++ [idx]) (c.filter (fun kv => memStr kv.1 fe))
          false) st = .ok rt ∧
      run exec resolver possible fuel
        (.deps ds path (idx + 1) c (acc ++ rt.1.1)) rt.2 = .ok (res, st') := by
  simp only [run] at h
  rw [ebind_ok_iff] at h
  obtain ⟨rt, hrt, h⟩ := h
  exact ⟨rt, hrt, h⟩

end Sched

namespace Sched

theorem classify_of_none {resolver : String → JobState} {n : String}
    {c : Comb} {path : List Nat} {st : St}
    (h : ledgerGet st.former n c = none) :
    classify resolver n c path st = (JobState.DONE, st) := by
  simp [classify, h]

theorem classify_of_success {resolver : String → JobState} {n : String}
    {c : Comb} {path : List Nat} {st : St} {e : Entry}
    (h : ledgerGet st.former n c = some e) (hs : e.success = true) :
    classify resolver n c path st = (JobState.DONE, st) := by
  simp [classify, h, hs]

theorem classify_of_inSched {resolver : String → JobState} {n : String}
    {c : Comb} {path : List Nat} {st : St} {e : Entry}
    (h : ledgerGet st.former n c = some e)
    (hsm : (smGet st.schedm path c).isSome = true) :
    classify resolver n c path st = (JobState.DONE, st) := by
  simp [classify, h, hsm]

theorem classify_query_done {resolver : String → JobState} {n : String}
    {c : Comb} {path : List Nat} {st : St} {e : Entry}
    (h : ledgerGet st.former n c = some e) (hs : e.success = false)
    (hsm : smGet st.schedm path c = none)
    (hr : resolver e.id = JobState.DONE) :
    classify resolver n c path st =
      (JobState.DONE,
       { st with trace := Event.query n c e.id :: st.trace,
                 former := ledgerSet st.former n c
                   { id := e.id, success := true } }) := by
  simp [classify, h, hs, hsm, hr]

theorem classify_query_notdone {resolver : String → JobState} {n : String}
    {c : Comb} {path : List Nat} {st : St} {e : Entry}
    (h : ledgerGet st.former n c = some e) (hs : e.success = false)
    (hsm : smGet st.schedm path c = none)
    (hr : resolver e.id ≠ JobState.DONE) :
    classify resolver n c path st =
      (resolver e.id,
       { st with trace := Event.query n c e.id :: st.trace }) := by
  simp [classify, h, hs, hsm, hr]

/-- Exhaustive shape of a classification step. -/
theorem classify_shape (resolver : String → JobState) (n : String)
    (c : Comb) (path : List Nat) (st : St) :
    classify resolver n c path st = (JobState.DONE, st) ∨
    (∃ e, ledgerGet st.former n c = some e ∧ e.success = false ∧
      smGet st.schedm path c = none ∧
      ((resolver e.id = JobState.DONE ∧
          classify resolver n c path st =
            (JobState.DONE,
             { st with trace := Event.query n c e.id :: st.trace,
                       former := ledgerSet st.former n c
                         { id := e.id, success := true } }))
        ∨ (resolver e.id ≠ JobState.DONE ∧
            classify resolver n c path st =
              (resolver e.id,
               { st with trace := Event.query n c e.id :: st.trace })))) := by
  cases hlg : ledgerGet st.former n c with
  | none => exact Or.inl (classify_of_none hlg)
  | some e =>
      cases hs : e.success with
      | true => exact Or.inl (classify_of_success hlg hs)
      | false =>
          cases hsm : smGet st.schedm path c with
          | some sid =>
              exact Or.inl (classify_of_inSched hlg (by simp [hsm]))
          | none =>
              by_cases hr : resolver e.id = JobState.DONE
              · exact Or.inr ⟨e, rfl, hs, rfl,
                  Or.inl ⟨hr, classify_query_done hlg hs hsm hr⟩⟩
              · exact Or.inr ⟨e, rfl, hs, rfl,
                  Or.inr ⟨hr, classify_query_notdone hlg hs hsm hr⟩⟩

theorem classify_schedm (resolver : String → JobState) (n : String)
    (c : Comb) (path : List Nat) (st : St) :
    (classify resolver n c path st).2.schedm = st.schedm := by
  rcases classify_shape resolver n c path st with h |
      ⟨e, _, _, _, ⟨_, h⟩ | ⟨_, h⟩⟩ <;> rw [h]

theorem classify_counter (resolver : String → JobState) (n : String)
    (c : Comb) (path : List Nat) (st : St) :
    (classify resolver n c path st).2.counter = st.counter := by
  rcases classify_shape resolver n c path st with h |
      ⟨e, _, _, _, ⟨_, h⟩ | ⟨_, h⟩⟩ <;> rw [h]

end Sched

namespace Sched

/-- Every `sched` event carries the constraint computed by `schedule_run`
from its collected identifiers. -/
def schedEventOK : Event → Prop
  | .sched _ _ depIds depc _ _ => depc = depConstraint depIds
  | .query _ _ _ => True

theorem commitRun_trace (exec : Nat → String) (n : String)
    (path : List Nat) (c : Comb) (ids : List String) (st : St) :
    (commitRun exec n path c ids st).2.trace =
      Event.sched n 1 ids (depConstraint ids) (exec st.counter) [c] ::
        st.trace := rfl

theorem commitArray_trace (exec : Nat → String) (n : String)
    (path : List Nat) (acc : List (Comb × List String)) (st : St) :
    (commitArray exec n path acc st).2.trace =
      Event.sched n acc.length
        (dedupF (acc.foldr (fun pr rs => pr.2 ++ rs) []))
        (depConstraint (dedupF (acc.foldr (fun pr rs => pr.2 ++ rs) [])))
        (exec st.counter) (acc.map Prod.fst) :: st.trace := by
  simp only [commitArray, writeArray_trace]
  rfl

/-- The trace only grows during a run, and every added `sched` event's
constraint is the one `schedule_run` computes from the identifiers the
event collected. -/
theorem run_trace (exec : Nat → String) (resolver : String → JobState)
    (possible : List Comb) :
    ∀ (fuel : Nat) (t : Task) (st : St)
      (res : List String × List (Comb × List String)) (st' : St),
      run exec resolver possible fuel t st = .ok (res, st') →
      ∃ d, st'.trace = d ++ st.trace ∧ ∀ ev ∈ d, schedEventOK ev := by
  intro fuel
  induction fuel with
  | zero =>
      intro t st res st' h
      simp [run] at h
  | succ fuel ih =>
      intro t st res st' h
      cases t with
      | tree j path current force =>
          cases j with
          | mk n vars arr deps =>
              obtain ⟨combos, r1, hcs, hr1, hfin⟩ := run_tree_inv h
              obtain ⟨d₁, hd₁, hok₁⟩ := ih _ _ _ _ hr1
              rcases hfin with ⟨harr, hres, hst⟩ | ⟨harr, hres, hst⟩
              · subst hst
                refine ⟨Event.sched n r1.1.2.length
                    (dedupF (r1.1.2.foldr (fun pr rs => pr.2 ++ rs) []))
                    (depConstraint
                      (dedupF (r1.1.2.foldr (fun pr rs => pr.2 ++ rs) [])))
                    (exec r1.2.counter) (r1.1.2.map Prod.fst) :: d₁, ?_, ?_⟩
                · rw [commitArray_trace, hd₁]
                  rfl
                · intro ev hev
                  rcases List.mem_cons.mp hev with hev | hev
                  · subst hev
                    exact rfl
                  · exact hok₁ ev hev
              · subst hst
                exact ⟨d₁, hd₁, hok₁⟩
      | combs j path force cs runAcc arrAcc =>
          cases cs with
          | nil =>
              obtain ⟨hres, hst⟩ := run_combs_nil_inv h
              subst hst
              exact ⟨[], rfl, by simp⟩
          | cons c rest =>
              cases j with
              | mk n vars arr deps =>
                  have hcl : ∃ d₀,
                      (classify resolver n c path st).2.trace =
                        d₀ ++ st.trace ∧ ∀ ev ∈ d₀, schedEventOK ev := by
                    rcases classify_shape resolver n c path st with hq |
                        ⟨e, _, _, _, ⟨_, hq⟩ | ⟨_, hq⟩⟩
                    · rw [hq]
                      exact ⟨[], rfl, by simp⟩
                    · rw [hq]
                      exact ⟨[Event.query n c e.id], rfl,
                        by simp [schedEventOK]⟩
                    · rw [hq]
                      exact ⟨[Event.query n c e.id], rfl,
                        by simp [schedEventOK]⟩
                  obtain ⟨d₀, hd₀, hok₀⟩ := hcl
                  rcases run_combs_cons_inv h with
                      ⟨helig, rd, hrd, hbr⟩ | ⟨helig, e, hglg, hrest⟩
                  · obtain ⟨d₁, hd₁, hok₁⟩ := ih _ _ _ _ hrd
                    rcases hbr with ⟨harr, hrest⟩ | ⟨harr, hrest⟩
                    · obtain ⟨d₂, hd₂, hok₂⟩ := ih _ _ _ _ hrest
                      refine ⟨d₂ ++ d₁ ++ d₀, ?_, ?_⟩
                      · rw [hd₂, hd₁, hd₀]
                        simp [List.append_assoc]
                      · intro ev hev
                        simp only [List.mem_append] at hev
                        rcases hev with (hev | hev) | hev
                        exacts [hok₂ ev hev, hok₁ ev hev, hok₀ ev hev]
                    · obtain ⟨d₂, hd₂, hok₂⟩ := ih _ _ _ _ hrest
                      refine ⟨d₂ ++ (Event.sched n 1 rd.1.1
                          (depConstraint rd.1.1) (exec rd.2.counter) [c] ::
                            d₁) ++ d₀, ?_, ?_⟩
                      · rw [hd₂, commitRun_trace, hd₁, hd₀]
                        simp [List.append_assoc]
                      · intro ev hev
                        simp only [List.mem_append, List.mem_cons] at hev
                        rcases hev with (hev | hev | hev) | hev
                        · exact hok₂ ev hev
                        · subst hev
                          exact rfl
                        · exact hok₁ ev hev
                        · exact hok₀ ev hev
                  · obtain ⟨d₁, hd₁, hok₁⟩ := ih _ _ _ _ hrest
                    refine ⟨d₁ ++ d₀, ?_, ?_⟩
                    · rw [hd₁, hd₀]
                      simp
                    · intro ev hev
                      simp only [List.mem_append] at hev
                      rcases hev with hev | hev
                      exacts [hok₁ ev hev, hok₀ ev hev]
      | deps ds path idx c acc =>
          cases ds with
          | nil =>
              obtain ⟨hres, hst⟩ := run_deps_nil_inv h
              subst hst
              exact ⟨[], rfl, by simp⟩
          | cons hd rest =>
              obtain ⟨fe, d⟩ := hd
              obtain ⟨rt, hrt, hnext⟩ := run_deps_cons_inv h
              obtain ⟨d₁, hd₁, hok₁⟩ := ih _ _ _ _ hrt
              obtain ⟨d₂, hd₂, hok₂⟩ := ih _ _ _ _ hnext
              refine ⟨d₂ ++ d₁, ?_, ?_⟩
              · rw [hd₂, hd₁]
                simp
              · intro ev hev
                simp only [List.mem_append] at hev
                rcases hev with hev | hev
                exacts [hok₂ ev hev, hok₁ ev hev]

end Sched

/-! ### Claim C4 — dependency constraint construction -/

/-- C4, counterexample: the constraint is not built from the collected run
identifiers themselves.  A dependency D resumed from the ledger returns
its stored identifier `77_1`; the parent P's only schedule call collects
exactly `["77_1"]` but passes the constraint `77` — the part before the
underscore — where the claim's construction (`specConstraint`) yields
`77_1`. -/
theorem C4_dependency_constraint_counterexample :
    (Sched.scheduleTree (fun k => "r" ++ Nat.repr k) (fun _ => .WAITING)
        [[]] 10 (.mk "P" [] false [([], .mk "D" [] false [])]) [] false
        { former := [("D", [([], { id := "77_1", success := true })])],
          schedm := [], trace := [], counter := 0 }).map
      (fun r => r.2.trace) =
      .ok [.sched "P" 1 ["77_1"] "77" "r0" [[]]]
    ∧ Sched.specConstraint ["77_1"] = "77_1"
    ∧ Sched.depConstraint ["77_1"] = "77"
    ∧ ("77" : String) ≠ "77_1" :=
  ⟨rfl, rfl, rfl, by decide⟩

/-- C4 (amended): for every submission of a job's own run during an
invocation, the dependency constraint passed to the executor is built from
the deduplicated, sorted set of the first underscore-separated components
(stripped) of the run identifiers collected from the dependency
scheduleTree calls, excluding identifiers equal to the literal `local`,
joined with `:`; in particular, for every non-local collected identifier,
its pre-underscore base component is among the constraint's parts. -/
theorem C4_dependency_constraint_amended (exec : Nat → String)
    (resolver : String → Sched.JobState) (possible : List Sched.Comb)
    (fuel : Nat) (j : Sched.JobSpec) (current : Sched.Comb) (force : Bool)
    (st : Sched.St) (res : List String × List (Sched.Comb × List String))
    (st' : Sched.St)
    (hrun : Sched.scheduleTree exec resolver possible fuel j current force
      st = .ok (res, st')) :
    (∃ d, st'.trace = d ++ st.trace ∧ ∀ ev ∈ d, Sched.schedEventOK ev)
    ∧ (∀ (ids : List String) (id : String), id ∈ ids → id ≠ "local" →
        Sched.baseId id ∈ Sched.depParts ids) :=
  ⟨Sched.run_trace exec resolver possible fuel _ st res st' hrun,
   fun ids id h hne => Sched.mem_depParts ids id h hne⟩

/-- Concrete witness for the amended C4: the resumed-dependency run of the
counterexample satisfies the amended construction, and `77`, the base of
the collected `77_1`, is among the constraint parts. -/
theorem C4_dependency_constraint_amended_witness :
    (∃ d, ([Sched.Event.sched "P" 1 ["77_1"] "77" "r0" [[]]] :
        List Sched.Event) = d ++ [] ∧ ∀ ev ∈ d, Sched.schedEventOK ev)
    ∧ Sched.baseId "77_1" ∈ Sched.depParts ["77_1"] := by
  have h := C4_dependency_constraint_amended
    (fun k => "r" ++ Nat.repr k) (fun _ => .WAITING) [[]] 10
    (.mk "P" [] false [([], .mk "D" [] false [])]) [] false
    { former := [("D", [([], { id := "77_1", success := true })])],
      schedm := [], trace := [], counter := 0 }
    (["r0"], [])
    { former := [("D", [([], { id := "77_1", success := true })]),
        ("P", [([], { id := "r0", success := false })])],
      schedm := [([], [([], "r0")])],
      trace := [.sched "P" 1 ["77_1"] "77" "r0" [[]]],
      counter := 1 } rfl
  exact ⟨h.1, h.2 ["77_1"] "77_1" (by decide) (by decide)⟩

namespace Sched

theorem scheduleRun_former (exec : Nat → String) (job : String)
    (runCount : Nat) (depIds : List String) (cs : List Comb) (st : St) :
    (scheduleRun exec job runCount depIds cs st).2.former = st.former := rfl

theorem scheduleRun_schedm (exec : Nat → String) (job : String)
    (runCount : Nat) (depIds : List String) (cs : List Comb) (st : St) :
    (scheduleRun exec job runCount depIds cs st).2.schedm = st.schedm := rfl

theorem commitRun_former (exec : Nat → String) (n₁ : String)
    (p : List Nat) (c₁ : Comb) (ids : List String) (st : St) :
    (commitRun exec n₁ p c₁ ids st).2.former =
      ledgerSet st.former n₁ c₁ { id := exec st.counter, success := false } :=
  rfl

theorem commitRun_schedm (exec : Nat → String) (n₁ : String)
    (p : List Nat) (c₁ : Comb) (ids : List String) (st : St) :
    (commitRun exec n₁ p c₁ ids st).2.schedm =
      smSet st.schedm p c₁ (exec st.counter) := rfl

theorem ledgerGet_ledgerSet_frame
    (L : List (String × List (Comb × Entry))) (n₁ n : String)
    (c₁ c : Comb) (e : Entry) (hne : ¬(n₁ = n ∧ c₁ = c)) :
    ledgerGet (ledgerSet L n₁ c₁ e) n c = ledgerGet L n c := by
  by_cases hn : n₁ = n
  · subst hn
    have hc : c₁ ≠ c := fun hc => hne ⟨rfl, hc⟩
    exact ledgerGet_ledgerSet_other_comb L n₁ c₁ c e hc
  · exact ledgerGet_ledgerSet_other_name L n₁ n c₁ c e hn

theorem smGet_smSet_frame (m : List (List Nat × List (Comb × String)))
    (p₁ p : List Nat) (c₁ c : Comb) (id : String)
    (hne : ¬(p₁ = p ∧ c₁ = c)) :
    smGet (smSet m p₁ c₁ id) p c = smGet m p c := by
  by_cases hp : p₁ = p
  · subst hp
    have hc : c₁ ≠ c := fun hc => hne ⟨rfl, hc⟩
    exact smGet_smSet_other_comb m p₁ c₁ c id hc
  · exact smGet_smSet_other_path m p₁ p c₁ c id hp

theorem commitRun_ledger_frame (exec : Nat → String) (n₁ n : String)
    (p : List Nat) (c₁ c : Comb) (ids : List String) (st : St)
    (hne : ¬(n₁ = n ∧ c₁ = c)) :
    ledgerGet (commitRun exec n₁ p c₁ ids st).2.former n c =
      ledgerGet st.former n c := by
  rw [commitRun_former]
  exact ledgerGet_ledgerSet_frame _ n₁ n c₁ c _ hne

theorem writeArray_ledger_frame (n₁ n : String) (path : List Nat)
    (rid : String) :
    ∀ (i : Nat) (acc : List (Comb × List String)) (st : St) (c : Comb),
      (∀ pr ∈ acc, ¬(n₁ = n ∧ pr.1 = c)) →
      ledgerGet (writeArray n₁ path rid i acc st).former n c =
        ledgerGet st.former n c := by
  intro i acc
  induction acc generalizing i with
  | nil => intro st c _; rfl
  | cons pr rest ih =>
      intro st c hcl
      simp only [writeArray]
      rw [ih (i + 1) _ c (fun q hq => hcl q (by simp [hq]))]
      exact ledgerGet_ledgerSet_frame _ n₁ n pr.1 c _ (hcl pr (by simp))

theorem commitArray_ledger_frame (exec : Nat → String) (n₁ n : String)
    (path : List Nat) (acc : List (Comb × List String)) (st : St) (c : Comb)
    (hcl : ∀ pr ∈ acc, ¬(n₁ = n ∧ pr.1 = c)) :
    ledgerGet (commitArray exec n₁ path acc st).2.former n c =
      ledgerGet st.former n c := by
  simp only [commitArray]
  rw [writeArray_ledger_frame n₁ n path _ 0 acc _ c hcl]
  rfl

theorem classify_ledger_frame (resolver : String → JobState) (n₁ n : String)
    (c₁ c : Comb) (p : List Nat) (st : St) (hne : ¬(n₁ = n ∧ c₁ = c)) :
    ledgerGet (classify resolver n₁ c₁ p st).2.former n c =
      ledgerGet st.former n c := by
  rcases classify_shape resolver n₁ c₁ p st with hq |
      ⟨e, _, _, _, ⟨_, hq⟩ | ⟨_, hq⟩⟩
  · rw [hq]
  · rw [hq]
    exact ledgerGet_ledgerSet_frame _ n₁ n c₁ c _ hne
  · rw [hq]

end Sched

namespace Sched

/-- The event does not concern combination `c` of job `n`: it is not a
resolver consultation for `(n, c)` and not a schedule call covering `c`
for job `n`. -/
def noTouch (n : String) (c : Comb) : Event → Prop
  | .query n₁ c₁ _ => ¬(n₁ = n ∧ c₁ = c)
  | .sched n₁ _ _ _ _ covers => ¬(n₁ = n ∧ c ∈ covers)

/-- The force flag a task was invoked with (dependency loops always
recurse with `forcestart` unset). -/
def taskForce : Task → Bool
  | .tree _ _ _ force => force
  | .combs _ _ force _ _ _ => force
  | .deps _ _ _ _ _ => false

/-- The pending array accumulator of a task does not hold `(n, c)`. -/
def taskAccClean (n : String) (c : Comb) : Task → Prop
  | .combs j _ _ _ _ arrAcc => j.name = n → ∀ ids, (c, ids) ∉ arrAcc
  | _ => True

/-- The array accumulator a task returns does not hold `(n, c)`. -/
def outAccClean (n : String) (c : Comb) :
    Task → List String × List (Comb × List String) → Prop
  | .combs j _ _ _ _ _, res => j.name = n → ∀ ids, (c, ids) ∉ res.2
  | _, _ => True

/-- A classification step of any combination leaves a successful ledger
entry `(n, c)` in place and emits no event concerning it. -/
theorem classify_entry_clean (resolver : String → JobState) (n₁ : String)
    (c₀ : Comb) (p : List Nat) (st : St) (n : String) (c : Comb) (e : Entry)
    (hent : ledgerGet st.former n c = some e) (hsucc : e.success = true) :
    ledgerGet (classify resolver n₁ c₀ p st).2.former n c = some e ∧
    ∃ d, (classify resolver n₁ c₀ p st).2.trace = d ++ st.trace ∧
      ∀ ev ∈ d, noTouch n c ev := by
  by_cases hnc : n₁ = n ∧ c₀ = c
  · obtain ⟨hn, hc⟩ := hnc
    subst hn
    subst hc
    rw [classify_of_success hent hsucc]
    exact ⟨hent, [], rfl, by simp⟩
  · refine ⟨by rw [classify_ledger_frame _ _ _ _ _ _ _ hnc]; exact hent, ?_⟩
    rcases classify_shape resolver n₁ c₀ p st with hq |
        ⟨e₁, _, _, _, ⟨_, hq⟩ | ⟨_, hq⟩⟩
    · rw [hq]
      exact ⟨[], rfl, by simp⟩
    · rw [hq]
      refine ⟨[Event.query n₁ c₀ e₁.id], rfl, ?_⟩
      intro ev hev
      rcases List.mem_singleton.mp hev with rfl
      exact hnc
    · rw [hq]
      refine ⟨[Event.query n₁ c₀ e₁.id], rfl, ?_⟩
      intro ev hev
      rcases List.mem_singleton.mp hev with rfl
      exact hnc

end Sched

namespace Sched

/-- Master invariant for idempotent resume: under `forcestart = false`, a
ledger entry with `success = true` is never rewritten, never queried,
never covered by a schedule call, and never enters an array batch,
anywhere in the tree walk. -/
theorem successEntry_untouched (exec : Nat → String)
    (resolver : String → JobState) (possible : List Comb) (n : String)
    (c : Comb) (e : Entry) (hsucc : e.success = true) :
    ∀ (fuel : Nat) (t : Task) (st : St)
      (res : List String × List (Comb × List String)) (st' : St),
      run exec resolver possible fuel t st = .ok (res, st') →
      taskForce t = false →
      taskAccClean n c t →
      ledgerGet st.former n c = some e →
      ledgerGet st'.former n c = some e ∧
      (∃ d, st'.trace = d ++ st.trace ∧ ∀ ev ∈ d, noTouch n c ev) ∧
      outAccClean n c t res := by
  intro fuel
  induction fuel with
  | zero =>
      intro t st res st' h
      simp [run] at h
  | succ fuel ih =>
      intro t st res st' h hforce hacc hent
      cases t with
      | tree j path current force =>
          cases j with
          | mk n₁ vars arr deps =>
              have hf : force = false := hforce
              subst hf
              obtain ⟨combos, r1, hcs, hr1, hfin⟩ := run_tree_inv h
              obtain ⟨hent₁, ⟨d₁, hd₁, hcl₁⟩, hout₁⟩ :=
                ih _ _ _ _ hr1 rfl (by intro hn ids hmem; cases hmem) hent
              have hout₁' : n₁ = n → ∀ ids, (c, ids) ∉ r1.1.2 := hout₁
              rcases hfin with ⟨harr, hres, hst⟩ | ⟨harr, hres, hst⟩
              · subst hst
                have hclean : ∀ pr ∈ r1.1.2, ¬(n₁ = n ∧ pr.1 = c) := by
                  rintro pr hpr ⟨hn, hc⟩
                  have hmem : (pr.1, pr.2) ∈ r1.1.2 := by simpa using hpr
                  rw [hc] at hmem
                  exact hout₁' hn pr.2 hmem
                refine ⟨?_, ?_, trivial⟩
                · rw [commitArray_ledger_frame _ _ _ _ _ _ _ hclean]
                  exact hent₁
                · refine ⟨Event.sched n₁ r1.1.2.length
                      (dedupF (r1.1.2.foldr (fun pr rs => pr.2 ++ rs) []))
                      (depConstraint (dedupF
                        (r1.1.2.foldr (fun pr rs => pr.2 ++ rs) [])))
                      (exec r1.2.counter) (r1.1.2.map Prod.fst) :: d₁,
                    ?_, ?_⟩
                  · rw [commitArray_trace, hd₁]
                    rfl
                  · intro ev hev
                    rcases List.mem_cons.mp hev with hev | hev
                    · subst hev
                      rintro ⟨hn, hcov⟩
                      obtain ⟨pr, hpr, hprc⟩ := List.mem_map.mp hcov
                      exact hclean pr hpr ⟨hn, hprc⟩
                    · exact hcl₁ ev hev
              · subst hst
                exact ⟨hent₁, ⟨d₁, hd₁, hcl₁⟩, trivial⟩
      | combs j path force cs runAcc arrAcc =>
          cases j with
          | mk n₁ vars arr deps =>
              have hf : force = false := hforce
              subst hf
              cases cs with
              | nil =>
                  obtain ⟨hres, hst⟩ := run_combs_nil_inv h
                  subst hst
                  refine ⟨hent, ⟨[], rfl, by simp⟩, ?_⟩
                  subst hres
                  exact hacc
              | cons c₀ rest =>
                  obtain ⟨hentc, ⟨d₀, hd₀, hcl₀⟩⟩ :=
                    classify_entry_clean resolver n₁ c₀ path st n c e
                      hent hsucc
                  rcases run_combs_cons_inv h with
                      ⟨helig, rd, hrd, hbr⟩ | ⟨helig, e₀, hglg, hrest⟩
                  · -- eligible: the combination cannot be (n, c)
                    have hnc : ¬(n₁ = n ∧ c₀ = c) := by
                      rintro ⟨hn, hc⟩
                      subst hn
                      subst hc
                      rw [classify_of_success hent hsucc] at helig
                      simp [hent] at helig
                    obtain ⟨hent₂, ⟨d₁, hd₁, hcl₁⟩, -⟩ :=
                      ih _ _ _ _ hrd rfl trivial hentc
                    rcases hbr with ⟨harr, hrest⟩ | ⟨harr, hrest⟩
                    · have haccnew : taskAccClean n c
                          (.combs (.mk n₁ vars arr deps) path false rest
                            runAcc (arrAcc ++ [(c₀, rd.1.1)])) := by
                        intro hn ids hmem
                        rcases List.mem_append.mp hmem with hmem | hmem
                        · exact hacc hn ids hmem
                        · rcases List.mem_singleton.mp hmem with heq
                          exact hnc ⟨hn, congrArg Prod.fst heq.symm⟩
                      obtain ⟨hent₃, ⟨d₂, hd₂, hcl₂⟩, hout₃⟩ :=
                        ih _ _ _ _ hrest rfl haccnew hent₂
                      refine ⟨hent₃, ⟨d₂ ++ d₁ ++ d₀, ?_, ?_⟩, hout₃⟩
                      · rw [hd₂, hd₁, hd₀]
                        simp
                      · intro ev hev
                        simp only [List.mem_append] at hev
                        rcases hev with (hev | hev) | hev
                        exacts [hcl₂ ev hev, hcl₁ ev hev, hcl₀ ev hev]
                    · have hent₄ : ledgerGet
                          (commitRun exec n₁ path c₀ rd.1.1 rd.2).2.former
                          n c = some e := by
                        rw [commitRun_ledger_frame _ _ _ _ _ _ _ _ hnc]
                        exact hent₂
                      obtain ⟨hent₅, ⟨d₂, hd₂, hcl₂⟩, hout₅⟩ :=
                        ih _ _ _ _ hrest rfl hacc hent₄
                      refine ⟨hent₅, ⟨d₂ ++ (Event.sched n₁ 1 rd.1.1
                          (depConstraint rd.1.1) (exec rd.2.counter) [c₀] ::
                            d₁) ++ d₀, ?_, ?_⟩, hout₅⟩
                      · rw [hd₂, commitRun_trace, hd₁, hd₀]
                        simp
                      · intro ev hev
                        simp only [List.mem_append, List.mem_cons] at hev
                        rcases hev with (hev | hev | hev) | hev
                        · exact hcl₂ ev hev
                        · subst hev
                          rintro ⟨hn, hcov⟩
                          rcases List.mem_singleton.mp hcov with rfl
                          exact hnc ⟨hn, rfl⟩
                        · exact hcl₁ ev hev
                        · exact hcl₀ ev hev
                  · obtain ⟨hent₃, ⟨d₁, hd₁, hcl₁⟩, hout₃⟩ :=
                      ih _ _ _ _ hrest rfl hacc hentc
                    refine ⟨hent₃, ⟨d₁ ++ d₀, ?_, ?_⟩, hout₃⟩
                    · rw [hd₁, hd₀]
                      simp
                    · intro ev hev
                      simp only [List.mem_append] at hev
                      rcases hev with hev | hev
                      exacts [hcl₁ ev hev, hcl₀ ev hev]
      | deps ds path idx c₀ acc =>
          cases ds with
          | nil =>
              obtain ⟨hres, hst⟩ := run_deps_nil_inv h
              subst hst
              exact ⟨hent, ⟨[], rfl, by simp⟩, trivial⟩
          | cons hd rest =>
              obtain ⟨fe, d⟩ := hd
              obtain ⟨rt, hrt, hnext⟩ := run_deps_cons_inv h
              obtain ⟨hent₁, ⟨d₁, hd₁, hcl₁⟩, -⟩ :=
                ih _ _ _ _ hrt rfl trivial hent
              obtain ⟨hent₂, ⟨d₂, hd₂, hcl₂⟩, -⟩ :=
                ih _ _ _ _ hnext rfl trivial hent₁
              refine ⟨hent₂, ⟨d₂ ++ d₁, ?_, ?_⟩, trivial⟩
              · rw [hd₂, hd₁]
                simp
              · intro ev hev
                simp only [List.mem_append] at hev
                rcases hev with hev | hev
                exacts [hcl₂ ev hev, hcl₁ ev hev]

end Sched

namespace Sched

/-- A combination loop only appends to the accumulated `run_ids`. -/
theorem run_combs_ext (exec : Nat → String) (resolver : String → JobState)
    (possible : List Comb) :
    ∀ (fuel : Nat) (j : JobSpec) (path : List Nat) (force : Bool)
      (cs : List Comb) (runAcc : List String)
      (arrAcc : List (Comb × List String)) (st : St)
      (res : List String × List (Comb × List String)) (st' : St),
      run exec resolver possible fuel
        (.combs j path force cs runAcc arrAcc) st = .ok (res, st') →
      ∃ ext, res.1 = runAcc ++ ext := by
  intro fuel
  induction fuel with
  | zero =>
      intro j path force cs runAcc arrAcc st res st' h
      simp [run] at h
  | succ fuel ih =>
      intro j path force cs runAcc arrAcc st res st' h
      cases cs with
      | nil =>
          obtain ⟨hres, -⟩ := run_combs_nil_inv h
          subst hres
          exact ⟨[], by simp⟩
      | cons c₀ rest =>
          cases j with
          | mk n₁ vars arr deps =>
              rcases run_combs_cons_inv h with
                  ⟨-, rd, -, hbr⟩ | ⟨-, e₀, -, hrest⟩
              · rcases hbr with ⟨-, hrest⟩ | ⟨-, hrest⟩
                · exact ih _ _ _ _ _ _ _ _ _ hrest
                · obtain ⟨ext, hext⟩ := ih _ _ _ _ _ _ _ _ _ hrest
                  exact ⟨(commitRun exec n₁ path c₀ rd.1.1 rd.2).1 :: ext,
                    by rw [hext]; simp⟩
              · obtain ⟨ext, hext⟩ := ih _ _ _ _ _ _ _ _ _ hrest
                exact ⟨e₀.id :: ext, by rw [hext]; simp⟩

/-- The stored identifier of a successful ledger entry is appended to the
returned `run_ids` when its combination is iterated (forcestart unset). -/
theorem success_id_returned (exec : Nat → String)
    (resolver : String → JobState) (possible : List Comb) (n : String)
    (c : Comb) (e : Entry) (hsucc : e.success = true) :
    ∀ (fuel : Nat) (vars : List String) (arr : Bool)
      (deps : List (List String × JobSpec)) (path : List Nat)
      (cs : List Comb) (runAcc : List String)
      (arrAcc : List (Comb × List String)) (st : St)
      (res : List String × List (Comb × List String)) (st' : St),
      run exec resolver possible fuel
        (.combs (.mk n vars arr deps) path false cs runAcc arrAcc) st =
          .ok (res, st') →
      ledgerGet st.former n c = some e →
      c ∈ cs →
      e.id ∈ res.1 := by
  intro fuel
  induction fuel with
  | zero =>
      intro vars arr deps path cs runAcc arrAcc st res st' h
      simp [run] at h
  | succ fuel ih =>
      intro vars arr deps path cs runAcc arrAcc st res st' h hent hmem
      cases cs with
      | nil => cases hmem
      | cons c₀ rest =>
          by_cases hc : c₀ = c
          · subst hc
            rcases run_combs_cons_inv h with
                ⟨helig, rd, hrd, hbr⟩ | ⟨helig, e₀, hglg, hrest⟩
            · exfalso
              rw [classify_of_success hent hsucc] at helig
              simp [hent] at helig
            · rw [classify_of_success hent hsucc] at hglg hrest
              rw [hent] at hglg
              cases hglg
              obtain ⟨ext, hext⟩ :=
                run_combs_ext exec resolver possible fuel _ _ _ _ _ _ _ _ _
                  hrest
              rw [hext]
              simp
          · have hmem₁ : c ∈ rest := by
              rcases List.mem_cons.mp hmem with hmem | hmem
              · exact absurd hmem.symm hc
              · exact hmem
            have hnc : ¬(n = n ∧ c₀ = c) := fun hp => hc hp.2
            obtain ⟨hentc, -⟩ :=
              classify_entry_clean resolver n c₀ path st n c e hent hsucc
            rcases run_combs_cons_inv h with
                ⟨helig, rd, hrd, hbr⟩ | ⟨helig, e₀, hglg, hrest⟩
            · obtain ⟨hent₂, -, -⟩ :=
                successEntry_untouched exec resolver possible n c e hsucc
                  fuel _ _ _ _ hrd rfl trivial hentc
              rcases hbr with ⟨harr, hrest⟩ | ⟨harr, hrest⟩
              · exact ih _ _ _ _ _ _ _ _ _ _ hrest hent₂ hmem₁
              · have hent₃ : ledgerGet
                    (commitRun exec n path c₀ rd.1.1 rd.2).2.former n c =
                      some e := by
                  rw [commitRun_ledger_frame _ _ _ _ _ _ _ _ hnc]
                  exact hent₂
                exact ih _ _ _ _ _ _ _ _ _ _ hrest hent₃ hmem₁
            · exact ih _ _ _ _ _ _ _ _ _ _ hrest hentc hmem₁

end Sched

/-! ### Claim C1 — idempotent resume -/

/-- C1 (Idempotent resume): when `schedule_tree` is invoked without
`forcestart`, every combination whose ledger entry is marked successful is
left untouched — its entry is unchanged, the executor's `schedule` is
never called for it (no schedule event of its job covers it), the
run-state resolver is never consulted for it — and when the root job
itself iterates the combination, the stored run identifier is returned
among the invocation's run ids. -/
theorem C1_idempotent_resume (exec : Nat → String)
    (resolver : String → Sched.JobState) (possible : List Sched.Comb)
    (fuel : Nat) (j : Sched.JobSpec) (current : Sched.Comb) (st : Sched.St)
    (res : List String × List (Sched.Comb × List String)) (st' : Sched.St)
    (n : String) (c : Sched.Comb) (e : Sched.Entry)
    (hrun : Sched.scheduleTree exec resolver possible fuel j current false
      st = .ok (res, st'))
    (hentry : Sched.ledgerGet st.former n c = some e)
    (hsucc : e.success = true) :
    Sched.ledgerGet st'.former n c = some e
    ∧ (∃ d, st'.trace = d ++ st.trace ∧ ∀ ev ∈ d, Sched.noTouch n c ev)
    ∧ (j.name = n → ∀ combos,
        Sched.rootCombos possible j.vars current = .ok combos →
        c ∈ combos → e.id ∈ res.1) := by
  have hmain := Sched.successEntry_untouched exec resolver possible n c e
    hsucc fuel (.tree j [] current false) st res st' hrun rfl trivial hentry
  refine ⟨hmain.1, hmain.2.1, ?_⟩
  intro hn combos hcombos hc
  cases j with
  | mk n₁ vars arr deps =>
      have hn' : n₁ = n := hn
      subst hn'
      cases fuel with
      | zero => simp [Sched.scheduleTree, Sched.run] at hrun
      | succ f =>
          have hrun' : Sched.run exec resolver possible (f + 1)
              (.tree (.mk n₁ vars arr deps) [] current false) st =
                .ok (res, st') := hrun
          obtain ⟨combos₀, r1, hcs, hr1, hfin⟩ := Sched.run_tree_inv hrun'
          have hco : combos = combos₀ := by
            have : Sched.rootCombos possible vars current = .ok combos :=
              hcombos
            rw [hcs] at this
            cases this
            rfl
          subst hco
          have hid := Sched.success_id_returned exec resolver possible n₁ c
            e hsucc f vars arr deps [] combos [] [] st r1.1 r1.2 hr1
            hentry hc
          rcases hfin with ⟨-, hres, -⟩ | ⟨-, hres, -⟩
          · subst hres
            exact List.mem_append_left _ hid
          · subst hres
            exact hid

/-- Concrete witness for C1: a single job `J` with a successful ledger
entry for the empty combination; re-invocation changes nothing, emits no
event, and returns the stored identifier `42`. -/
theorem C1_idempotent_resume_witness :
    Sched.ledgerGet [("J", [(([] : Sched.Comb),
        { id := "42", success := true : Sched.Entry })])] "J" [] =
      some { id := "42", success := true }
    ∧ (∃ d, ([] : List Sched.Event) = d ++ [] ∧
        ∀ ev ∈ d, Sched.noTouch "J" [] ev)
    ∧ ("42" ∈ (["42"] : List String)) := by
  have h := C1_idempotent_resume (fun k => "r" ++ Nat.repr k)
    (fun _ => .FAILED) [[]] 5 (.mk "J" [] false []) []
    { former := [("J", [([], { id := "42", success := true })])],
      schedm := [], trace := [], counter := 0 }
    (["42"], [])
    { former := [("J", [([], { id := "42", success := true })])],
      schedm := [], trace := [], counter := 0 }
    "J" [] { id := "42", success := true } rfl rfl rfl
  exact ⟨h.1, h.2.1, h.2.2 rfl [[]] rfl (by simp)⟩

namespace Sched

mutual

/-- All job names occurring in a dependency tree. -/
def jobNames : JobSpec → List String
  | .mk n _ _ deps => n :: depsNames deps

/-- All job names occurring in a dependency list. -/
def depsNames : List (List String × JobSpec) → List String
  | [] => []
  | (_, d) :: rest => jobNames d ++ depsNames rest

end

/-- The job a trace event belongs to. -/
def evJob : Event → String
  | .query n₁ _ _ => n₁
  | .sched n₁ _ _ _ _ _ => n₁

/-- The job names a task can reach. -/
def taskNames : Task → List String
  | .tree j _ _ _ => jobNames j
  | .combs j _ _ _ _ _ => jobNames j
  | .deps ds _ _ _ _ => depsNames ds

/-- The instance paths a task can write to. -/
def touchesPath : Task → List Nat → Prop
  | .tree _ p₀ _ _, p => ∃ q, p = p₀ ++ q
  | .combs _ p₀ _ _ _ _, p => ∃ q, p = p₀ ++ q
  | .deps _ p₀ _ _ _, p => ∃ q, p = p₀ ++ q ∧ q ≠ []

theorem classify_name_frame (resolver : String → JobState) (n₁ : String)
    (c₀ : Comb) (p : List Nat) (st : St) (n : String) (hne : n₁ ≠ n) :
    (∀ c, ledgerGet (classify resolver n₁ c₀ p st).2.former n c =
      ledgerGet st.former n c) ∧
    ∃ d, (classify resolver n₁ c₀ p st).2.trace = d ++ st.trace ∧
      ∀ ev ∈ d, evJob ev ≠ n := by
  rcases classify_shape resolver n₁ c₀ p st with hq |
      ⟨e₁, _, _, _, ⟨_, hq⟩ | ⟨_, hq⟩⟩
  · rw [hq]
    exact ⟨fun c => rfl, [], rfl, by simp⟩
  · rw [hq]
    refine ⟨fun c => ledgerGet_ledgerSet_frame _ n₁ n c₀ c _
      (fun hp => hne hp.1), [Event.query n₁ c₀ e₁.id], rfl, ?_⟩
    intro ev hev
    rcases List.mem_singleton.mp hev with rfl
    exact hne
  · rw [hq]
    refine ⟨fun c => rfl, [Event.query n₁ c₀ e₁.id], rfl, ?_⟩
    intro ev hev
    rcases List.mem_singleton.mp hev with rfl
    exact hne

theorem writeArray_sm_frame (n₁ : String) (p₀ p : List Nat) (rid : String)
    (hne : p₀ ≠ p) :
    ∀ (i : Nat) (acc : List (Comb × List String)) (st : St) (c : Comb),
      smGet (writeArray n₁ p₀ rid i acc st).schedm p c =
        smGet st.schedm p c := by
  intro i acc
  induction acc generalizing i with
  | nil => intro st c; rfl
  | cons pr rest ih =>
      intro st c
      simp only [writeArray]
      rw [ih (i + 1)]
      exact smGet_smSet_frame _ p₀ p pr.1 c _ (fun hp => hne hp.1)

theorem writeArray_counter (n₁ : String) (p₀ : List Nat) (rid : String) :
    ∀ (i : Nat) (acc : List (Comb × List String)) (st : St),
      (writeArray n₁ p₀ rid i acc st).counter = st.counter := by
  intro i acc
  induction acc generalizing i with
  | nil => intro st; rfl
  | cons pr rest ih => intro st; simp [writeArray, ih]

/-- A task whose name set avoids `n` leaves job `n`'s ledger slice
unchanged and emits no event of job `n`. -/
theorem run_name_frame (exec : Nat → String) (resolver : String → JobState)
    (possible : List Comb) (n : String) :
    ∀ (fuel : Nat) (t : Task) (st : St)
      (res : List String × List (Comb × List String)) (st' : St),
      run exec resolver possible fuel t st = .ok (res, st') →
      n ∉ taskNames t →
      (∀ c, ledgerGet st'.former n c = ledgerGet st.former n c) ∧
      (∃ d, st'.trace = d ++ st.trace ∧ ∀ ev ∈ d, evJob ev ≠ n) := by
  intro fuel
  induction fuel with
  | zero =>
      intro t st res st' h
      simp [run] at h
  | succ fuel ih =>
      intro t st res st' h hns
      cases t with
      | tree j path current force =>
          cases j with
          | mk n₁ vars arr deps =>
              have hn₁ : n₁ ≠ n := by
                intro he
                exact hns (by simp [taskNames, jobNames, he])
              obtain ⟨combos, r1, hcs, hr1, hfin⟩ := run_tree_inv h
              obtain ⟨hled₁, d₁, hd₁, hcl₁⟩ := ih _ _ _ _ hr1 hns
              rcases hfin with ⟨harr, hres, hst⟩ | ⟨harr, hres, hst⟩
              · subst hst
                refine ⟨?_, ?_⟩
                · intro c
                  rw [commitArray_ledger_frame _ _ _ _ _ _ _
                    (fun pr _ hp => hn₁ hp.1)]
                  exact hled₁ c
                · refine ⟨Event.sched n₁ r1.1.2.length
                      (dedupF (r1.1.2.foldr (fun pr rs => pr.2 ++ rs) []))
                      (depConstraint (dedupF
                        (r1.1.2.foldr (fun pr rs => pr.2 ++ rs) [])))
                      (exec r1.2.counter) (r1.1.2.map Prod.fst) :: d₁,
                    ?_, ?_⟩
                  · rw [commitArray_trace, hd₁]
                    rfl
                  · intro ev hev
                    rcases List.mem_cons.mp hev with hev | hev
                    · subst hev
                      exact hn₁
                    · exact hcl₁ ev hev
              · subst hst
                exact ⟨hled₁, d₁, hd₁, hcl₁⟩
      | combs j path force cs runAcc arrAcc =>
          cases j with
          | mk n₁ vars arr deps =>
              have hn₁ : n₁ ≠ n := by
                intro he
                exact hns (by simp [taskNames, jobNames, he])
              have hdeps : n ∉ depsNames deps := by
                intro he
                exact hns (by simp [taskNames, jobNames, he])
              cases cs with
              | nil =>
                  obtain ⟨hres, hst⟩ := run_combs_nil_inv h
                  subst hst
                  exact ⟨fun c => rfl, [], rfl, by simp⟩
              | cons c₀ rest =>
                  obtain ⟨hledc, d₀, hd₀, hcl₀⟩ :=
                    classify_name_frame resolver n₁ c₀ path st n hn₁
                  rcases run_combs_cons_inv h with
                      ⟨helig, rd, hrd, hbr⟩ | ⟨helig, e₀, hglg, hrest⟩
                  · obtain ⟨hled₁, d₁, hd₁, hcl₁⟩ := ih _ _ _ _ hrd
                      (by simpa [taskNames] using hdeps)
                    rcases hbr with ⟨harr, hrest⟩ | ⟨harr, hrest⟩
                    · obtain ⟨hled₂, d₂, hd₂, hcl₂⟩ := ih _ _ _ _ hrest hns
                      refine ⟨fun c => by
                          rw [hled₂ c, hled₁ c, hledc c],
                        d₂ ++ d₁ ++ d₀, ?_, ?_⟩
                      · rw [hd₂, hd₁, hd₀]
                        simp
                      · intro ev hev
                        simp only [List.mem_append] at hev
                        rcases hev with (hev | hev) | hev
                        exacts [hcl₂ ev hev, hcl₁ ev hev, hcl₀ ev hev]
                    · obtain ⟨hled₂, d₂, hd₂, hcl₂⟩ := ih _ _ _ _ hrest hns
                      refine ⟨fun c => by
                          rw [hled₂ c,
                            commitRun_ledger_frame _ _ _ _ _ _ _ _
                              (fun hp => hn₁ hp.1),
                            hled₁ c, hledc c],
                        d₂ ++ (Event.sched n₁ 1 rd.1.1
                          (depConstraint rd.1.1) (exec rd.2.counter) [c₀] ::
                            d₁) ++ d₀, ?_, ?_⟩
                      · rw [hd₂, commitRun_trace, hd₁, hd₀]
                        simp
                      · intro ev hev
                        simp only [List.mem_append, List.mem_cons] at hev
                        rcases hev with (hev | hev | hev) | hev
                        · exact hcl₂ ev hev
                        · subst hev
                          exact hn₁
                        · exact hcl₁ ev hev
                        · exact hcl₀ ev hev
                  · obtain ⟨hled₁, d₁, hd₁, hcl₁⟩ := ih _ _ _ _ hrest hns
                    refine ⟨fun c => by rw [hled₁ c, hledc c],
                      d₁ ++ d₀, ?_, ?_⟩
                    · rw [hd₁, hd₀]
                      simp
                    · intro ev hev
                      simp only [List.mem_append] at hev
                      rcases hev with hev | hev
                      exacts [hcl₁ ev hev, hcl₀ ev hev]
      | deps ds path idx c₀ acc =>
          cases ds with
          | nil =>
              obtain ⟨hres, hst⟩ := run_deps_nil_inv h
              subst hst
              exact ⟨fun c => rfl, [], rfl, by simp⟩
          | cons hd rest =>
              obtain ⟨fe, d⟩ := hd
              have hnd : n ∉ jobNames d := by
                intro he
                exact hns (by simp [taskNames, depsNames, he])
              have hnr : n ∉ depsNames rest := by
                intro he
                exact hns (by simp [taskNames, depsNames, he])
              obtain ⟨rt, hrt, hnext⟩ := run_deps_cons_inv h
              obtain ⟨hled₁, d₁, hd₁, hcl₁⟩ := ih _ _ _ _ hrt
                (by simpa [taskNames] using hnd)
              obtain ⟨hled₂, d₂, hd₂, hcl₂⟩ := ih _ _ _ _ hnext
                (by simpa [taskNames] using hnr)
              refine ⟨fun c => by rw [hled₂ c, hled₁ c], d₂ ++ d₁, ?_, ?_⟩
              · rw [hd₂, hd₁]
                simp
              · intro ev hev
                simp only [List.mem_append] at hev
                rcases hev with hev | hev
                exacts [hcl₂ ev hev, hcl₁ ev hev]

end Sched

namespace Sched

theorem commitArray_sm_frame (exec : Nat → String) (n₁ : String)
    (p₀ p : List Nat) (acc : List (Comb × List String)) (st : St)
    (c : Comb) (hne : p₀ ≠ p) :
    smGet (commitArray exec n₁ p₀ acc st).2.schedm p c =
      smGet st.schedm p c := by
  simp only [commitArray]
  rw [writeArray_sm_frame n₁ p₀ p _ hne]
  rfl

/-- A task writes only to instance paths below its own. -/
theorem run_path_frame (exec : Nat → String) (resolver : String → JobState)
    (possible : List Comb) (p : List Nat) :
    ∀ (fuel : Nat) (t : Task) (st : St)
      (res : List String × List (Comb × List String)) (st' : St),
      run exec resolver possible fuel t st = .ok (res, st') →
      ¬ touchesPath t p →
      ∀ c, smGet st'.schedm p c = smGet st.schedm p c := by
  intro fuel
  induction fuel with
  | zero =>
      intro t st res st' h
      simp [run] at h
  | succ fuel ih =>
      intro t st res st' h hnt c
      cases t with
      | tree j path current force =>
          cases j with
          | mk n₁ vars arr deps =>
              have hpne : path ≠ p := by
                intro he
                exact hnt ⟨[], by simp [he]⟩
              obtain ⟨combos, r1, hcs, hr1, hfin⟩ := run_tree_inv h
              have h₁ := ih _ _ _ _ hr1 (by
                intro ht
                exact hnt ht) c
              rcases hfin with ⟨harr, hres, hst⟩ | ⟨harr, hres, hst⟩
              · subst hst
                rw [commitArray_sm_frame _ _ _ _ _ _ _ hpne]
                exact h₁
              · subst hst
                exact h₁
      | combs j path force cs runAcc arrAcc =>
          cases j with
          | mk n₁ vars arr deps =>
              have hpne : path ≠ p := by
                intro he
                exact hnt ⟨[], by simp [he]⟩
              cases cs with
              | nil =>
                  obtain ⟨hres, hst⟩ := run_combs_nil_inv h
                  subst hst
                  rfl
              | cons c₀ rest =>
                  have hcsm := classify_schedm resolver n₁ c₀ path st
                  rcases run_combs_cons_inv h with
                      ⟨helig, rd, hrd, hbr⟩ | ⟨helig, e₀, hglg, hrest⟩
                  · have h₁ := ih _ _ _ _ hrd (by
                      rintro ⟨q, hq, hqne⟩
                      exact hnt ⟨q, hq⟩) c
                    rcases hbr with ⟨harr, hrest⟩ | ⟨harr, hrest⟩
                    · have h₂ := ih _ _ _ _ hrest hnt c
                      rw [h₂, h₁, hcsm]
                    · have h₂ := ih _ _ _ _ hrest hnt c
                      rw [h₂, commitRun_schedm]
                      rw [smGet_smSet_frame _ path p c₀ c _
                        (fun hp => hpne hp.1)]
                      rw [h₁, hcsm]

                  · have h₁ := ih _ _ _ _ hrest hnt c
                    rw [h₁, hcsm]
      | deps ds path idx c₀ acc =>
          cases ds with
          | nil =>
              obtain ⟨hres, hst⟩ := run_deps_nil_inv h
              subst hst
              rfl
          | cons hd rest =>
              obtain ⟨fe, d⟩ := hd
              obtain ⟨rt, hrt, hnext⟩ := run_deps_cons_inv h
              have h₁ := ih _ _ _ _ hrt (by
                rintro ⟨q, hq⟩
                refine hnt ⟨idx :: q, ?_, by simp⟩
                rw [hq]
                simp) c
              have h₂ := ih _ _ _ _ hnext (by
                rintro ⟨q, hq, hqne⟩
                exact hnt ⟨q, hq, hqne⟩) c
              rw [h₂, h₁]

end Sched

namespace Sched

/-- Decimal digit decoding of a character (left inverse of
`Nat.digitChar` on the digits 0-9). -/
def decDigit (c : Char) : Nat := c.toNat - 48

/-- Decode a decimal digit string, most significant digit first. -/
def decodeDigits (l : List Char) : Nat :=
  l.foldl (fun a c => 10 * a + decDigit c) 0

theorem toDigitsCore_append (b : Nat) :
    ∀ (f n : Nat) (acc : List Char),
      Nat.toDigitsCore b f n acc = Nat.toDigitsCore b f n [] ++ acc := by
  intro f
  induction f with
  | zero => intro n acc; simp [Nat.toDigitsCore]
  | succ f ih =>
      intro n acc
      simp only [Nat.toDigitsCore]
      by_cases h : n / b = 0
      · rw [if_pos h, if_pos h]
        simp
      · rw [if_neg h, if_neg h]
        rw [ih (n / b) (Nat.digitChar (n % b) :: acc),
          ih (n / b) [Nat.digitChar (n % b)]]
        simp

theorem decDigit_digitChar (d : Nat) (h : d < 10) :
    decDigit (Nat.digitChar d) = d := by
  interval_cases d <;> rfl

theorem decodeDigits_toDigitsCore :
    ∀ (f n : Nat), n < f →
      decodeDigits (Nat.toDigitsCore 10 f n []) = n := by
  intro f
  induction f with
  | zero => intro n hn; omega
  | succ f ih =>
      intro n hn
      simp only [Nat.toDigitsCore]
      by_cases h : n / 10 = 0
      · rw [if_pos h]
        have hd := decDigit_digitChar (n % 10) (by omega)
        simp only [decodeDigits, List.foldl_cons, List.foldl_nil]
        rw [hd]
        omega
      · rw [if_neg h,
          toDigitsCore_append 10 f (n / 10) [Nat.digitChar (n % 10)]]
        have ihd := ih (n / 10) (by omega)
        have hd := decDigit_digitChar (n % 10) (by omega)
        simp only [decodeDigits, List.foldl_append, List.foldl_cons,
          List.foldl_nil] at ihd ⊢
        rw [ihd, hd]
        omega

/-- `Nat.repr` is injective (read off via decimal decoding). -/
theorem nat_repr_data_inj {a b : Nat}
    (h : (Nat.repr a).data = (Nat.repr b).data) : a = b := by
  have ha := decodeDigits_toDigitsCore (a + 1) a (Nat.lt_succ_self a)
  have hb := decodeDigits_toDigitsCore (b + 1) b (Nat.lt_succ_self b)
  simp only [Nat.repr, Nat.toDigits, List.asString] at h
  rw [← ha, ← hb, h]

/-- Identifiers suffixed with distinct indices are distinct. -/
theorem suffixId_inj (rid : String) {a b : Nat}
    (h : rid ++ "_" ++ Nat.repr a = rid ++ "_" ++ Nat.repr b) : a = b := by
  apply nat_repr_data_inj
  have hd := congrArg String.data h
  simp only [String.data_append] at hd
  exact List.append_cancel_left hd

/-- The result of `recombine` is duplicate-free (it models a frozenset). -/
theorem recombine_nodup (combs : List Comb) (values : List (String × String))
    (freekeys : List String) (l : List Comb)
    (h : recombine combs values freekeys = .ok l) : l.Nodup := by
  simp only [recombine] at h
  rw [ebind_ok_iff] at h
  obtain ⟨l₀, -, h⟩ := h
  cases h
  exact dedupF_nodup l₀

theorem rootCombos_nodup (possible : List Comb) (vars : List String)
    (current : Comb) (combos : List Comb)
    (h : rootCombos possible vars current = .ok combos) : combos.Nodup :=
  recombine_nodup _ _ _ _ h

/-- The event is a schedule call of job `n`. -/
def isSchedOf (n : String) : Event → Prop
  | .sched n₁ _ _ _ _ _ => n₁ = n
  | .query _ _ _ => False

theorem classify_trace_noSched (resolver : String → JobState) (n₁ : String)
    (c : Comb) (path : List Nat) (st : St) (n : String) :
    ∃ d, (classify resolver n₁ c path st).2.trace = d ++ st.trace ∧
      ∀ ev ∈ d, ¬ isSchedOf n ev := by
  rcases classify_shape resolver n₁ c path st with hq |
      ⟨e, -, -, -, ⟨-, hq⟩ | ⟨-, hq⟩⟩
  · rw [hq]
    exact ⟨[], rfl, by simp⟩
  · rw [hq]
    refine ⟨[Event.query n₁ c e.id], rfl, ?_⟩
    intro ev hev
    rcases List.mem_singleton.mp hev with rfl
    simp [isSchedOf]
  · rw [hq]
    refine ⟨[Event.query n₁ c e.id], rfl, ?_⟩
    intro ev hev
    rcases List.mem_singleton.mp hev with rfl
    simp [isSchedOf]

/-- The per-index ledger writes after an array submission: with
duplicate-free combinations, index `k` of the batch ends up with the
suffixed identifier `<rid>_<i+k>` and success `false`. -/
theorem writeArray_ledger_get (n : String) (path : List Nat) (rid : String) :
    ∀ (acc : List (Comb × List String)) (i k : Nat)
      (pr : Comb × List String), acc[k]? = some pr →
      (acc.map Prod.fst).Nodup → ∀ st : St,
      ledgerGet (writeArray n path rid i acc st).former n pr.1 =
        some { id := rid ++ "_" ++ Nat.repr (i + k), success := false } := by
  intro acc
  induction acc with
  | nil => intro i k pr hk; simp at hk
  | cons q rest ih =>
      intro i k pr hk hnd st
      simp only [List.map_cons, List.nodup_cons] at hnd
      cases k with
      | zero =>
          simp only [List.getElem?_cons_zero, Option.some.injEq] at hk
          subst hk
          simp only [writeArray, Nat.add_zero]
          rw [writeArray_ledger_frame n n path rid (i + 1) rest _ q.1
            (fun q₁ hq₁ hp =>
              hnd.1 (hp.2 ▸ List.mem_map_of_mem Prod.fst hq₁))]
          exact ledgerGet_ledgerSet_self _ n q.1 _
      | succ j =>
          simp only [List.getElem?_cons_succ] at hk
          simp only [writeArray]
          have hi : i + (j + 1) = (i + 1) + j := by omega
          rw [hi]
          exact ih (i + 1) j pr hk hnd.2 _

end Sched

namespace Sched

theorem noSched_of_evJob_ne {n : String} {ev : Event} (h : evJob ev ≠ n) :
    ¬ isSchedOf n ev := by
  cases ev with
  | query => simp [isSchedOf]
  | sched => simpa [isSchedOf, evJob] using h

/-- The per-combination loop of an array job makes no schedule call for
the job itself: it only accumulates the eligible combinations (in order,
a sublist of the pending ones), and every event it emits is a resolver
query or a schedule call of a dependency job. -/
theorem combs_arr_facts (exec : Nat → String) (resolver : String → JobState)
    (possible : List Comb) (n : String) :
    ∀ (fuel : Nat) (vars : List String)
      (deps : List (List String × JobSpec)) (path : List Nat) (force : Bool)
      (cs : List Comb) (runAcc : List String)
      (arrAcc : List (Comb × List String)) (st : St)
      (res : List String × List (Comb × List String)) (st' : St),
      run exec resolver possible fuel
        (.combs (.mk n vars true deps) path force cs runAcc arrAcc) st =
        .ok (res, st') →
      n ∉ depsNames deps →
      (∃ ext, res.2 = arrAcc ++ ext ∧
        List.Sublist (ext.map Prod.fst) cs) ∧
      (∃ d, st'.trace = d ++ st.trace ∧ ∀ ev ∈ d, ¬ isSchedOf n ev) := by
  intro fuel
  induction fuel with
  | zero =>
      intro vars deps path force cs runAcc arrAcc st res st' h
      simp [run] at h
  | succ fuel ih =>
      intro vars deps path force cs runAcc arrAcc st res st' h hn
      cases cs with
      | nil =>
          obtain ⟨hres, hst⟩ := run_combs_nil_inv h
          subst hst
          refine ⟨⟨[], by simp [hres], List.nil_sublist _⟩, [], rfl, by simp⟩
      | cons c rest =>
          obtain ⟨d₀, hd₀, hd₀c⟩ :=
            classify_trace_noSched resolver n c path st n
          rcases run_combs_cons_inv h with
            ⟨-, rd, hrd, ⟨-, hrest⟩ | ⟨harr, -⟩⟩ | ⟨-, e, -, hrest⟩
          · obtain ⟨-, d₁, hd₁, hd₁c⟩ := run_name_frame exec resolver
              possible n fuel (.deps deps path 0 c [])
              (classify resolver n c path st).2 rd.1 rd.2 (by
                cases rd
                exact hrd) hn
            obtain ⟨⟨ext, hres2, hsub⟩, d₂, hd₂, hd₂c⟩ :=
              ih vars deps path force rest runAcc (arrAcc ++ [(c, rd.1.1)])
                rd.2 res st' hrest hn
            refine ⟨⟨(c, rd.1.1) :: ext, ?_, ?_⟩,
              d₂ ++ (d₁ ++ d₀), ?_, ?_⟩
            · rw [hres2]
              simp
            · simpa using List.Sublist.cons₂ c hsub
            · rw [hd₂, hd₁, hd₀]
              simp [List.append_assoc]
            · intro ev hev
              rcases List.mem_append.mp hev with hev | hev
              · exact hd₂c ev hev
              · rcases List.mem_append.mp hev with hev | hev
                · exact noSched_of_evJob_ne (hd₁c ev hev)
                · exact hd₀c ev hev
          · exact absurd harr (by simp)
          · obtain ⟨⟨ext, hres2, hsub⟩, d₂, hd₂, hd₂c⟩ :=
              ih vars deps path force rest (runAcc ++ [e.id]) arrAcc
                (classify resolver n c path st).2 res st' hrest hn
            refine ⟨⟨ext, hres2, hsub.trans (List.sublist_cons_self c rest)⟩,
              d₂ ++ d₀, ?_, ?_⟩
            · rw [hd₂, hd₀]
              simp [List.append_assoc]
            · intro ev hev
              rcases List.mem_append.mp hev with hev | hev
              · exact hd₂c ev hev
              · exact hd₀c ev hev

end Sched

namespace Sched

/-- After `commitArray`, the `k`-th batched combination's ledger entry
is the schedule call's identifier suffixed with `_k`, success `false`. -/
theorem commitArray_ledger_get (exec : Nat → String) (n : String)
    (path : List Nat) (acc : List (Comb × List String)) (st : St)
    (hnd : (acc.map Prod.fst).Nodup) (k : Nat) (pr : Comb × List String)
    (hk : acc[k]? = some pr) :
    ledgerGet (commitArray exec n path acc st).2.former n pr.1 =
      some { id := exec st.counter ++ "_" ++ Nat.repr k,
             success := false } := by
  simp only [commitArray, scheduleRun]
  have h := writeArray_ledger_get n path (exec st.counter) acc 0 k pr hk hnd
  rw [Nat.zero_add] at h
  exact h _

end Sched

/-! ### Claim C2 — array consolidation -/

/-- C2 (Array consolidation): for an array-flagged job whose own name
does not recur among its dependencies, one `schedule_tree` pass either
makes no schedule call at all for the job, or makes exactly one; that
single call's run count equals the number of combinations it covers,
the covered combinations are a duplicate-free selection from the pass's
combination set, and afterwards the ledger holds, for the `k`-th covered
combination, the identifier `<runId>_<k>` (the single returned identifier
suffixed with the combination's index) with success `false`, all these
identifiers being pairwise distinct. -/
theorem C2_array_consolidation (exec : Nat → String)
    (resolver : String → Sched.JobState) (possible : List Sched.Comb)
    (fuel : Nat) (n : String) (vars : List String)
    (deps : List (List String × Sched.JobSpec)) (current : Sched.Comb)
    (force : Bool) (st : Sched.St)
    (res : List String × List (Sched.Comb × List String)) (st' : Sched.St)
    (hn : n ∉ Sched.depsNames deps)
    (hrun : Sched.scheduleTree exec resolver possible fuel
      (.mk n vars true deps) current force st = .ok (res, st')) :
    ∃ d, st'.trace = d ++ st.trace ∧
      ((∀ ev ∈ d, ¬ Sched.isSchedOf n ev) ∨
       ∃ d₂ ids rid covers,
         d = Sched.Event.sched n covers.length ids
             (Sched.depConstraint ids) rid covers :: d₂ ∧
         (∀ ev ∈ d₂, ¬ Sched.isSchedOf n ev) ∧
         covers ≠ [] ∧ covers.Nodup ∧
         (∃ combos,
           Sched.rootCombos possible vars current = .ok combos ∧
           ∀ c ∈ covers, c ∈ combos) ∧
         (∀ (k : Nat) (c : Sched.Comb), covers[k]? = some c →
           Sched.ledgerGet st'.former n c =
             some { id := rid ++ "_" ++ Nat.repr k, success := false }) ∧
         (∀ k₁ k₂ : Nat, k₁ < covers.length → k₂ < covers.length →
           k₁ ≠ k₂ →
           rid ++ "_" ++ Nat.repr k₁ ≠ rid ++ "_" ++ Nat.repr k₂)) := by
  cases fuel with
  | zero => simp [Sched.scheduleTree, Sched.run] at hrun
  | succ f =>
      have hrun' : Sched.run exec resolver possible (f + 1)
          (.tree (.mk n vars true deps) [] current force) st =
            .ok (res, st') := hrun
      obtain ⟨combos, r1, hcs, hr1, hfin⟩ := Sched.run_tree_inv hrun'
      obtain ⟨⟨ext, hres2, hsub⟩, dc, hdc, hdcC⟩ :=
        Sched.combs_arr_facts exec resolver possible n f vars deps [] force
          combos [] [] st r1.1 r1.2 (by cases r1; exact hr1) hn
      rw [List.nil_append] at hres2
      have hsub' : List.Sublist (r1.1.2.map Prod.fst) combos := by
        rw [hres2]; exact hsub
      rcases hfin with ⟨harr, hres, hst⟩ | ⟨harr, hres, hst⟩
      · subst hst
        have hne : r1.1.2 ≠ [] := by
          intro hnil
          rw [hnil] at harr
          simp at harr
        have hnd : (r1.1.2.map Prod.fst).Nodup :=
          List.Nodup.sublist hsub'
            (Sched.rootCombos_nodup possible vars current combos hcs)
        refine ⟨Sched.Event.sched n r1.1.2.length
            (Sched.dedupF (r1.1.2.foldr (fun pr rs => pr.2 ++ rs) []))
            (Sched.depConstraint (Sched.dedupF
              (r1.1.2.foldr (fun pr rs => pr.2 ++ rs) [])))
            (exec r1.2.counter) (r1.1.2.map Prod.fst) :: dc, ?_, ?_⟩
        · rw [Sched.commitArray_trace, hdc]
          rfl
        · refine Or.inr ⟨dc,
            Sched.dedupF (r1.1.2.foldr (fun pr rs => pr.2 ++ rs) []),
            exec r1.2.counter, r1.1.2.map Prod.fst,
            by simp, hdcC, by simpa using hne, hnd,
            ⟨combos, hcs, fun c hc => hsub'.subset hc⟩, ?_, ?_⟩
          · intro k c hk
            rw [List.getElem?_map] at hk
            cases hq : r1.1.2[k]? with
            | none => rw [hq] at hk; cases hk
            | some pr =>
                rw [hq] at hk
                simp only [Option.map_some', Option.some.injEq] at hk
                subst hk
                exact Sched.commitArray_ledger_get exec n [] r1.1.2 r1.2
                  hnd k pr hq
          · intro k₁ k₂ h₁ h₂ hkne heq
            exact hkne (Sched.suffixId_inj _ heq)
      · subst hst
        exact ⟨dc, hdc, Or.inl hdcC⟩

/-- Concrete witness for C2: an array job `A` over the two combinations
`a=1`, `a=2` makes one schedule call of run count 2 and stores the
suffixed identifiers `r0_0`, `r0_1`, both with success `false`. -/
theorem C2_array_consolidation_witness :
    ∃ d, [Sched.Event.sched "A" 2 [] "" "r0"
        [[("a", "1")], [("a", "2")]]] = d ++ ([] : List Sched.Event) ∧
      ((∀ ev ∈ d, ¬ Sched.isSchedOf "A" ev) ∨
       ∃ d₂ ids rid covers,
         d = Sched.Event.sched "A" covers.length ids
             (Sched.depConstraint ids) rid covers :: d₂ ∧
         (∀ ev ∈ d₂, ¬ Sched.isSchedOf "A" ev) ∧
         covers ≠ [] ∧ covers.Nodup ∧
         (∃ combos,
           Sched.rootCombos [[("a", "1")], [("a", "2")]] ["a"] [] =
             .ok combos ∧ ∀ c ∈ covers, c ∈ combos) ∧
         (∀ (k : Nat) (c : Sched.Comb), covers[k]? = some c →
           Sched.ledgerGet [("A",
             [([("a", "1")], { id := "r0_0", success := false }),
              ([("a", "2")], { id := "r0_1", success := false })])] "A" c =
             some { id := rid ++ "_" ++ Nat.repr k, success := false }) ∧
         (∀ k₁ k₂ : Nat, k₁ < covers.length → k₂ < covers.length →
           k₁ ≠ k₂ →
           rid ++ "_" ++ Nat.repr k₁ ≠ rid ++ "_" ++ Nat.repr k₂)) :=
  C2_array_consolidation (fun k => "r" ++ Nat.repr k)
    (fun _ => Sched.JobState.DONE) [[("a", "1")], [("a", "2")]] 6 "A" ["a"]
    [] [] false ⟨[], [], [], 0⟩ (["r0"], [])
    ⟨[("A", [([("a", "1")], { id := "r0_0", success := false }),
             ([("a", "2")], { id := "r0_1", success := false })])],
     [([], [([("a", "1")], "r0_0"), ([("a", "2")], "r0_1")])],
     [Sched.Event.sched "A" 2 [] "" "r0" [[("a", "1")], [("a", "2")]]],
     1⟩ (by simp [Sched.depsNames]) rfl

namespace Sched

/-- The event is not a schedule call of job `n` covering `c` (resolver
queries are allowed: the combination is not resubmitted, but it may
still be consulted). -/
def noResub (n : String) (c : Comb) : Event → Prop
  | .sched n₁ _ _ _ _ covers => ¬(n₁ = n ∧ c ∈ covers)
  | .query _ _ _ => True

theorem noResub_of_noTouch {n : String} {c : Comb} {ev : Event}
    (h : noTouch n c ev) : noResub n c ev := by
  cases ev with
  | query => trivial
  | sched => exact h

theorem noResub_of_evJob_ne {n : String} {c : Comb} {ev : Event}
    (h : evJob ev ≠ n) : noResub n c ev := by
  cases ev with
  | query => trivial
  | sched => exact fun hp => h hp.1

theorem noTouch_of_evJob_ne {n : String} {c : Comb} {ev : Event}
    (h : evJob ev ≠ n) : noTouch n c ev := by
  cases ev with
  | query => exact fun hp => h hp.1
  | sched => exact fun hp => h hp.1

/-- A classification step of a combination other than `(n, c)` emits no
event concerning `(n, c)`. -/
theorem classify_trace_noTouch (resolver : String → JobState)
    (n₁ : String) (c₀ : Comb) (p : List Nat) (st : St) (n : String)
    (c : Comb) (hnc : ¬(n₁ = n ∧ c₀ = c)) :
    ∃ d, (classify resolver n₁ c₀ p st).2.trace = d ++ st.trace ∧
      ∀ ev ∈ d, noTouch n c ev := by
  rcases classify_shape resolver n₁ c₀ p st with hq |
      ⟨e₁, -, -, -, ⟨-, hq⟩ | ⟨-, hq⟩⟩
  · rw [hq]
    exact ⟨[], rfl, by simp⟩
  · rw [hq]
    refine ⟨[Event.query n₁ c₀ e₁.id], rfl, ?_⟩
    intro ev hev
    rcases List.mem_singleton.mp hev with rfl
    exact hnc
  · rw [hq]
    refine ⟨[Event.query n₁ c₀ e₁.id], rfl, ?_⟩
    intro ev hev
    rcases List.mem_singleton.mp hev with rfl
    exact hnc

/-- A dependency loop never writes to its own instance path. -/
theorem deps_not_touch_self (ds : List (List String × JobSpec))
    (path : List Nat) (idx : Nat) (c₀ : Comb) (acc : List String) :
    ¬ touchesPath (.deps ds path idx c₀ acc) path := by
  rintro ⟨q, hq, hqne⟩
  apply hqne
  have hlen := congrArg List.length hq
  simp only [List.length_append] at hlen
  exact List.length_eq_zero.mp (by omega)

/-- A combination loop that never iterates `c` leaves job `n`'s ledger
entry for `c` and the instance's scheduled identifier for `c` unchanged,
and emits no event concerning `(n, c)` (given the job's name does not
recur among its dependencies). -/
theorem combs_comb_avoid (exec : Nat → String)
    (resolver : String → JobState) (possible : List Comb) (n : String)
    (c : Comb) :
    ∀ (fuel : Nat) (vars : List String) (arr : Bool)
      (deps : List (List String × JobSpec)) (path : List Nat)
      (force : Bool) (cs : List Comb) (runAcc : List String)
      (arrAcc : List (Comb × List String)) (st : St)
      (res : List String × List (Comb × List String)) (st' : St),
      run exec resolver possible fuel
        (.combs (.mk n vars arr deps) path force cs runAcc arrAcc) st =
        .ok (res, st') →
      n ∉ depsNames deps → c ∉ cs →
      ledgerGet st'.former n c = ledgerGet st.former n c ∧
      smGet st'.schedm path c = smGet st.schedm path c ∧
      ∃ d, st'.trace = d ++ st.trace ∧ ∀ ev ∈ d, noTouch n c ev := by
  intro fuel
  induction fuel with
  | zero =>
      intro vars arr deps path force cs runAcc arrAcc st res st' h
      simp [run] at h
  | succ fuel ih =>
      intro vars arr deps path force cs runAcc arrAcc st res st' h hn hcs
      cases cs with
      | nil =>
          obtain ⟨-, hst⟩ := run_combs_nil_inv h
          subst hst
          exact ⟨rfl, rfl, [], rfl, by simp⟩
      | cons c₀ rest =>
          have hc₀ : c₀ ≠ c := fun hc => hcs (hc ▸ List.mem_cons_self c₀ rest)
          have hrest' : c ∉ rest := fun hc => hcs (List.mem_cons_of_mem c₀ hc)
          have hnc : ¬(n = n ∧ c₀ = c) := fun hp => hc₀ hp.2
          obtain ⟨d₀, hd₀, hd₀c⟩ :=
            classify_trace_noTouch resolver n c₀ path st n c hnc
          have hlg₀ : ledgerGet (classify resolver n c₀ path st).2.former n c
              = ledgerGet st.former n c :=
            classify_ledger_frame resolver n n c₀ c path st hnc
          have hsm₀ : (classify resolver n c₀ path st).2.schedm = st.schedm :=
            classify_schedm resolver n c₀ path st
          rcases run_combs_cons_inv h with
            ⟨-, rd, hrd, ⟨-, hrest⟩ | ⟨-, hrest⟩⟩ | ⟨-, e, -, hrest⟩
          · obtain ⟨hlg₁, d₁, hd₁, hd₁c⟩ := run_name_frame exec resolver
              possible n fuel (.deps deps path 0 c₀ [])
              (classify resolver n c₀ path st).2 rd.1 rd.2 (by
                cases rd
                exact hrd) hn
            have hsm₁ := run_path_frame exec resolver possible path fuel
              (.deps deps path 0 c₀ []) (classify resolver n c₀ path st).2
              rd.1 rd.2 (by cases rd; exact hrd)
              (deps_not_touch_self deps path 0 c₀ []) c
            obtain ⟨hlg₂, hsm₂, d₂, hd₂, hd₂c⟩ :=
              ih vars arr deps path force rest runAcc
                (arrAcc ++ [(c₀, rd.1.1)]) rd.2 res st' hrest hn hrest'
            refine ⟨by rw [hlg₂, hlg₁ c, hlg₀],
              by rw [hsm₂, hsm₁, hsm₀], d₂ ++ (d₁ ++ d₀), ?_, ?_⟩
            · rw [hd₂, hd₁, hd₀]
              simp [List.append_assoc]
            · intro ev hev
              rcases List.mem_append.mp hev with hev | hev
              · exact hd₂c ev hev
              · rcases List.mem_append.mp hev with hev | hev
                · exact noTouch_of_evJob_ne (hd₁c ev hev)
                · exact hd₀c ev hev
          · obtain ⟨hlg₁, d₁, hd₁, hd₁c⟩ := run_name_frame exec resolver
              possible n fuel (.deps deps path 0 c₀ [])
              (classify resolver n c₀ path st).2 rd.1 rd.2 (by
                cases rd
                exact hrd) hn
            have hsm₁ := run_path_frame exec resolver possible path fuel
              (.deps deps path 0 c₀ []) (classify resolver n c₀ path st).2
              rd.1 rd.2 (by cases rd; exact hrd)
              (deps_not_touch_self deps path 0 c₀ []) c
            obtain ⟨hlg₂, hsm₂, d₂, hd₂, hd₂c⟩ :=
              ih vars arr deps path force rest
                (runAcc ++ [(commitRun exec n path c₀ rd.1.1 rd.2).1])
                arrAcc (commitRun exec n path c₀ rd.1.1 rd.2).2 res st'
                hrest hn hrest'
            refine ⟨?_, ?_, d₂ ++ ([Event.sched n 1 rd.1.1
                (depConstraint rd.1.1) (exec rd.2.counter) [c₀]] ++
                  (d₁ ++ d₀)), ?_, ?_⟩
            · rw [hlg₂, commitRun_ledger_frame exec n n path c₀ c rd.1.1
                rd.2 hnc, hlg₁ c, hlg₀]
            · rw [hsm₂, commitRun_schedm,
                smGet_smSet_frame _ path path c₀ c _ (fun hp => hc₀ hp.2),
                hsm₁, hsm₀]
            · rw [hd₂, commitRun_trace, hd₁, hd₀]
              simp [List.append_assoc]
            · intro ev hev
              rcases List.mem_append.mp hev with hev | hev
              · exact hd₂c ev hev
              · rcases List.mem_append.mp hev with hev | hev
                · rcases List.mem_singleton.mp hev with rfl
                  rintro ⟨-, hcmem⟩
                  exact hc₀ (List.mem_singleton.mp hcmem).symm
                · rcases List.mem_append.mp hev with hev | hev
                  · exact noTouch_of_evJob_ne (hd₁c ev hev)
                  · exact hd₀c ev hev
          · obtain ⟨hlg₂, hsm₂, d₂, hd₂, hd₂c⟩ :=
              ih vars arr deps path force rest (runAcc ++ [e.id]) arrAcc
                (classify resolver n c₀ path st).2 res st' hrest hn hrest'
            refine ⟨by rw [hlg₂, hlg₀], by rw [hsm₂, hsm₀],
              d₂ ++ d₀, ?_, ?_⟩
            · rw [hd₂, hd₀]
              simp [List.append_assoc]
            · intro ev hev
              rcases List.mem_append.mp hev with hev | hev
              · exact hd₂c ev hev
              · exact hd₀c ev hev

end Sched

namespace Sched

theorem commitRun_fst (exec : Nat → String) (n : String) (path : List Nat)
    (c : Comb) (ids : List String) (st : St) :
    (commitRun exec n path c ids st).1 = exec st.counter := rfl

/-- One iteration of a non-array combination loop over a head other than
`c`: the loop continues on the tail from a state whose `(n, c)` ledger
entry and scheduled identifier are unchanged, with only events not
concerning `(n, c)` emitted. -/
theorem combs_step_facts (exec : Nat → String)
    (resolver : String → JobState) (possible : List Comb) (n : String)
    (c : Comb) (fuel : Nat) (vars : List String)
    (deps : List (List String × JobSpec)) (path : List Nat) (force : Bool)
    (c₀ : Comb) (rest : List Comb) (runAcc : List String)
    (arrAcc : List (Comb × List String)) (st : St)
    (res : List String × List (Comb × List String)) (st' : St)
    (h : run exec resolver possible (fuel + 1)
      (.combs (.mk n vars false deps) path force (c₀ :: rest) runAcc
        arrAcc) st = .ok (res, st'))
    (hn : n ∉ depsNames deps) (hc₀ : c₀ ≠ c) :
    ∃ (runAcc₂ : List String) (st₂ : St) (dh : List Event),
      run exec resolver possible fuel
        (.combs (.mk n vars false deps) path force rest runAcc₂ arrAcc)
        st₂ = .ok (res, st') ∧
      st₂.trace = dh ++ st.trace ∧ (∀ ev ∈ dh, noTouch n c ev) ∧
      ledgerGet st₂.former n c = ledgerGet st.former n c ∧
      smGet st₂.schedm path c = smGet st.schedm path c := by
  have hnc : ¬(n = n ∧ c₀ = c) := fun hp => hc₀ hp.2
  obtain ⟨d₀, hd₀, hd₀c⟩ :=
    classify_trace_noTouch resolver n c₀ path st n c hnc
  have hlg₀ := classify_ledger_frame resolver n n c₀ c path st hnc
  have hsm₀ := classify_schedm resolver n c₀ path st
  rcases run_combs_cons_inv h with
    ⟨-, rd, hrd, ⟨habs, -⟩ | ⟨-, hrest⟩⟩ | ⟨-, e₀, -, hrest⟩
  · cases habs
  · obtain ⟨hlg₁, d₁, hd₁, hd₁c⟩ := run_name_frame exec resolver
      possible n fuel (.deps deps path 0 c₀ [])
      (classify resolver n c₀ path st).2 rd.1 rd.2 (by
        cases rd
        exact hrd) hn
    have hsm₁ := run_path_frame exec resolver possible path fuel
      (.deps deps path 0 c₀ []) (classify resolver n c₀ path st).2
      rd.1 rd.2 (by cases rd; exact hrd)
      (deps_not_touch_self deps path 0 c₀ []) c
    refine ⟨runAcc ++ [(commitRun exec n path c₀ rd.1.1 rd.2).1],
      (commitRun exec n path c₀ rd.1.1 rd.2).2,
      Event.sched n 1 rd.1.1 (depConstraint rd.1.1) (exec rd.2.counter)
          [c₀] :: (d₁ ++ d₀), hrest, ?_, ?_, ?_, ?_⟩
    · rw [commitRun_trace, hd₁, hd₀]
      simp
    · intro ev hev
      rcases List.mem_cons.mp hev with rfl | hev
      · rintro ⟨-, hcmem⟩
        exact hc₀ (List.mem_singleton.mp hcmem).symm
      · rcases List.mem_append.mp hev with hev | hev
        · exact noTouch_of_evJob_ne (hd₁c ev hev)
        · exact hd₀c ev hev
    · rw [commitRun_ledger_frame exec n n path c₀ c rd.1.1 rd.2 hnc,
        hlg₁ c, hlg₀]
    · rw [commitRun_schedm,
        smGet_smSet_frame _ path path c₀ c _ (fun hp => hc₀ hp.2),
        hsm₁, hsm₀]
  · exact ⟨runAcc ++ [e₀.id], (classify resolver n c₀ path st).2, d₀,
      hrest, hd₀, hd₀c, hlg₀, by rw [hsm₀]⟩

end Sched

namespace Sched

/-- The per-combination eligibility decision for a combination `c` whose
ledger entry is not successful and which is not in the invocation's
scheduled map: a FAILED resolver answer leads to a resubmission (a fresh
schedule call covering exactly `c`, whose identifier replaces the ledger
entry); a WAITING or RUNNING answer leaves the entry as it is and reuses
the stored identifier; a DONE answer flips the entry's success flag and
reuses the stored identifier; in the last two cases no schedule call of
the job ever covers `c`. -/
theorem combs_entry_cases (exec : Nat → String)
    (resolver : String → JobState) (possible : List Comb) (n : String)
    (c : Comb) (e : Entry) (hsucc : e.success = false) :
    ∀ (fuel : Nat) (vars : List String)
      (deps : List (List String × JobSpec)) (path : List Nat)
      (cs : List Comb) (runAcc : List String)
      (arrAcc : List (Comb × List String)) (st : St)
      (res : List String × List (Comb × List String)) (st' : St),
      run exec resolver possible fuel
        (.combs (.mk n vars false deps) path false cs runAcc arrAcc) st =
        .ok (res, st') →
      n ∉ depsNames deps → c ∈ cs → cs.Nodup →
      ledgerGet st.former n c = some e →
      smGet st.schedm path c = none →
      (resolver e.id = JobState.FAILED →
        ∃ d, st'.trace = d ++ st.trace ∧
          ∃ rid ids,
            Event.sched n 1 ids (depConstraint ids) rid [c] ∈ d ∧
            ledgerGet st'.former n c =
              some { id := rid, success := false } ∧
            rid ∈ res.1) ∧
      ((resolver e.id = JobState.WAITING ∨
          resolver e.id = JobState.RUNNING) →
        (∃ d, st'.trace = d ++ st.trace ∧ ∀ ev ∈ d, noResub n c ev) ∧
        ledgerGet st'.former n c = some e ∧ e.id ∈ res.1) ∧
      (resolver e.id = JobState.DONE →
        (∃ d, st'.trace = d ++ st.trace ∧ ∀ ev ∈ d, noResub n c ev) ∧
        ledgerGet st'.former n c =
          some { id := e.id, success := true } ∧
        e.id ∈ res.1) := by
  intro fuel
  induction fuel with
  | zero =>
      intro vars deps path cs runAcc arrAcc st res st' h
      simp [run] at h
  | succ fuel ih =>
      intro vars deps path cs runAcc arrAcc st res st' h hn hmem hnodup
        hent hsm
      cases cs with
      | nil => cases hmem
      | cons c₀ rest =>
          by_cases hc : c₀ = c
          · subst hc
            have hcrest : c₀ ∉ rest := (List.nodup_cons.mp hnodup).1
            refine ⟨?_, ?_, ?_⟩
            · -- FAILED: resubmission
              intro hr
              have hrne : resolver e.id ≠ JobState.DONE := by simp [hr]
              have hclq := classify_query_notdone hent hsucc hsm hrne
              rcases run_combs_cons_inv h with
                ⟨-, rd, hrd, ⟨habs, -⟩ | ⟨-, hrest⟩⟩ |
                ⟨helig, e₀, -, -⟩
              · cases habs
              · rw [hclq] at hrd
                obtain ⟨hlg₁, d₁, hd₁, hd₁c⟩ := run_name_frame exec
                  resolver possible n fuel (.deps deps path 0 c₀ [])
                  { st with trace := Event.query n c₀ e.id :: st.trace }
                  rd.1 rd.2 (by cases rd; exact hrd) hn
                obtain ⟨hlg₂, hsm₂, d₂, hd₂, hd₂c⟩ :=
                  combs_comb_avoid exec resolver possible n c₀ fuel vars
                    false deps path false rest
                    (runAcc ++ [(commitRun exec n path c₀ rd.1.1 rd.2).1])
                    arrAcc (commitRun exec n path c₀ rd.1.1 rd.2).2 res
                    st' hrest hn hcrest
                obtain ⟨ext, hext⟩ := run_combs_ext exec resolver possible
                  fuel _ _ _ _ _ _ _ _ _ hrest
                refine ⟨d₂ ++ (Event.sched n 1 rd.1.1
                    (depConstraint rd.1.1) (exec rd.2.counter) [c₀] ::
                    (d₁ ++ [Event.query n c₀ e.id])), ?_,
                  exec rd.2.counter, rd.1.1, by simp, ?_, ?_⟩
                · rw [hd₂, commitRun_trace, hd₁]
                  simp
                · rw [hlg₂, commitRun_former]
                  exact ledgerGet_ledgerSet_self _ n c₀ _
                · rw [hext, commitRun_fst]
                  simp
              · exfalso
                rw [hclq] at helig
                rw [hr] at helig
                simp at helig
            · -- WAITING or RUNNING: identifier reused
              intro hr
              have hrne : resolver e.id ≠ JobState.DONE := by
                rcases hr with hr | hr <;> simp [hr]
              have hclq := classify_query_notdone hent hsucc hsm hrne
              rcases run_combs_cons_inv h with
                ⟨helig, rd, -, -⟩ | ⟨-, e₀, hglg, hrest⟩
              · exfalso
                rw [hclq] at helig
                rcases hr with hr | hr <;> rw [hr] at helig <;>
                  simp [hent] at helig
              · rw [hclq] at hglg hrest
                have hglg₂ : ledgerGet st.former n c₀ = some e₀ := hglg
                rw [hent] at hglg₂
                cases hglg₂
                obtain ⟨hlg₂, hsm₂, d₂, hd₂, hd₂c⟩ :=
                  combs_comb_avoid exec resolver possible n c₀ fuel vars
                    false deps path false rest (runAcc ++ [e.id]) arrAcc
                    { st with trace := Event.query n c₀ e.id :: st.trace }
                    res st' hrest hn hcrest
                obtain ⟨ext, hext⟩ := run_combs_ext exec resolver possible
                  fuel _ _ _ _ _ _ _ _ _ hrest
                refine ⟨⟨d₂ ++ [Event.query n c₀ e.id], ?_, ?_⟩, ?_, ?_⟩
                · rw [hd₂]
                  simp
                · intro ev hev
                  rcases List.mem_append.mp hev with hev | hev
                  · exact noResub_of_noTouch (hd₂c ev hev)
                  · rcases List.mem_singleton.mp hev with rfl
                    trivial
                · rw [hlg₂]
                  exact hent
                · rw [hext]
                  simp
            · -- DONE: success flag flipped, identifier reused
              intro hr
              have hclq := classify_query_done hent hsucc hsm hr
              rcases run_combs_cons_inv h with
                ⟨helig, rd, -, -⟩ | ⟨-, e₀, hglg, hrest⟩
              · exfalso
                rw [hclq] at helig
                simp [hent] at helig
              · rw [hclq] at hglg hrest
                have hglg₂ : ledgerGet (ledgerSet st.former n c₀
                    { id := e.id, success := true }) n c₀ = some e₀ := hglg
                rw [ledgerGet_ledgerSet_self] at hglg₂
                cases hglg₂
                obtain ⟨hlg₂, hsm₂, d₂, hd₂, hd₂c⟩ :=
                  combs_comb_avoid exec resolver possible n c₀ fuel vars
                    false deps path false rest (runAcc ++ [e.id]) arrAcc
                    { st with
                        trace := Event.query n c₀ e.id :: st.trace,
                        former := ledgerSet st.former n c₀
                          { id := e.id, success := true } }
                    res st' hrest hn hcrest
                obtain ⟨ext, hext⟩ := run_combs_ext exec resolver possible
                  fuel _ _ _ _ _ _ _ _ _ hrest
                refine ⟨⟨d₂ ++ [Event.query n c₀ e.id], ?_, ?_⟩, ?_, ?_⟩
                · rw [hd₂]
                  simp
                · intro ev hev
                  rcases List.mem_append.mp hev with hev | hev
                  · exact noResub_of_noTouch (hd₂c ev hev)
                  · rcases List.mem_singleton.mp hev with rfl
                    trivial
                · rw [hlg₂]
                  exact ledgerGet_ledgerSet_self _ n c₀ _
                · rw [hext]
                  simp
          · -- head combination differs from c
            have hmem₁ : c ∈ rest := by
              rcases List.mem_cons.mp hmem with h₁ | h₁
              · exact absurd h₁.symm hc
              · exact h₁
            obtain ⟨runAcc₂, st₂, dh, hrest, hdh, hdhc, hlg, hsmf⟩ :=
              combs_step_facts exec resolver possible n c fuel vars deps
                path false c₀ rest runAcc arrAcc st res st' h hn hc
            obtain ⟨ihF, ihW, ihD⟩ := ih vars deps path rest runAcc₂
              arrAcc st₂ res st' hrest hn hmem₁
              (List.nodup_cons.mp hnodup).2 (by rw [hlg]; exact hent)
              (by rw [hsmf]; exact hsm)
            refine ⟨?_, ?_, ?_⟩
            · intro hr
              obtain ⟨d, hd, rid, ids, hevmem, hledger, hrid⟩ := ihF hr
              exact ⟨d ++ dh, by rw [hd, hdh]; simp, rid, ids,
                List.mem_append_left dh hevmem, hledger, hrid⟩
            · intro hr
              obtain ⟨⟨d, hd, hdc⟩, hledger, hid⟩ := ihW hr
              refine ⟨⟨d ++ dh, by rw [hd, hdh]; simp, ?_⟩, hledger, hid⟩
              intro ev hev
              rcases List.mem_append.mp hev with hev | hev
              · exact hdc ev hev
              · exact noResub_of_noTouch (hdhc ev hev)
            · intro hr
              obtain ⟨⟨d, hd, hdc⟩, hledger, hid⟩ := ihD hr
              refine ⟨⟨d ++ dh, by rw [hd, hdh]; simp, ?_⟩, hledger, hid⟩
              intro ev hev
              rcases List.mem_append.mp hev with hev | hev
              · exact hdc ev hev
              · exact noResub_of_noTouch (hdhc ev hev)

end Sched

/-! ### Claim C3 — failed-run reschedule eligibility -/

/-- C3 (Failed-run reschedule eligibility): in a `schedule_tree`
invocation without `forcestart` of a non-array job whose name does not
recur among its dependencies, consider a combination of the pass whose
ledger entry has success `false` and which is not in the invocation's
scheduled map.  If the resolver classifies its stored run as FAILED, the
combination is resubmitted: a schedule call covering exactly it is made
and its fresh identifier replaces the ledger entry (success `false`).
If the resolver answers WAITING or RUNNING, no schedule call of the job
ever covers the combination, the ledger entry is unchanged, and the
stored identifier is reused among the returned run ids.  If DONE, no
schedule call covers it either, the entry's success flag is set to true,
and the stored identifier is reused. -/
theorem C3_failed_run_reschedule (exec : Nat → String)
    (resolver : String → Sched.JobState) (possible : List Sched.Comb)
    (fuel : Nat) (n : String) (vars : List String)
    (deps : List (List String × Sched.JobSpec)) (current : Sched.Comb)
    (st : Sched.St)
    (res : List String × List (Sched.Comb × List String)) (st' : Sched.St)
    (c : Sched.Comb) (e : Sched.Entry) (combos : List Sched.Comb)
    (hn : n ∉ Sched.depsNames deps)
    (hrun : Sched.scheduleTree exec resolver possible fuel
      (.mk n vars false deps) current false st = .ok (res, st'))
    (hcombos : Sched.rootCombos possible vars current = .ok combos)
    (hc : c ∈ combos)
    (hent : Sched.ledgerGet st.former n c = some e)
    (hsucc : e.success = false)
    (hsm : Sched.smGet st.schedm [] c = none) :
    (resolver e.id = Sched.JobState.FAILED →
      ∃ d, st'.trace = d ++ st.trace ∧
        ∃ rid ids,
          Sched.Event.sched n 1 ids (Sched.depConstraint ids) rid [c] ∈ d ∧
          Sched.ledgerGet st'.former n c =
            some { id := rid, success := false } ∧
          rid ∈ res.1) ∧
    ((resolver e.id = Sched.JobState.WAITING ∨
        resolver e.id = Sched.JobState.RUNNING) →
      (∃ d, st'.trace = d ++ st.trace ∧ ∀ ev ∈ d, Sched.noResub n c ev) ∧
      Sched.ledgerGet st'.former n c = some e ∧ e.id ∈ res.1) ∧
    (resolver e.id = Sched.JobState.DONE →
      (∃ d, st'.trace = d ++ st.trace ∧ ∀ ev ∈ d, Sched.noResub n c ev) ∧
      Sched.ledgerGet st'.former n c =
        some { id := e.id, success := true } ∧
      e.id ∈ res.1) := by
  cases fuel with
  | zero => simp [Sched.scheduleTree, Sched.run] at hrun
  | succ f =>
      have hrun' : Sched.run exec resolver possible (f + 1)
          (.tree (.mk n vars false deps) [] current false) st =
            .ok (res, st') := hrun
      obtain ⟨combos₀, r1, hcs, hr1, hfin⟩ := Sched.run_tree_inv hrun'
      have hco : combos₀ = combos := by
        rw [hcombos] at hcs
        cases hcs
        rfl
      subst hco
      rcases hfin with ⟨harr, -, -⟩ | ⟨-, hres, hst⟩
      · simp at harr
      · subst hst
        subst hres
        exact Sched.combs_entry_cases exec resolver possible n c e hsucc
          f vars deps [] combos₀ [] [] st r1.1 r1.2
          (by cases r1; exact hr1) hn hc
          (Sched.rootCombos_nodup possible vars current combos₀ hcombos)
          hent hsm

/-- Concrete witness for C3: job `P` with a ledger entry `old` of
success `false` whose run resolves to FAILED is resubmitted under the
fresh identifier `r0`. -/
theorem C3_failed_run_reschedule_witness :
    (Sched.JobState.FAILED = Sched.JobState.FAILED →
      ∃ d, [Sched.Event.sched "P" 1 [] "" "r0" [[]],
          Sched.Event.query "P" [] "old"] = d ++ ([] : List Sched.Event) ∧
        ∃ rid ids,
          Sched.Event.sched "P" 1 ids (Sched.depConstraint ids) rid
            [[]] ∈ d ∧
          Sched.ledgerGet
            [("P", [(([] : Sched.Comb),
              { id := "r0", success := false : Sched.Entry })])] "P" [] =
            some { id := rid, success := false } ∧
          rid ∈ (["r0"] : List String)) ∧
    ((Sched.JobState.FAILED = Sched.JobState.WAITING ∨
        Sched.JobState.FAILED = Sched.JobState.RUNNING) →
      (∃ d, [Sched.Event.sched "P" 1 [] "" "r0" [[]],
          Sched.Event.query "P" [] "old"] = d ++ ([] : List Sched.Event) ∧
        ∀ ev ∈ d, Sched.noResub "P" [] ev) ∧
      Sched.ledgerGet
        [("P", [(([] : Sched.Comb),
          { id := "r0", success := false : Sched.Entry })])] "P" [] =
        some { id := "old", success := false } ∧
      "old" ∈ (["r0"] : List String)) ∧
    (Sched.JobState.FAILED = Sched.JobState.DONE →
      (∃ d, [Sched.Event.sched "P" 1 [] "" "r0" [[]],
          Sched.Event.query "P" [] "old"] = d ++ ([] : List Sched.Event) ∧
        ∀ ev ∈ d, Sched.noResub "P" [] ev) ∧
      Sched.ledgerGet
        [("P", [(([] : Sched.Comb),
          { id := "r0", success := false : Sched.Entry })])] "P" [] =
        some { id := "old", success := true } ∧
      "old" ∈ (["r0"] : List String)) :=
  C3_failed_run_reschedule (fun k => "r" ++ Nat.repr k)
    (fun _ => Sched.JobState.FAILED) [[]] 5 "P" [] [] []
    ⟨[("P", [([], { id := "old", success := false })])], [], [], 0⟩
    (["r0"], [])
    ⟨[("P", [([], { id := "r0", success := false })])],
     [([], [([], "r0")])],
     [Sched.Event.sched "P" 1 [] "" "r0" [[]],
      Sched.Event.query "P" [] "old"], 1⟩
    [] { id := "old", success := false } [[]]
    (by simp [Sched.depsNames]) rfl rfl (by simp) rfl rfl rfl

namespace Sched

/-- The job instance reached from a job by following a path of
dependency indices. -/
def subtreeAt : List Nat → JobSpec → Option JobSpec
  | [], j => some j
  | i :: rest, j =>
      match (JobSpec.deps j)[i]? with
      | some pr => subtreeAt rest pr.2
      | none => none

/-- The name of the job instance at a path of the tree. -/
def pathName (root : JobSpec) (p : List Nat) : Option String :=
  (subtreeAt p root).map JobSpec.name

/-- The scheduled-map/ledger pairing: every combination in the scheduled
map of an instance path has a ledger entry under the instance's job name
holding the same identifier with success `false`. -/
def Inv (root : JobSpec) (st : St) : Prop :=
  ∀ (p : List Nat) (n : String) (c : Comb) (id : String),
    pathName root p = some n → smGet st.schedm p c = some id →
    ledgerGet st.former n c = some { id := id, success := false }

theorem jobNames_sub_depsNames :
    ∀ (ds : List (List String × JobSpec)) (pr : List String × JobSpec),
      pr ∈ ds → ∀ x, x ∈ jobNames pr.2 → x ∈ depsNames ds := by
  intro ds
  induction ds with
  | nil => intro pr hpr; cases hpr
  | cons hd tl ih =>
      intro pr hpr x hx
      obtain ⟨fe, d⟩ := hd
      rcases List.mem_cons.mp hpr with rfl | hpr
      · exact List.mem_append_left _ hx
      · exact List.mem_append_right _ (ih pr hpr x hx)

theorem jobNames_sublist_depsNames :
    ∀ (ds : List (List String × JobSpec)) (pr : List String × JobSpec),
      pr ∈ ds → List.Sublist (jobNames pr.2) (depsNames ds) := by
  intro ds
  induction ds with
  | nil => intro pr hpr; cases hpr
  | cons hd tl ih =>
      intro pr hpr
      obtain ⟨fe, d⟩ := hd
      rcases List.mem_cons.mp hpr with rfl | hpr
      · exact List.sublist_append_left _ _
      · exact (ih pr hpr).trans (List.sublist_append_right _ _)

theorem subtreeAt_name_mem :
    ∀ (p : List Nat) (j₀ j : JobSpec),
      subtreeAt p j₀ = some j → JobSpec.name j ∈ jobNames j₀ := by
  intro p
  induction p with
  | nil =>
      intro j₀ j h
      cases h
      cases j₀ with
      | mk n vars arr ds => exact List.mem_cons_self n (depsNames ds)
  | cons i rest ih =>
      intro j₀ j h
      cases j₀ with
      | mk n vars arr ds =>
          simp only [subtreeAt, JobSpec.deps] at h
          split at h
          · rename_i pr hds
            exact List.mem_cons_of_mem n
              (jobNames_sub_depsNames ds pr (List.getElem?_mem hds) _
                (ih pr.2 j h))
          · cases h

theorem depsNames_index_disjoint :
    ∀ (ds : List (List String × JobSpec)), (depsNames ds).Nodup →
      ∀ (i k : Nat) (pr pk : List String × JobSpec), i ≠ k →
        ds[i]? = some pr → ds[k]? = some pk →
        ∀ x, x ∈ jobNames pr.2 → x ∉ jobNames pk.2 := by
  intro ds
  induction ds with
  | nil => intro _ i k pr pk _ h; simp at h
  | cons hd tl ih =>
      intro hnd i k pr pk hne hi hk x hx hx'
      obtain ⟨fe, d⟩ := hd
      have hnd' : (jobNames d ++ depsNames tl).Nodup := hnd
      rw [List.nodup_append] at hnd'
      cases i with
      | zero =>
          cases k with
          | zero => exact hne rfl
          | succ k' =>
              simp only [List.getElem?_cons_zero, Option.some.injEq] at hi
              simp only [List.getElem?_cons_succ] at hk
              subst hi
              exact hnd'.2.2 hx
                (jobNames_sub_depsNames tl pk (List.getElem?_mem hk) x hx')
      | succ i' =>
          cases k with
          | zero =>
              simp only [List.getElem?_cons_zero, Option.some.injEq] at hk
              simp only [List.getElem?_cons_succ] at hi
              subst hk
              exact hnd'.2.2 hx'
                (jobNames_sub_depsNames tl pr (List.getElem?_mem hi) x hx)
          | succ k' =>
              simp only [List.getElem?_cons_succ] at hi hk
              exact ih hnd'.2.1 i' k' pr pk (by omega) hi hk x hx hx'

theorem subtreeAt_unique :
    ∀ (p q : List Nat) (j₀ j j' : JobSpec),
      (jobNames j₀).Nodup → subtreeAt p j₀ = some j →
      subtreeAt q j₀ = some j' → JobSpec.name j = JobSpec.name j' →
      p = q := by
  intro p
  induction p with
  | nil =>
      intro q j₀ j j' hnd hp hq hname
      cases hp
      cases q with
      | nil => rfl
      | cons i rest =>
          exfalso
          cases j₀ with
          | mk n vars arr ds =>
              simp only [subtreeAt, JobSpec.deps] at hq
              split at hq
              · rename_i pr hds
                have hmem : JobSpec.name j' ∈ depsNames ds :=
                  jobNames_sub_depsNames ds pr (List.getElem?_mem hds) _
                    (subtreeAt_name_mem rest pr.2 j' hq)
                have hn : n = JobSpec.name j' := hname
                rw [← hn] at hmem
                exact (List.nodup_cons.mp hnd).1 hmem
              · cases hq
  | cons i rp ih =>
      intro q j₀ j j' hnd hp hq hname
      cases j₀ with
      | mk n vars arr ds =>
          simp only [subtreeAt, JobSpec.deps] at hp
          split at hp
          · rename_i pr hds
            cases q with
            | nil =>
                exfalso
                cases hq
                have hmem : JobSpec.name j ∈ depsNames ds :=
                  jobNames_sub_depsNames ds pr (List.getElem?_mem hds) _
                    (subtreeAt_name_mem rp pr.2 j hp)
                have hn : JobSpec.name j = n := hname
                rw [hn] at hmem
                exact (List.nodup_cons.mp hnd).1 hmem
            | cons k rq =>
                simp only [subtreeAt, JobSpec.deps] at hq
                split at hq
                · rename_i pk hdk
                  have hik : i = k := by
                    by_contra hne
                    exact depsNames_index_disjoint ds
                      (List.nodup_cons.mp hnd).2 i k pr pk hne hds hdk
                      (JobSpec.name j)
                      (subtreeAt_name_mem rp pr.2 j hp)
                      (hname ▸ subtreeAt_name_mem rq pk.2 j' hq)
                  subst hik
                  rw [hds] at hdk
                  cases hdk
                  have hrest : rp = rq := by
                    refine ih rq pr.2 j j' ?_ hp hq hname
                    exact List.Nodup.sublist
                      (jobNames_sublist_depsNames ds pr
                        (List.getElem?_mem hds))
                      (List.nodup_cons.mp hnd).2
                  rw [hrest]
                · cases hq
          · cases hp

end Sched

namespace Sched

/-- With duplicate-free job names, a name determines its instance path. -/
theorem pathName_unique (root : JobSpec) (hnd : (jobNames root).Nodup)
    {p q : List Nat} {n : String} (hp : pathName root p = some n)
    (hq : pathName root q = some n) : p = q := by
  rw [pathName, Option.map_eq_some'] at hp hq
  obtain ⟨j, hpj, hpn⟩ := hp
  obtain ⟨j', hqj, hqn⟩ := hq
  exact subtreeAt_unique p q root j j' hnd hpj hqj (by rw [hpn, hqn])

theorem Inv_congr (root : JobSpec) {st st₂ : St}
    (hf : st₂.former = st.former) (hs : st₂.schedm = st.schedm)
    (h : Inv root st) : Inv root st₂ := by
  intro p n c id hpn hsm
  rw [hf]
  rw [hs] at hsm
  exact h p n c id hpn hsm

/-- A paired write — a ledger entry with success `false` together with
the scheduled-map record of the same identifier at the instance's own
path — preserves the pairing invariant. -/
theorem Inv_write (root : JobSpec) (n : String) (path : List Nat)
    (hpn₀ : pathName root path = some n)
    (huq : ∀ q, pathName root q = some n → q = path)
    (st : St) (hinv : Inv root st) (c₀ : Comb) (rid : String) (st₂ : St)
    (hf : st₂.former =
      ledgerSet st.former n c₀ { id := rid, success := false })
    (hs : st₂.schedm = smSet st.schedm path c₀ rid) :
    Inv root st₂ := by
  intro p n' c id hpn hsm
  rw [hs] at hsm
  rw [hf]
  by_cases hpc : path = p ∧ c₀ = c
  · obtain ⟨hp, hc⟩ := hpc
    subst hp
    subst hc
    rw [smGet_smSet_self] at hsm
    cases hsm
    have hn : n' = n := by
      rw [hpn₀] at hpn
      cases hpn
      rfl
    subst hn
    exact ledgerGet_ledgerSet_self _ n' c₀ _
  · rw [smGet_smSet_frame _ path p c₀ c _ hpc] at hsm
    have hframe : ¬(n = n' ∧ c₀ = c) := by
      rintro ⟨hn, hc⟩
      subst hn
      exact hpc ⟨(huq p hpn).symm, hc⟩
    rw [ledgerGet_ledgerSet_frame _ n n' c₀ c _ hframe]
    exact hinv p n' c id hpn hsm

/-- A classification step preserves the pairing invariant: the success
flag is flipped only when the combination is absent from the instance's
scheduled map. -/
theorem Inv_classify (root : JobSpec) (n : String) (path : List Nat)
    (huq : ∀ q, pathName root q = some n → q = path)
    (resolver : String → JobState) (c₀ : Comb) (st : St)
    (hinv : Inv root st) :
    Inv root (classify resolver n c₀ path st).2 := by
  rcases classify_shape resolver n c₀ path st with hq |
      ⟨e, -, -, hsmn, ⟨-, hq⟩ | ⟨-, hq⟩⟩
  · rw [hq]
    exact hinv
  · rw [hq]
    intro p n' c id hpn hsm
    have hsm' : smGet st.schedm p c = some id := hsm
    have hent := hinv p n' c id hpn hsm'
    have hframe : ¬(n = n' ∧ c₀ = c) := by
      rintro ⟨hn, hc⟩
      subst hn
      subst hc
      rw [huq p hpn] at hsm'
      rw [hsmn] at hsm'
      cases hsm'
    rw [ledgerGet_ledgerSet_frame _ n n' c₀ c _ hframe]
    exact hent
  · rw [hq]
    intro p n' c id hpn hsm
    exact hinv p n' c id hpn hsm

theorem Inv_writeArray (root : JobSpec) (n : String) (path : List Nat)
    (hpn₀ : pathName root path = some n)
    (huq : ∀ q, pathName root q = some n → q = path) (rid : String) :
    ∀ (acc : List (Comb × List String)) (i : Nat) (st : St),
      Inv root st → Inv root (writeArray n path rid i acc st) := by
  intro acc
  induction acc with
  | nil => intro i st h; exact h
  | cons pr rest ih =>
      intro i st h
      simp only [writeArray]
      exact ih (i + 1) _ (Inv_write root n path hpn₀ huq st h pr.1
        (rid ++ "_" ++ Nat.repr i) _ rfl rfl)

theorem Inv_commitRun (root : JobSpec) (n : String) (path : List Nat)
    (hpn₀ : pathName root path = some n)
    (huq : ∀ q, pathName root q = some n → q = path)
    (exec : Nat → String) (c₀ : Comb) (ids : List String) (st : St)
    (hinv : Inv root st) :
    Inv root (commitRun exec n path c₀ ids st).2 :=
  Inv_write root n path hpn₀ huq st hinv c₀ (exec st.counter) _ rfl rfl

theorem Inv_commitArray (root : JobSpec) (n : String) (path : List Nat)
    (hpn₀ : pathName root path = some n)
    (huq : ∀ q, pathName root q = some n → q = path)
    (exec : Nat → String) (acc : List (Comb × List String)) (st : St)
    (hinv : Inv root st) :
    Inv root (commitArray exec n path acc st).2 := by
  simp only [commitArray]
  exact Inv_writeArray root n path hpn₀ huq _ acc 0 _
    (Inv_congr root rfl rfl hinv)

end Sched

namespace Sched

theorem subtreeAt_append :
    ∀ (p q : List Nat) (j₀ : JobSpec),
      subtreeAt (p ++ q) j₀ = (subtreeAt p j₀).bind (subtreeAt q) := by
  intro p
  induction p with
  | nil => intro q j₀; rfl
  | cons i rest ih =>
      intro q j₀
      simp only [List.cons_append, subtreeAt]
      cases hds : (JobSpec.deps j₀)[i]? with
      | none => rfl
      | some pr => exact ih q pr.2

/-- The task's job instance sits at its path in the root tree (for a
dependency loop: the remaining dependency list is the instance's
dependency list from the current index on). -/
def taskAt (root : JobSpec) : Task → Prop
  | .tree j path _ _ => subtreeAt path root = some j
  | .combs j path _ _ _ _ => subtreeAt path root = some j
  | .deps ds path idx _ _ => ∃ j₀, subtreeAt path root = some j₀ ∧
      ∀ (k : Nat) (pr : List String × JobSpec), ds[k]? = some pr →
        (JobSpec.deps j₀)[idx + k]? = some pr


/-- The tree walk preserves the scheduled-map/ledger pairing invariant
when no job name recurs in the tree. -/
theorem run_preserves_inv (exec : Nat → String)
    (resolver : String → JobState) (possible : List Comb)
    (root : JobSpec) (hnd : (jobNames root).Nodup) :
    ∀ (fuel : Nat) (t : Task) (st : St)
      (res : List String × List (Comb × List String)) (st' : St),
      run exec resolver possible fuel t st = .ok (res, st') →
      taskAt root t → Inv root st → Inv root st' := by
  intro fuel
  induction fuel with
  | zero =>
      intro t st res st' h
      simp [run] at h
  | succ fuel ih =>
      intro t st res st' h hat hinv
      cases t with
      | tree j path current force =>
          cases j with
          | mk n vars arr deps =>
              obtain ⟨combos, r1, hcs, hr1, hfin⟩ := run_tree_inv h
              have hinv₁ : Inv root r1.2 :=
                ih (.combs (.mk n vars arr deps) path force combos [] [])
                  st r1.1 r1.2 (by cases r1; exact hr1) hat hinv
              have hpn₀ : pathName root path = some n := by
                rw [pathName, hat]
                rfl
              rcases hfin with ⟨-, -, hst⟩ | ⟨-, -, hst⟩
              · subst hst
                exact Inv_commitArray root n path hpn₀
                  (fun q hq => pathName_unique root hnd hq hpn₀) exec
                  r1.1.2 r1.2 hinv₁
              · subst hst
                exact hinv₁
      | combs j path force cs runAcc arrAcc =>
          cases j with
          | mk n vars arr deps =>
              cases cs with
              | nil =>
                  obtain ⟨-, hst⟩ := run_combs_nil_inv h
                  subst hst
                  exact hinv
              | cons c₀ rest =>
                  have hpn₀ : pathName root path = some n := by
                    rw [pathName, hat]
                    rfl
                  have huq : ∀ q, pathName root q = some n → q = path :=
                    fun q hq => pathName_unique root hnd hq hpn₀
                  have hinv₁ : Inv root (classify resolver n c₀ path st).2 :=
                    Inv_classify root n path huq resolver c₀ st hinv
                  have hdat : taskAt root (.deps deps path 0 c₀ []) := by
                    refine ⟨.mk n vars arr deps, hat, ?_⟩
                    intro k pr hk
                    rw [Nat.zero_add]
                    exact hk
                  rcases run_combs_cons_inv h with
                    ⟨-, rd, hrd, ⟨-, hrest⟩ | ⟨-, hrest⟩⟩ |
                    ⟨-, e₀, -, hrest⟩
                  · have hinv₂ : Inv root rd.2 :=
                      ih (.deps deps path 0 c₀ [])
                        (classify resolver n c₀ path st).2 rd.1 rd.2
                        (by cases rd; exact hrd) hdat hinv₁
                    exact ih (.combs (.mk n vars arr deps) path force rest
                        runAcc (arrAcc ++ [(c₀, rd.1.1)])) rd.2 res st'
                      hrest hat hinv₂
                  · have hinv₂ : Inv root rd.2 :=
                      ih (.deps deps path 0 c₀ [])
                        (classify resolver n c₀ path st).2 rd.1 rd.2
                        (by cases rd; exact hrd) hdat hinv₁
                    have hinv₃ :
                        Inv root (commitRun exec n path c₀ rd.1.1 rd.2).2 :=
                      Inv_commitRun root n path hpn₀ huq exec c₀ rd.1.1
                        rd.2 hinv₂
                    exact ih (.combs (.mk n vars arr deps) path force rest
                        (runAcc ++
                          [(commitRun exec n path c₀ rd.1.1 rd.2).1])
                        arrAcc) (commitRun exec n path c₀ rd.1.1 rd.2).2
                      res st' hrest hat hinv₃
                  · exact ih (.combs (.mk n vars arr deps) path force rest
                        (runAcc ++ [e₀.id]) arrAcc)
                      (classify resolver n c₀ path st).2 res st' hrest hat
                      hinv₁
      | deps ds path idx c acc =>
          cases ds with
          | nil =>
              obtain ⟨-, hst⟩ := run_deps_nil_inv h
              subst hst
              exact hinv
          | cons hd tl =>
              obtain ⟨fe, d⟩ := hd
              obtain ⟨j₀, hj₀, hks⟩ := hat
              obtain ⟨rt, hrt, hrest⟩ := run_deps_cons_inv h
              have htree : subtreeAt (path ++ [idx]) root = some d := by
                rw [subtreeAt_append, hj₀]
                have h0 := hks 0 (fe, d) (by simp)
                rw [Nat.add_zero] at h0
                simp only [Option.bind_eq_bind, Option.some_bind,
                  subtreeAt, h0]
              have hinv₁ : Inv root rt.2 :=
                ih (.tree d (path ++ [idx])
                    (c.filter (fun kv => memStr kv.1 fe)) false) st rt.1
                  rt.2 (by cases rt; exact hrt) htree hinv
              refine ih (.deps tl path (idx + 1) c (acc ++ rt.1.1)) rt.2
                res st' hrest ⟨j₀, hj₀, ?_⟩ hinv₁
              intro k pr hk
              have hk' : ((fe, d) :: tl)[k + 1]? = some pr := by
                rw [List.getElem?_cons_succ]
                exact hk
              have h2 := hks (k + 1) pr hk'
              rw [show idx + 1 + k = idx + (k + 1) by omega]
              exact h2

end Sched

/-! ### Claim C9 — scheduled map / ledger pairing -/

/-- C9 counterexample: the claimed invariant — every combination in an
instance's scheduled map has a ledger entry under the instance's job
name with the same identifier and success `false` — fails when a job
name occurs twice in the tree.  In the diamond `P2 → A → C`, `P2 → B → C`
(resolver always DONE) the two `C` instances share the ledger slice
`"C"`: the second instance's resolver query flips the entry written by
the first instance to success `true`, while the first instance's
scheduled map (path `[0, 0]`) still holds the combination. -/
theorem C9_scheduled_ledger_pairing_counterexample :
    ∃ (res : List String × List (Sched.Comb × List String))
      (st' : Sched.St),
      Sched.scheduleTree (fun k => "r" ++ Nat.repr k)
        (fun _ => Sched.JobState.DONE) [[]] 12
        (.mk "P2" [] false
          [([], .mk "A" [] false [([], .mk "C" [] false [])]),
           ([], .mk "B" [] false [([], .mk "C" [] false [])])])
        [] false ⟨[], [], [], 0⟩ = .ok (res, st') ∧
      Sched.pathName
        (.mk "P2" [] false
          [([], .mk "A" [] false [([], .mk "C" [] false [])]),
           ([], .mk "B" [] false [([], .mk "C" [] false [])])])
        [0, 0] = some "C" ∧
      Sched.smGet st'.schedm [0, 0] [] = some "r0" ∧
      ∀ e : Sched.Entry, Sched.ledgerGet st'.former "C" [] = some e →
        ¬(e.id = "r0" ∧ e.success = false) := by
  refine ⟨(["r3"], []),
    ⟨[("C", [([], { id := "r0", success := true })]),
      ("A", [([], { id := "r1", success := false })]),
      ("B", [([], { id := "r2", success := false })]),
      ("P2", [([], { id := "r3", success := false })])],
     [([0, 0], [([], "r0")]), ([0], [([], "r1")]),
      ([1], [([], "r2")]), ([], [([], "r3")])],
     [Sched.Event.sched "P2" 1 ["r1", "r2"] "r1:r2" "r3" [[]],
      Sched.Event.sched "B" 1 ["r0"] "r0" "r2" [[]],
      Sched.Event.query "C" [] "r0",
      Sched.Event.sched "A" 1 ["r0"] "r0" "r1" [[]],
      Sched.Event.sched "C" 1 [] "" "r0" [[]]],
     4⟩, rfl, rfl, rfl, ?_⟩
  intro e he
  have he₂ : some ({ id := "r0", success := true } : Sched.Entry) =
      some e := he
  cases he₂
  simp

/-- C9 (amended, restricted to duplicate-free job names): when no job
name occurs twice in the dependency tree, the scheduled map and the
ledger are always written together: throughout an invocation every
combination in the scheduled map of an instance path has a ledger entry
under that instance's job name holding the same run identifier with
success `false` — any invocation started in a state satisfying this
pairing ends in a state satisfying it. -/
theorem C9_scheduled_ledger_pairing_amended (exec : Nat → String)
    (resolver : String → Sched.JobState) (possible : List Sched.Comb)
    (fuel : Nat) (root : Sched.JobSpec) (current : Sched.Comb)
    (force : Bool) (st : Sched.St)
    (res : List String × List (Sched.Comb × List String))
    (st' : Sched.St) (hnd : (Sched.jobNames root).Nodup)
    (hrun : Sched.scheduleTree exec resolver possible fuel root current
      force st = .ok (res, st'))
    (hinv : Sched.Inv root st) : Sched.Inv root st' :=
  Sched.run_preserves_inv exec resolver possible root hnd fuel
    (.tree root [] current force) st res st' hrun rfl hinv

/-- Concrete witness for the amended C9: the chain `P → D` with distinct
names, run from the empty state, ends in a state satisfying the
scheduled-map/ledger pairing. -/
theorem C9_scheduled_ledger_pairing_amended_witness :
    Sched.Inv (.mk "P" [] false [([], .mk "D" [] false [])])
      ⟨[("D", [([], { id := "r0", success := false })]),
        ("P", [([], { id := "r1", success := false })])],
       [([0], [([], "r0")]), ([], [([], "r1")])],
       [Sched.Event.sched "P" 1 ["r0"] "r0" "r1" [[]],
        Sched.Event.sched "D" 1 [] "" "r0" [[]]], 2⟩ :=
  C9_scheduled_ledger_pairing_amended (fun k => "r" ++ Nat.repr k)
    (fun _ => Sched.JobState.DONE) [[]] 8
    (.mk "P" [] false [([], .mk "D" [] false [])]) [] false
    ⟨[], [], [], 0⟩ (["r1"], [])
    ⟨[("D", [([], { id := "r0", success := false })]),
      ("P", [([], { id := "r1", success := false })])],
     [([0], [([], "r0")]), ([], [([], "r1")])],
     [Sched.Event.sched "P" 1 ["r0"] "r0" "r1" [[]],
      Sched.Event.sched "D" 1 [] "" "r0" [[]]], 2⟩
    (by simp [Sched.jobNames, Sched.depsNames]) rfl
    (fun p n c id hpn hsm => Option.noConfusion hsm)
